import Mathlib

/-!
Verification development for the QuantumFlow circuit execution engine
(backend/app/qiskit_runner.py, backend/app/hardware_metrics.py,
backend/app/cosmic_metrics.py).

The Python reference implementation is embedded shallowly:

* Python numbers (floats / ints) are modelled by an arbitrary linear ordered
  field `K` with a floor (so `ℚ` instantiates every definition and all
  definitions stay computable).  Floating-point rounding is idealised away:
  arithmetic is exact.  The float constant `math.pi` is kept abstract as the
  rational `mathPi` (the exact value of the IEEE-754 double closest to π).
* Python dicts keyed by bitstrings are modelled as association lists in
  insertion order, which matches CPython dict iteration order.
* Calls into the third-party Qiskit library (`Statevector.evolve`,
  `Statevector.from_instruction`, `transpile` + `backend.run`) are kept
  abstract as fields of a `QiskitEnv` record; theorems that need their
  documented contracts (unitaries preserve the 2-norm, a sampler returns
  exactly `shots` samples) take those contracts as explicit hypotheses.
* Fallible Python code (raise ValueError / RuntimeError) is modelled with
  `Except RunErr`.
-/

namespace QuantumFlow

/-- Python `str.isspace` characters relevant to `.strip()`. -/
def isPySpace (c : Char) : Bool :=
  c = ' ' ∨ c = '\t' ∨ c = '\n' ∨ c = '\r' ∨ c = '\x0b' ∨ c = '\x0c'

/-- ASCII lowering of one character (the strings meeting `.lower()` in the
engine are ASCII keywords). -/
def pyLowerChar (c : Char) : Char :=
  if 'A' ≤ c ∧ c ≤ 'Z' then Char.ofNat (c.toNat + 32) else c

/-- Python `str.lower()` (ASCII domain). -/
def pyLower (s : String) : String := ⟨s.data.map pyLowerChar⟩

/-- Python `str.strip()`. -/
def pyStrip (s : String) : String :=
  ⟨(((s.data.dropWhile isPySpace).reverse).dropWhile isPySpace).reverse⟩

/-- Python `str.strip().lower()`. -/
def pyStripLower (s : String) : String := pyLower (pyStrip s)

/-- A complex amplitude with components in `K` (models a Python `complex`). -/
structure Cplx (K : Type) where
  re : K
  im : K
deriving Repr, DecidableEq

namespace Cplx

def zero {K : Type} [LinearOrderedField K] : Cplx K := ⟨0, 0⟩

/-- Squared magnitude `amp.real*amp.real + amp.imag*amp.imag` as computed
throughout `qiskit_runner.py`. -/
def sqAbs {K : Type} [LinearOrderedField K] (a : Cplx K) : K :=
  a.re * a.re + a.im * a.im

/-- Componentwise division by a real scalar (numpy `data / norm`). -/
def divReal {K : Type} [LinearOrderedField K] (a : Cplx K) (r : K) : Cplx K :=
  ⟨a.re / r, a.im / r⟩

end Cplx

/-- Sum of squared magnitudes of a statevector (its squared 2-norm). -/
def svNormSq {K : Type} [LinearOrderedField K] (s : List (Cplx K)) : K :=
  (s.map Cplx.sqAbs).sum

/-- The `bits` field of a classical condition: either a bare Python `int`
or a Python list of ints (`_condition_is_met` / `_apply_condition` treat
the two shapes differently). -/
inductive CondBits where
  | one (i : ℤ)
  | many (l : List ℤ)
deriving Repr, DecidableEq

/-- A classical condition (the value of `params["condition"]` / `params["c_if"]`).
`ofDict` models a non-empty dict `{"bits": ..., "value": ...}` (with `none`
for an absent or `None` entry); `ofInt` models a bare integer condition.
An absent key, a `None` value and an empty dict — all falsy values that the
engine treats identically to "no condition" — are modelled by `Option.none`
at the use sites. -/
inductive PyCond where
  | ofDict (bits : Option CondBits) (value : Option ℤ)
  | ofInt (v : ℤ)
deriving Repr, DecidableEq

/-- Python truthiness of a (present) condition value: a non-empty dict is
truthy, an int is truthy iff non-zero. -/
def PyCond.truthy : PyCond → Bool
  | .ofDict _ _ => true
  | .ofInt v => v ≠ 0

/-- Errors raised by the engine (`ValueError` / `RuntimeError` payloads). -/
inductive RunErr where
  | capacityExceeded (maxQubits requested : ℕ)
  | valueError (msg : String)
deriving Repr, DecidableEq

/-- A Python value that is either an int or a list of ints (the shape of
the `qubits`/`vector`/`register` input-declaration params read by
`cosmic_metrics._resolve_input_vectors`). -/
inductive IntOrList where
  | anInt (i : ℤ)
  | aList (l : List ℤ)
deriving Repr, DecidableEq

/-- The gate `params` mapping, restricted to the keys the engine reads.
The key pairs `condition`/`c_if`, `cbit`/`classical_bit`,
`reset_after`/`reset` and the triple `qubits`/`vector`/`register` are each
resolved to one field, exactly as the Python `or`-chains resolve them (every
reader resolves the aliases to one value before use). -/
structure GateParams (K : Type) where
  theta : Option K
  angle : Option K
  phi : Option K
  lam : Option K
  basis : Option String
  cbit : Option ℤ
  classicalBit : Option ℤ
  resetAfter : Option Bool
  reset : Option Bool
  condition : Option PyCond
  inputVector : Option IntOrList
deriving Repr, DecidableEq

/-- `params` with every key absent. -/
def GateParams.empty {K : Type} : GateParams K :=
  ⟨none, none, none, none, none, none, none, none, none, none, none⟩

/-- One abstract gate operation: the JSON gate record consumed by
`run_circuit`.  `position` is `some p` for an integer position and `none`
otherwise (the engine treats non-integer positions as absent). -/
structure Gate (K : Type) where
  type : String
  qubit : Option ℤ
  targets : List ℤ
  controls : List ℤ
  position : Option ℤ
  params : GateParams K
deriving Repr, DecidableEq

/-- A gate with only a type, a qubit and a position (common case). -/
def Gate.simple {K : Type} (t : String) (q : ℤ) (pos : ℤ) : Gate K :=
  ⟨t, some q, [], [], some pos, GateParams.empty⟩

/-- Python `a or b` over two optional numbers followed by a numeric default,
as in `params.get("theta") or params.get("angle") or 0`: the first present
*truthy* (non-zero) value wins, otherwise the default. -/
def pyOrNum {K : Type} [LinearOrderedField K] : List (Option K) → K → K
  | [], d => d
  | some v :: rest, d => if v = 0 then pyOrNum rest d else v
  | none :: rest, d => pyOrNum rest d

/-- Python `a or b` over optional ints with no default (the result may be a
present falsy value, e.g. `0 or None` is `None` but `None or 0` is `0`). -/
def pyOrInt : List (Option ℤ) → Option ℤ
  | [] => none
  | [x] => x
  | some v :: rest => if v = 0 then pyOrInt rest else some v
  | none :: rest => pyOrInt rest

/-- `_as_bool(params.get("reset_after") or params.get("reset"))`. -/
def resolveResetAfter {K : Type} (p : GateParams K) : Bool :=
  match p.resetAfter with
  | some true => true
  | some false => p.reset.getD false
  | none => p.reset.getD false

/-- The exact double-precision value of Python `math.pi`,
i.e. 884279719003555 / 2^48. -/
def mathPi {K : Type} [LinearOrderedField K] : K :=
  (884279719003555 : K) / 281474976710656

/-- `_get_angle`: the Angle Normalizer heuristic.  Values within `1e-9` of
an integer with magnitude at most 360 are treated as degrees; otherwise
values with magnitude at most 2π are treated as radians; otherwise degrees.
(`float(value)` coercion failures are outside the numeric domain modelled
here.) -/
def getAngle {K : Type} [LinearOrderedField K] [FloorRing K] (angle : K) : K :=
  if |angle - round angle| < 1 / 1000000000 ∧ |angle| ≤ 360 then
    angle * mathPi / 180
  else if |angle| ≤ 2 * mathPi then
    angle
  else
    angle * mathPi / 180

/-- Pack classical bits LSB-first exactly as the `reg_value` loop of
`_condition_is_met` does: bit `idx` of the result is set iff the `idx`-th
listed classical bit is truthy. -/
def packBitsLSB : List ℕ → ℕ
  | [] => 0
  | b :: rest => (if b ≠ 0 then 1 else 0) + 2 * packBitsLSB rest

/-- `_condition_is_met(condition, classical_bits)`.  `classicalBits` holds
the branch's classical bits (each 0 or 1).  Out-of-range referenced bits
raise, as in the source. -/
def conditionIsMet (condition : Option PyCond) (classicalBits : List ℕ) :
    Except RunErr Bool :=
  match condition with
  | none => .ok true
  | some c =>
    if ¬ c.truthy then .ok true else
    let bits : Option CondBits :=
      match c with
      | .ofDict b _ => b
      | .ofInt _ => none
    let value : Option ℤ :=
      match c with
      | .ofDict _ v => v
      | .ofInt v => some v
    match value with
    | none => .ok true
    | some valueInt =>
      match bits with
      | none =>
        -- condition on the full classical register, packed LSB-first
        .ok ((packBitsLSB classicalBits : ℤ) == valueInt)
      | some (.one i) =>
        -- isinstance(bits, int): bits = [bits]
        if i < 0 ∨ (classicalBits.length : ℤ) ≤ i then
          .error (.valueError "Conditional gate bit index out of range")
        else
          .ok ((packBitsLSB [classicalBits.getD i.toNat 0] : ℤ) == valueInt)
      | some (.many l) =>
        if l.length = 0 then .ok false
        else if l.any (fun i => i < 0 ∨ (classicalBits.length : ℤ) ≤ i) then
          .error (.valueError "Conditional gate bit index out of range")
        else
          .ok ((packBitsLSB (l.map (fun i => classicalBits.getD i.toNat 0)) : ℤ)
                == valueInt)

/-- A classical condition as attached to a circuit instruction by
`_apply_condition` (`instruction.c_if(...)`): either on the first classical
register or on a single classical bit. -/
inductive AppliedCond where
  | onCreg (value : ℤ)
  | onClbit (bit : ℤ) (value : ℤ)
deriving Repr, DecidableEq

/-- One Qiskit instruction as appended by `_apply_gate` /
`_apply_basis_rotation`.  Single-qubit operations keep the raw optional
qubit argument (the source passes `gate.get("qubit")` through unchecked;
Qiskit itself validates it). -/
inductive InstrOp (K : Type) where
  | hOp (q : Option ℤ)
  | xOp (q : Option ℤ)
  | yOp (q : Option ℤ)
  | zOp (q : Option ℤ)
  | sOp (q : Option ℤ)
  | sdgOp (q : ℤ)
  | tOp (q : Option ℤ)
  | rxOp (theta : K) (q : Option ℤ)
  | ryOp (theta : K) (q : Option ℤ)
  | rzOp (theta : K) (q : Option ℤ)
  | pOp (theta : K) (q : Option ℤ)
  | cpOp (theta : K) (c t : ℤ)
  | mcpOp (theta : K) (cs : List ℤ) (t : ℤ)
  | cxOp (c t : ℤ)
  | czOp (c t : ℤ)
  | swapOp (a b : ℤ)
  | ccxOp (c1 c2 t : ℤ)
  | measureOp (q c : ℤ)
  | resetOp (q : ℤ)
deriving Repr, DecidableEq

/-- An instruction together with its optional attached classical condition. -/
structure Instr (K : Type) where
  op : InstrOp K
  cond : Option AppliedCond
deriving Repr, DecidableEq

/-- A Qiskit `QuantumCircuit` as observed by the engine: qubit count,
classical registers (list of register sizes; `QuantumCircuit(n, m)` yields
one register of size `m`, `QuantumCircuit(n)` yields none) and the ordered
instruction list. -/
structure CircuitRep (K : Type) where
  numQubits : ℕ
  cregs : List ℕ
  instrs : List (Instr K)
deriving Repr, DecidableEq

/-- `qc.num_clbits`. -/
def CircuitRep.numClbits {K : Type} (qc : CircuitRep K) : ℕ := qc.cregs.sum

/-- `_normalize_basis`. -/
def normalizeBasis (value : Option String) : String :=
  match value with
  | none => "z"
  | some s => pyStripLower s

/-- `_apply_basis_rotation`: the instructions appended for a measurement
basis change (identity for Z, `h` for X, `sdg` then `h` for Y — modern
Qiskit circuits always have `sdg`); unknown bases raise. -/
def basisRotationInstrs {K : Type} (basis : String) (qubit : ℤ) :
    Except RunErr (List (InstrOp K)) :=
  if basis = "z" then .ok []
  else if basis = "x" then .ok [.hOp (some qubit)]
  else if basis = "y" then .ok [.sdgOp qubit, .hOp (some qubit)]
  else .error (.valueError ("Unsupported measurement basis: " ++ basis))

/-- `_condition_from_params` composed with the truthiness test of
`_apply_condition` / the branching loop: the gate's effective condition
(`none` when absent or falsy). -/
def effectiveCondition {K : Type} (g : Gate K) : Option PyCond :=
  match g.params.condition with
  | none => none
  | some c => if c.truthy then some c else none

/-- `_gate_has_condition`. -/
def gateHasCondition {K : Type} (g : Gate K) : Bool :=
  (effectiveCondition g).isSome

/-- `_apply_condition(instruction, qc, gate)`: resolve the condition the
instruction should carry (`none` when nothing is attached). -/
def applyCondition {K : Type} (qc : CircuitRep K) (g : Gate K) :
    Except RunErr (Option AppliedCond) :=
  match effectiveCondition g with
  | none => .ok none
  | some c =>
    let bits : Option CondBits :=
      match c with
      | .ofDict b _ => b
      | .ofInt _ => none
    let value : Option ℤ :=
      match c with
      | .ofDict _ v => v
      | .ofInt v => some v
    match value with
    | none => .ok none
    | some v =>
      match bits with
      | none =>
        if qc.cregs = [] then
          .error (.valueError "Conditional gate requires a classical register")
        else .ok (some (.onCreg v))
      | some (.one i) =>
        -- isinstance(bits, int) → bits = [bits], a one-element list
        if i < 0 ∨ (qc.numClbits : ℤ) ≤ i then
          .error (.valueError "Conditional gate bit index out of range")
        else .ok (some (.onClbit i v))
      | some (.many l) =>
        match l with
        | [b] =>
          if b < 0 ∨ (qc.numClbits : ℤ) ≤ b then
            .error (.valueError "Conditional gate bit index out of range")
          else .ok (some (.onClbit b v))
        | _ =>
          if qc.cregs = [] then
            .error (.valueError "Conditional gate requires a classical register")
          else .ok (some (.onCreg v))

/-- Append one instruction with the gate's attached condition. -/
def appendWithCond {K : Type} (qc : CircuitRep K) (g : Gate K) (op : InstrOp K) :
    Except RunErr (CircuitRep K) := do
  let cond ← applyCondition qc g
  .ok { qc with instrs := qc.instrs ++ [⟨op, cond⟩] }

/-- `_measurement_target_and_cbit(gate, num_clbits)`. -/
def measurementTargetAndCbit {K : Type} (g : Gate K) (numClbits : ℕ) :
    Except RunErr (ℤ × ℤ) :=
  let target? : Option ℤ :=
    match g.qubit with
    | some q => some q
    | none => g.targets.head?
  match target? with
  | none => .error (.valueError "Measure requires \x27qubit\x27 or targets[0]")
  | some target =>
    let cbit := (pyOrInt [g.params.cbit, g.params.classicalBit]).getD target
    if cbit < 0 ∨ (numClbits : ℤ) ≤ cbit then
      .error (.valueError "Measure requires a valid classical bit index")
    else .ok (target, cbit)

/-- `_apply_gate(qc, gate)`: translate one abstract gate into circuit
instructions, mirroring the string dispatch of the source (including its
fail-fast validation and error messages).  The capability probes
`hasattr(qc, "mcp")` / `hasattr(qc, "sdg")` are modelled as true, which is
what modern Qiskit provides. -/
def applyGate {K : Type} [LinearOrderedField K] [FloorRing K]
    (qc : CircuitRep K) (g : Gate K) : Except RunErr (CircuitRep K) :=
  let params := g.params
  let targets := g.targets
  let controls := g.controls
  if g.type = "h" then appendWithCond qc g (.hOp g.qubit)
  else if g.type = "x" then appendWithCond qc g (.xOp g.qubit)
  else if g.type = "y" then appendWithCond qc g (.yOp g.qubit)
  else if g.type = "z" then appendWithCond qc g (.zOp g.qubit)
  else if g.type = "s" then appendWithCond qc g (.sOp g.qubit)
  else if g.type = "t" then appendWithCond qc g (.tOp g.qubit)
  else if g.type = "rx" then
    appendWithCond qc g (.rxOp (getAngle (pyOrNum [params.theta, params.angle] 0)) g.qubit)
  else if g.type = "ry" then
    appendWithCond qc g (.ryOp (getAngle (pyOrNum [params.theta, params.angle] 0)) g.qubit)
  else if g.type = "rz" then
    appendWithCond qc g (.rzOp (getAngle (pyOrNum [params.phi, params.lam, params.angle] 0)) g.qubit)
  else if g.type = "p" then
    let angle := getAngle (pyOrNum [params.phi, params.lam, params.angle] 0)
    match controls with
    | [] => appendWithCond qc g (.pOp angle g.qubit)
    | c :: rest =>
      let target? : Option ℤ :=
        match g.qubit with
        | some q => some q
        | none => targets.head?
      match target? with
      | none => .error (.valueError "Controlled-P requires a target (qubit or targets[0])")
      | some target =>
        match rest with
        | [] => appendWithCond qc g (.cpOp angle c target)
        | _ => appendWithCond qc g (.mcpOp angle controls target)
  else if g.type = "cp" then
    let angle := getAngle (pyOrNum [params.phi, params.lam, params.angle] 0)
    let control? : Option ℤ := match controls with | c :: _ => some c | [] => g.qubit
    match control?, targets.head? with
    | some control, some target => appendWithCond qc g (.cpOp angle control target)
    | _, _ => .error (.valueError "CP requires control (qubit/controls[0]) and targets[0]")
  else if g.type = "cnot" ∨ g.type = "cx" then
    let control? : Option ℤ :=
      match g.qubit with
      | some q => some q
      | none => controls.head?
    match control?, targets.head? with
    | some control, some target => appendWithCond qc g (.cxOp control target)
    | _, _ => .error (.valueError "CNOT requires control (qubit/controls[0]) and targets[0]")
  else if g.type = "cz" then
    let control? : Option ℤ :=
      match g.qubit with
      | some q => some q
      | none => controls.head?
    match control?, targets.head? with
    | some control, some target => appendWithCond qc g (.czOp control target)
    | _, _ => .error (.valueError "CZ requires control and target")
  else if g.type = "swap" then
    let pair? : Option (ℤ × ℤ) :=
      match g.qubit with
      | some q1 =>
        match targets.head? with
        | some q2 => some (q1, q2)
        | none => match controls.head? with
          | some q2 => some (q1, q2)
          | none => none
      | none =>
        match targets with
        | q1 :: q2 :: _ => some (q1, q2)
        | [q1] => match controls.head? with
          | some q2 => some (q1, q2)
          | none => none
        | [] => none
    match pair? with
    | some (q1, q2) => appendWithCond qc g (.swapOp q1 q2)
    | none =>
      .error (.valueError
        "SWAP requires two qubits (qubit & targets[0] or targets[0] & controls[0])")
  else if g.type = "toffoli" ∨ g.type = "ccx" then
    match controls, targets with
    | c1 :: c2 :: _, t1 :: _ => appendWithCond qc g (.ccxOp c1 c2 t1)
    | _, _ => .error (.valueError "Toffoli requires controls[0], controls[1], targets[0]")
  else if g.type = "measure" then
    let target? : Option ℤ :=
      match g.qubit with
      | some q => some q
      | none => targets.head?
    match target? with
    | none => .error (.valueError "Measure requires \x27qubit\x27 or targets[0]")
    | some target =>
      let basis := normalizeBasis params.basis
      let cbit := (pyOrInt [params.cbit, params.classicalBit]).getD target
      if cbit < 0 ∨ (qc.numClbits : ℤ) ≤ cbit then
        .error (.valueError "Measure requires a valid classical bit index")
      else do
        let rot ← basisRotationInstrs basis target
        let withRot := qc.instrs ++ rot.map (fun op => ⟨op, none⟩) ++ [⟨.measureOp target cbit, none⟩]
        let withReset :=
          if resolveResetAfter params then withRot ++ [⟨.resetOp target, none⟩] else withRot
        .ok { qc with instrs := withReset }
  else
    .error (.valueError ("Unsupported gate type: " ++ g.type))

/-- Apply a whole gate list to a circuit in order. -/
def applyGates {K : Type} [LinearOrderedField K] [FloorRing K]
    (qc : CircuitRep K) (gates : List (Gate K)) : Except RunErr (CircuitRep K) :=
  gates.foldlM applyGate qc

/-- The result of the abstract shot-based backend (`backend.run(...).result()`):
integer bitstring counts plus the optional per-shot memory. -/
structure BackendOut where
  counts : List (String × ℤ)
  memoryOut : Option (List String)
deriving Repr, DecidableEq

/-- The abstract interface to the third-party Qiskit library.  `σ` is the
type of the sampler's random state (seed): only `backendRun` may consume it.

* `sqrt` models `math.sqrt` / `** 0.5`.
* `evolve qc s` models `Statevector(s).evolve(qc)` for the small helper
  circuits built by `_apply_gate_unitary`, `_apply_basis_rotation_statevector`
  and `_apply_reset_statevector`.
* `simulate qc` models `Statevector.from_instruction(qc)`.
* `backendRun qc shots memory noisy seed` models `transpile` plus
  `backend.run(...)` (with the depolarizing noise model when `noisy`). -/
structure QiskitEnv (K : Type) (σ : Type) where
  sqrt : K → K
  evolve : CircuitRep K → List (Cplx K) → Except RunErr (List (Cplx K))
  simulate : CircuitRep K → Except RunErr (List (Cplx K))
  backendRun : CircuitRep K → ℤ → Bool → Bool → σ → Except RunErr BackendOut

/-- `_apply_gate_unitary(statevector, gate, num_qubits)`: strip the
classical condition, build a one-gate circuit on `num_qubits` qubits (no
classical register) and evolve the statevector through it. -/
def stripCondition {K : Type} (g : Gate K) : Gate K :=
  { g with params := { g.params with condition := none } }

def applyGateUnitary {K : Type} [LinearOrderedField K] [FloorRing K] {σ : Type}
    (env : QiskitEnv K σ) (numQubits : ℕ) (g : Gate K) (s : List (Cplx K)) :
    Except RunErr (List (Cplx K)) := do
  let qcTmp ← applyGate ⟨numQubits, [], []⟩ (stripCondition g)
  env.evolve qcTmp s

/-- `_apply_basis_rotation_statevector`. -/
def applyBasisRotationStatevector {K : Type} [LinearOrderedField K] {σ : Type}
    (env : QiskitEnv K σ) (numQubits : ℕ) (basis : String) (qubit : ℤ)
    (s : List (Cplx K)) : Except RunErr (List (Cplx K)) := do
  let rot ← basisRotationInstrs basis qubit
  env.evolve ⟨numQubits, [], rot.map (fun op => ⟨op, none⟩)⟩ s

/-- `_apply_reset_statevector`: evolve through a one-`x`-gate circuit
(the caller only uses it on the outcome-1 branch, where the X flips the
collapsed qubit back to |0⟩). -/
def applyResetStatevector {K : Type} [LinearOrderedField K] {σ : Type}
    (env : QiskitEnv K σ) (numQubits : ℕ) (target : ℤ) (s : List (Cplx K)) :
    Except RunErr (List (Cplx K)) :=
  env.evolve ⟨numQubits, [], [⟨.xOp (some target), none⟩]⟩ s

/-- `_measurement_probabilities`, generalized over the running index of its
enumeration loop: `(p0, p1)` accumulates the squared magnitude of every
amplitude according to bit `target` of its index. -/
def measProbsFrom {K : Type} [LinearOrderedField K] (target : ℕ) :
    ℕ → List (Cplx K) → K × K
  | _, [] => (0, 0)
  | idx, a :: rest =>
    let pr := measProbsFrom target (idx + 1) rest
    if Nat.testBit idx target then (pr.1, pr.2 + a.sqAbs) else (pr.1 + a.sqAbs, pr.2)

/-- `_measurement_probabilities(statevector, target)`. -/
def measurementProbabilities {K : Type} [LinearOrderedField K]
    (s : List (Cplx K)) (target : ℕ) : K × K :=
  measProbsFrom target 0 s

/-- The zeroing loop of `_collapse_statevector`: every amplitude whose
index bit `target` disagrees with `outcome` is set to 0. -/
def zeroFrom {K : Type} [LinearOrderedField K] (target outcome : ℕ) :
    ℕ → List (Cplx K) → List (Cplx K)
  | _, [] => []
  | idx, a :: rest =>
    (if (if Nat.testBit idx target then 1 else 0) ≠ outcome then Cplx.zero else a) ::
      zeroFrom target outcome (idx + 1) rest

/-- `_collapse_statevector(statevector, target, outcome)`. -/
def collapseStatevector {K : Type} [LinearOrderedField K] (sqrt : K → K)
    (s : List (Cplx K)) (target outcome : ℕ) : List (Cplx K) :=
  let data := zeroFrom target outcome 0 s
  let norm := sqrt (svNormSq data)
  if 0 < norm then data.map (fun a => a.divReal norm) else data

/-- One execution branch of the branching exact strategy:
`(probability_mass, amplitude_vector, classical_bits)`. -/
structure Branch (K : Type) where
  mass : K
  state : List (Cplx K)
  classical : List ℕ
deriving Repr, DecidableEq

/-- `Statevector.from_label("0" * n)`: the all-zeros basis state. -/
def basisStateZero (K : Type) [LinearOrderedField K] (n : ℕ) : List (Cplx K) :=
  (List.range (2 ^ n)).map (fun i => if i = 0 then ⟨1, 0⟩ else ⟨0, 0⟩)

/-- The initial branch set: one branch of mass 1, all-zeros state, all
classical bits 0. -/
def initialBranches (K : Type) [LinearOrderedField K] (n : ℕ) : List (Branch K) :=
  [⟨1, basisStateZero K n, List.replicate n 0⟩]

/-- One live branch's children under a measurement: apply the basis
rotation, compute the outcome probabilities, and build the (up to two)
collapsed children, one per strictly positive outcome probability (the
inner `for outcome, prob in ((0, p0), (1, p1))` loop of `run_circuit`). -/
def measureChildren {K : Type} [LinearOrderedField K] {σ : Type}
    (env : QiskitEnv K σ) (numQubits : ℕ) (basis : String) (target cbit : ℤ)
    (resetAfter : Bool) (br : Branch K) : Except RunErr (List (Branch K)) := do
  let rotated ← applyBasisRotationStatevector env numQubits basis target br.state
  let pr := measurementProbabilities rotated target.toNat
  let child : ℕ → K → Except RunErr (List (Branch K)) := fun outcome prob => do
    if prob ≤ 0 then
      .ok []
    else do
      let collapsed := collapseStatevector env.sqrt rotated target.toNat outcome
      let collapsed ←
        if resetAfter ∧ outcome = 1 then
          applyResetStatevector env numQubits target collapsed
        else .ok collapsed
      .ok [⟨br.mass * prob, collapsed, br.classical.set cbit.toNat outcome⟩]
  let c0 ← child 0 pr.1
  let c1 ← child 1 pr.2
  .ok (c0 ++ c1)

/-- One iteration of the per-branch measurement loop: skip weightless
branches, otherwise append the branch's children. -/
def measureFoldStep {K : Type} [LinearOrderedField K] {σ : Type}
    (env : QiskitEnv K σ) (numQubits : ℕ) (basis : String) (target cbit : ℤ)
    (resetAfter : Bool) (acc : List (Branch K)) (br : Branch K) :
    Except RunErr (List (Branch K)) := do
  if br.mass ≤ 0 then
    .ok acc
  else do
    let cs ← measureChildren env numQubits basis target cbit resetAfter br
    .ok (acc ++ cs)

/-- The measurement-gate case of the branching loop in `run_circuit`:
fork every live branch on the two measurement outcomes, dropping
zero-probability children. -/
def measureStep {K : Type} [LinearOrderedField K] {σ : Type}
    (env : QiskitEnv K σ) (numQubits : ℕ) (g : Gate K)
    (branches : List (Branch K)) : Except RunErr (List (Branch K)) := do
  let basis := normalizeBasis g.params.basis
  let resetAfter := resolveResetAfter g.params
  let tc ← measurementTargetAndCbit g numQubits
  branches.foldlM (measureFoldStep env numQubits basis tc.1 tc.2 resetAfter) []

/-- One iteration of the per-branch conditional-gate loop: keep an
unsatisfied branch untouched, otherwise apply the unitary. -/
def unitaryFoldStep {K : Type} [LinearOrderedField K] [FloorRing K] {σ : Type}
    (env : QiskitEnv K σ) (numQubits : ℕ) (g : Gate K)
    (acc : List (Branch K)) (br : Branch K) : Except RunErr (List (Branch K)) := do
  let met ← conditionIsMet (effectiveCondition g) br.classical
  if (effectiveCondition g).isSome ∧ ¬ met then
    .ok (acc ++ [br])
  else do
    let updated ← applyGateUnitary env numQubits g br.state
    .ok (acc ++ [⟨br.mass, updated, br.classical⟩])

/-- The non-measurement case of the branching loop: evaluate the classical
condition per branch; apply the unitary on satisfied branches, keep
unsatisfied branches untouched. -/
def unitaryStep {K : Type} [LinearOrderedField K] [FloorRing K] {σ : Type}
    (env : QiskitEnv K σ) (numQubits : ℕ) (g : Gate K)
    (branches : List (Branch K)) : Except RunErr (List (Branch K)) :=
  branches.foldlM (unitaryFoldStep env numQubits g) []

/-- One iteration of the branching loop of `run_circuit`. -/
def stepGate {K : Type} [LinearOrderedField K] [FloorRing K] {σ : Type}
    (env : QiskitEnv K σ) (numQubits : ℕ) (branches : List (Branch K))
    (g : Gate K) : Except RunErr (List (Branch K)) :=
  if g.type = "measure" then measureStep env numQubits g branches
  else unitaryStep env numQubits g branches

/-- The whole branching loop, from the initial single branch of mass 1. -/
def processGates {K : Type} [LinearOrderedField K] [FloorRing K] {σ : Type}
    (env : QiskitEnv K σ) (numQubits : ℕ) (gates : List (Gate K)) :
    Except RunErr (List (Branch K)) :=
  gates.foldlM (stepGate env numQubits) (initialBranches K numQubits)

/-- Python `int(x)` for a float: truncation toward zero. -/
def pyTrunc {K : Type} [LinearOrderedField K] [FloorRing K] (x : K) : ℤ :=
  if x < 0 then -⌊-x⌋ else ⌊x⌋

/-- `format(i, f"0{w}b")` for `i < 2^w`: fixed-width binary,
most-significant bit first. -/
def natBinChars : ℕ → ℕ → List Char
  | 0, _ => []
  | w + 1, i => natBinChars w (i / 2) ++ [if i % 2 = 1 then '1' else '0']

def bitString (w i : ℕ) : String := ⟨natBinChars w i⟩

/-- `d[k] = d.get(k, 0.0) + v` on an insertion-ordered dict. -/
def addAssoc {K : Type} [LinearOrderedField K] (l : List (String × K))
    (k : String) (v : K) : List (String × K) :=
  match l with
  | [] => [(k, v)]
  | (k2, v2) :: rest =>
    if k2 = k then (k2, v2 + v) :: rest else (k2, v2) :: addAssoc rest k v

/-- `d[k] = v` on an insertion-ordered dict (overwrite or append). -/
def setAssoc {α : Type} (l : List (ℤ × α)) (k : ℤ) (v : α) : List (ℤ × α) :=
  match l with
  | [] => [(k, v)]
  | (k2, v2) :: rest =>
    if k2 = k then (k2, v) :: rest else (k2, v2) :: setAssoc rest k v

/-- Stable insertion into a sorted list: the new element goes after every
element `y` with `le y x` (so elements comparing equal keep their original
relative order, as Python\x27s stable `sorted` guarantees). -/
def stableInsert {α : Type} (le : α → α → Bool) (x : α) : List α → List α
  | [] => [x]
  | y :: rest => if le y x then y :: stableInsert le x rest else x :: y :: rest

/-- Python\x27s `sorted(l, key=...)` as a stable structural-recursion sort
(Python\x27s Timsort is observationally the same function for a total
preorder comparator). -/
def stableSort {α : Type} (le : α → α → Bool) (l : List α) : List α :=
  l.foldl (fun acc x => stableInsert le x acc) []

/-- The descending comparison used for `sorted(..., reverse=True)` over
`(fractional_part, key)` tuples (keys are distinct dict keys, so ties in
both components cannot occur). -/
def descFracKey {K : Type} [LinearOrderedField K] (a b : K × String) : Bool :=
  decide (b.1 < a.1 ∨ (b.1 = a.1 ∧ b.2 ≤ a.2))

/-- `_probabilities_to_counts(probabilities, shots)`: normalize, scale by
`shots`, floor, then hand the missing shots to the keys with the largest
remainders, and drop zero-count keys.  The dict is an association list with
pairwise-distinct keys (a Python dict guarantees this), so the membership
update below matches the source's per-key increment. -/
def probabilitiesToCounts {K : Type} [LinearOrderedField K] [FloorRing K]
    (probabilities : List (String × K)) (shots : ℤ) : List (String × ℤ) :=
  if shots ≤ 0 then probabilities.map (fun kv => (kv.1, 0)) else
  let totalP := (probabilities.map (fun kv => kv.2)).sum
  if totalP ≤ 0 then [] else
  let probs := probabilities.map (fun kv => (kv.1, max 0 (kv.2 / totalP)))
  let raw := probs.map (fun kv => (kv.1, kv.2 * (shots : K)))
  let floored := raw.map (fun kv => (kv.1, pyTrunc kv.2))
  let remainder := shots - (floored.map (fun kv => kv.2)).sum
  let floored2 :=
    if 0 < remainder then
      let frac := stableSort descFracKey
        (raw.map (fun kv => (kv.2 - (pyTrunc kv.2 : K), kv.1)))
      let chosen := (frac.take remainder.toNat).map (fun fk => fk.2)
      floored.map (fun kv => if kv.1 ∈ chosen then (kv.1, kv.2 + 1) else kv)
    else floored
  floored2.filter (fun kv => 0 < kv.2)

/-- The probability-aggregation loop at the end of the branching strategy,
for one branch of weight `w`: add `w * |amp|²` under the amplitude's
bitstring key, skipping zero entries. -/
def accumState {K : Type} [LinearOrderedField K] (w : K) (numQubits : ℕ) :
    ℕ → List (Cplx K) → List (String × K) → List (String × K)
  | _, [], acc => acc
  | idx, a :: rest, acc =>
    accumState w numQubits (idx + 1) rest
      (if 0 < a.sqAbs then addAssoc acc (bitString numQubits idx) (w * a.sqAbs) else acc)

/-- The weighted outcome distribution over all live branches. -/
def aggregateProbabilities {K : Type} [LinearOrderedField K] (numQubits : ℕ)
    (branches : List (Branch K)) : List (String × K) :=
  branches.foldl
    (fun acc br => if br.mass ≤ 0 then acc else accumState br.mass numQubits 0 br.state acc)
    []

/-- The defensive renormalization after aggregation: rescale only when the
total drifted from 1 by more than `1e-9`. -/
def renormalizeProbabilities {K : Type} [LinearOrderedField K]
    (probs : List (String × K)) : List (String × K) :=
  let total := (probs.map (fun kv => kv.2)).sum
  if 0 < total ∧ 1 / 1000000000 < |total - 1| then
    probs.map (fun kv => (kv.1, kv.2 / total))
  else probs

/-- `_extract_measurement_basis(gates, num_qubits)`. -/
def extractMeasurementBasis {K : Type} (gates : List (Gate K)) (numQubits : ℕ) :
    List (ℤ × String) :=
  let basisMap := gates.foldl
    (fun acc g =>
      if g.type ≠ "measure" then acc
      else
        match (match g.qubit with | some q => some q | none => g.targets.head?) with
        | none => acc
        | some t => setAssoc acc t (normalizeBasis g.params.basis))
    []
  if basisMap = [] then (List.range numQubits).map (fun i => ((i : ℤ), "z")) else basisMap

/-- `_gate_qubit_count` of `hardware_metrics.py`: the number of distinct
qubits named by the gate. -/
def hwGateQubitCount {K : Type} (g : Gate K) : ℕ :=
  (((match g.qubit with | some q => [q] | none => []) ++ g.targets ++ g.controls).dedup).length

/-- `hardware_metrics.calculate_hardware_metrics` output record. -/
structure HardwareMetrics (K : Type) where
  circuitDepth : ℤ
  circuitWidth : ℤ
  gateCount : List (String × ℕ)
  tCount : ℕ
  tDepth : ℕ
  cnotCount : ℕ
  singleQubitGates : ℕ
  twoQubitGates : ℕ
  multiQubitGates : ℕ
  measurementCount : ℕ
  entanglementRatio : K
  entanglementDepth : ℕ
  quantumVolume : ℕ
  estimatedFidelity : Option K
deriving Repr, DecidableEq

/-- `str → count` incremented dict for gate types (keys kept as strings).
Python `set`s of positions are modelled below as duplicate-free lists
(only their size is read). -/
def bumpCount (l : List (String × ℕ)) (k : String) : List (String × ℕ) :=
  match l with
  | [] => [(k, 1)]
  | (k2, v2) :: rest =>
    if k2 = k then (k2, v2 + 1) :: rest else (k2, v2) :: bumpCount rest k

def lookupCount (l : List (String × ℕ)) (k : String) : ℕ :=
  match l with
  | [] => 0
  | (k2, v2) :: rest => if k2 = k then v2 else lookupCount rest k

/-- Insert into a modelled Python set (no-op when already present). -/
def setInsert (l : List ℤ) (p : ℤ) : List ℤ := if p ∈ l then l else l ++ [p]

/-- `str(gate.get("type") or "unknown")`. -/
def gtypeNorm {K : Type} (g : Gate K) : String :=
  if g.type = "" then "unknown" else g.type

/-- The accumulator of the gate loop in `calculate_hardware_metrics`:
`(gate_count, t_positions, cnot_count, measurement_count, single_qubit,
two_qubit, multi_qubit, entangling_positions, entangling_gate_count,
max_position)`. -/
def HwAcc : Type := List (String × ℕ) × List ℤ × ℕ × ℕ × ℕ × ℕ × ℕ × List ℤ × ℕ × ℤ

/-- One iteration of the gate loop in `calculate_hardware_metrics`. -/
def hwStep {K : Type} (acc : HwAcc) (g : Gate K) : HwAcc :=
  let (gateCount, tPositions, cnotCount, measurementCount, singleQubit, twoQubit,
    multiQubit, entanglingPositions, entanglingGateCount, maxPosition) := acc
  let gtype := if g.type = "" then "unknown" else g.type
  let gateCount := bumpCount gateCount gtype
  let cnotCount := if gtype = "cnot" ∨ gtype = "cx" then cnotCount + 1 else cnotCount
  let measurementCount := if gtype = "measure" then measurementCount + 1 else measurementCount
  let tPositions :=
    if gtype = "t" then
      match g.position with
      | some p => setInsert tPositions p
      | none => tPositions
    else tPositions
  let maxPosition :=
    match g.position with
    | some p => max maxPosition p
    | none => maxPosition
  if gtype = "measure" then
    (gateCount, tPositions, cnotCount, measurementCount, singleQubit, twoQubit,
      multiQubit, entanglingPositions, entanglingGateCount, maxPosition)
  else
    let qubitCount := hwGateQubitCount g
    if qubitCount ≤ 1 then
      (gateCount, tPositions, cnotCount, measurementCount, singleQubit + 1, twoQubit,
        multiQubit, entanglingPositions, entanglingGateCount, maxPosition)
    else
      let entanglingPositions :=
        match g.position with
        | some p => setInsert entanglingPositions p
        | none => entanglingPositions
      if qubitCount = 2 then
        (gateCount, tPositions, cnotCount, measurementCount, singleQubit, twoQubit + 1,
          multiQubit, entanglingPositions, entanglingGateCount + 1, maxPosition)
      else
        (gateCount, tPositions, cnotCount, measurementCount, singleQubit, twoQubit,
          multiQubit + 1, entanglingPositions, entanglingGateCount + 1, maxPosition)

/-- `calculate_hardware_metrics(num_qubits, gates)`. -/
def calculateHardwareMetrics {K : Type} [LinearOrderedField K] (numQubits : ℕ)
    (gates : List (Gate K)) : HardwareMetrics K :=
  let acc := gates.foldl hwStep (([], [], 0, 0, 0, 0, 0, [], 0, -1) : HwAcc)
  let (gateCount, tPositions, cnotCount, measurementCount, singleQubit, twoQubit,
    multiQubit, entanglingPositions, entanglingGateCount, maxPosition) := acc
  let circuitDepth : ℤ := if 0 ≤ maxPosition then maxPosition + 1 else 0
  let tCount := lookupCount gateCount "t"
  let nonMeasureGateCount := max (singleQubit + twoQubit + multiQubit) 1
  let entanglementRatio : K := (entanglingGateCount : K) / (nonMeasureGateCount : K)
  let qvQubits : ℤ :=
    if numQubits ≠ 0 ∧ circuitDepth ≠ 0 then min (numQubits : ℤ) circuitDepth else 0
  let quantumVolume : ℕ := if 0 < qvQubits then 2 ^ qvQubits.toNat else 0
  { circuitDepth := circuitDepth
    circuitWidth := (numQubits : ℤ)
    gateCount := gateCount
    tCount := tCount
    tDepth := tPositions.length
    cnotCount := cnotCount
    singleQubitGates := singleQubit
    twoQubitGates := twoQubit
    multiQubitGates := multiQubit
    measurementCount := measurementCount
    entanglementRatio := entanglementRatio
    entanglementDepth := entanglingPositions.length
    quantumVolume := quantumVolume
    estimatedFidelity := none }

/-- `cosmic_metrics._classical_read_count(gate)`: data movements read from
classical state.  A present condition contributes 1 read per referenced bit
(`len(bits)` for a bit list, 1 for a bare int) or a single read when it
references the whole register.  The optional `reads_classical` extension key
is outside the modelled gate payloads (absent keys contribute 0, as in the
source). -/
def classicalReadCount {K : Type} (g : Gate K) : ℕ :=
  match g.params.condition with
  | none => 0
  | some c =>
    match c with
    | .ofDict (some (.one _)) _ => 1
    | .ofDict (some (.many l)) _ => l.length
    | .ofDict none _ => 1
    | .ofInt _ => 1

/-- `cosmic_metrics._gate_qubits(gate)`: the distinct named qubits, sorted. -/
def cosmicGateQubits {K : Type} (g : Gate K) : List ℤ :=
  stableSort (fun a b => decide (a ≤ b))
    ((match g.qubit with | some q => [q] | none => []) ++ g.targets ++ g.controls).dedup

/-- `cosmic_metrics._gate_qubit_count(gate)`. -/
def cosmicGateQubitCount {K : Type} (g : Gate K) : ℕ :=
  let qubits := cosmicGateQubits g
  if qubits = [] then 1 else qubits.length

/-- `cosmic_metrics._normalize_vector(values)`. -/
def normalizeVector (values : List ℤ) : List ℤ :=
  stableSort (fun a b => decide (a ≤ b)) (values.filter (fun q => 0 ≤ q)).dedup

/-- `cosmic_metrics._dedupe_vectors(vectors)`. -/
def dedupeVectors (vectors : List (List ℤ)) : List (List ℤ) := vectors.dedup

/-- `cosmic_metrics._infer_qubits_from_gates(gates, num_qubits)`. -/
def inferQubitsFromGates {K : Type} (gates : List (Gate K))
    (numQubits : Option ℕ) : List ℤ :=
  match numQubits with
  | some n =>
    if 0 < n then (List.range n).map (fun i => (i : ℤ))
    else stableSort (fun a b => decide (a ≤ b)) ((gates.map cosmicGateQubits).flatten).dedup
  | none => stableSort (fun a b => decide (a ≤ b)) ((gates.map cosmicGateQubits).flatten).dedup

/-- `cosmic_metrics._resolve_input_vectors`: returns the declared/inferred
input vectors and the count of placeholder `input` gates with no vector. -/
def resolveInputVectors {K : Type} (gates : List (Gate K))
    (numQubits : Option ℕ) (inputVectors : Option (List (List ℤ))) :
    List (List ℤ) × ℕ :=
  match inputVectors with
  | some vs =>
    (dedupeVectors ((vs.map normalizeVector).filter (fun v => v ≠ [])), 0)
  | none =>
    let acc := gates.foldl
      (fun (acc : List (List ℤ) × ℕ) g =>
        if pyLower g.type ≠ "input" then acc
        else
          match g.params.inputVector with
          | none => (acc.1, acc.2 + 1)
          | some (.aList l) =>
            let normalized := normalizeVector l
            if normalized ≠ [] then (acc.1 ++ [normalized], acc.2) else acc
          | some (.anInt i) => (acc.1 ++ [[i]], acc.2))
      ([], 0)
    if acc.1 ≠ [] ∨ acc.2 ≠ 0 then (dedupeVectors acc.1, acc.2)
    else
      let inferred := inferQubitsFromGates gates numQubits
      if inferred ≠ [] then ([inferred], 0) else ([], 0)

/-- `cosmic_metrics._resolve_measurement_vectors`. -/
def resolveMeasurementVectors {K : Type} (gates : List (Gate K))
    (inputVectors : List (List ℤ)) (measurementVectors : Option (List (List ℤ))) :
    List (List ℤ) :=
  match measurementVectors with
  | some vs => dedupeVectors ((vs.map normalizeVector).filter (fun v => v ≠ []))
  | none =>
    if ¬ gates.any (fun g => pyLower g.type = "measure") then []
    else if inputVectors ≠ [] then inputVectors
    else [[]]

/-- One functional process of the COSMIC-style report (the `q_entries` /
`q_exits` keys only exist in the q-cosmic convention). -/
structure FunctionalProcess where
  name : String
  gateType : String
  entries : ℕ
  exits : ℕ
  reads : ℕ
  writes : ℕ
  qEntries : Option ℕ
  qExits : Option ℕ
  cfp : ℕ
deriving Repr, DecidableEq

/-- The COSMIC functional-size report. -/
structure CosmicMetrics where
  approach : String
  entries : ℕ
  exits : ℕ
  reads : ℕ
  writes : ℕ
  qEntries : Option ℕ
  qExits : Option ℕ
  totalCfp : ℕ
  functionalProcesses : List FunctionalProcess
deriving Repr, DecidableEq

/-- `cosmic_metrics._gate_reads_writes_for_types(gate_type, arity)`:
CNOT-class and SWAP gates are fixed at 1 read / 1 write, every other gate
scales both with its arity. -/
def gateReadsWritesForTypes (gateType : String) (arity : ℕ) : ℕ × ℕ :=
  let gt := pyLower gateType
  if gt = "cnot" ∨ gt = "cx" ∨ gt = "swap" then (1, 1) else (arity, arity)

/-- One iteration of the occurrence-based loop of
`calculate_cosmic_metrics`: accumulator
`(idx, entries, exits, reads, writes, functional_processes)`. -/
def occStep {K : Type} (acc : ℕ × ℕ × ℕ × ℕ × ℕ × List FunctionalProcess)
    (g : Gate K) : ℕ × ℕ × ℕ × ℕ × ℕ × List FunctionalProcess :=
  let (idx, entries, exits, reads, writes, fps) := acc
  let gateType := if g.type = "" then "unknown" else g.type
  let fpEntries := 1
  let fpExits := 1
  let fpReads := classicalReadCount g
  let fpWrites := if gateType = "measure" then 1 else 0
  let fpCfp := fpEntries + fpExits + fpReads + fpWrites
  (idx + 1, entries + fpEntries, exits + fpExits, reads + fpReads, writes + fpWrites,
    fps ++ [⟨gateType ++ "-" ++ toString idx, gateType, fpEntries, fpExits, fpReads,
      fpWrites, none, none, fpCfp⟩])

/-- The occurrence-based convention of `calculate_cosmic_metrics`: one entry
and one exit per gate instance, one write per measurement, reads from
classical conditions. -/
def cosmicOccurrences {K : Type} (gates : List (Gate K)) : CosmicMetrics :=
  let acc := gates.foldl occStep (0, 0, 0, 0, 0, [])
  let (_, entries, exits, reads, writes, fps) := acc
  { approach := "occurrences"
    entries := entries
    exits := exits
    reads := reads
    writes := writes
    qEntries := none
    qExits := none
    totalCfp := entries + exits + reads + writes
    functionalProcesses := fps }

/-- `q not in vector_map: vector_map[q] = idx` accumulation. -/
def vectorMapOf (vectors : List (List ℤ)) : List (ℤ × ℕ) :=
  (vectors.enum.foldl
    (fun (m : List (ℤ × ℕ)) iv =>
      iv.2.foldl (fun m q => if (m.lookup q).isSome then m else m ++ [(q, iv.1)]) m)
    [])

def lookupVectorId (m : List (ℤ × ℕ)) (q : ℤ) : ℤ :=
  match m.lookup q with
  | some i => (i : ℤ)
  | none => -1

/-- The type-based convention (`_calculate_types_metrics`). -/
def cosmicTypes {K : Type} (gates : List (Gate K)) (numQubits : Option ℕ)
    (inputVectors : Option (List (List ℤ)))
    (measurementVectors : Option (List (List ℤ))) : CosmicMetrics :=
  let explicitInputs := inputVectors.isSome
  let rv := resolveInputVectors gates numQubits inputVectors
  let vectors := rv.1
  let placeholderInputs := rv.2
  let inputFpCount0 := vectors.length + placeholderInputs
  let inputFpCount :=
    if inputFpCount0 = 0 ∧ ¬ explicitInputs ∧ (numQubits.getD 0) ≠ 0 then 1
    else inputFpCount0
  let inputFps : List FunctionalProcess :=
    if 0 < inputFpCount then
      [⟨"input", "input", inputFpCount, 0, 0, inputFpCount, none, none, 2 * inputFpCount⟩]
    else []
  let entries0 := if 0 < inputFpCount then inputFpCount else 0
  let writes0 := if 0 < inputFpCount then inputFpCount else 0
  let vectorMap := vectorMapOf vectors
  let measurementVectorsResolved := resolveMeasurementVectors gates vectors measurementVectors
  let gateGroups := gates.foldl
    (fun (groups : List ((String × ℕ × List ℤ) × ℕ)) g =>
      let gtype := pyLower (if g.type = "" then "unknown" else g.type)
      if gtype = "input" ∨ gtype = "measure" then groups
      else
        let arity := cosmicGateQubitCount g
        let qubits := cosmicGateQubits g
        let vectorIds :=
          stableSort (fun a b => decide (a ≤ b)) (qubits.map (lookupVectorId vectorMap)).dedup
        let vectorKey := if vectorIds = [] then [(-1 : ℤ)] else vectorIds
        match groups.lookup (gtype, arity, vectorKey) with
        | some c =>
          groups.map (fun kv => if kv.1 = (gtype, arity, vectorKey) then (kv.1, c + 1) else kv)
        | none => groups ++ [((gtype, arity, vectorKey), 1)])
    []
  let groupFps := gateGroups.map
    (fun kv =>
      let gtype := kv.1.1
      let arity := kv.1.2.1
      let rw := gateReadsWritesForTypes gtype arity
      (⟨gtype ++ ":" ++ toString arity, gtype, 1, 0, rw.1, rw.2, none, none,
        1 + rw.1 + rw.2⟩ : FunctionalProcess))
  let entries1 := entries0 + groupFps.length
  let reads1 := (groupFps.map (fun fp => fp.reads)).sum
  let writes1 := writes0 + (groupFps.map (fun fp => fp.writes)).sum
  let measurementFpCount := measurementVectorsResolved.length
  let measFps : List FunctionalProcess :=
    if 0 < measurementFpCount then
      [⟨"measurement", "measure", measurementFpCount, 0, measurementFpCount,
        measurementFpCount, none, none, 3 * measurementFpCount⟩]
    else []
  let entries2 := entries1 + (if 0 < measurementFpCount then measurementFpCount else 0)
  let reads2 := reads1 + (if 0 < measurementFpCount then measurementFpCount else 0)
  let writes2 := writes1 + (if 0 < measurementFpCount then measurementFpCount else 0)
  { approach := "types"
    entries := entries2
    exits := 0
    reads := reads2
    writes := writes2
    qEntries := none
    qExits := none
    totalCfp := entries2 + 0 + reads2 + writes2
    functionalProcesses := inputFps ++ groupFps ++ measFps }

/-- The coarse-grained convention (`_calculate_q_cosmic_metrics`). -/
def cosmicQCosmic {K : Type} (gates : List (Gate K)) (numQubits : Option ℕ)
    (inputVectors : Option (List (List ℤ)))
    (measurementVectors : Option (List (List ℤ))) : CosmicMetrics :=
  let vectors := (resolveInputVectors gates numQubits inputVectors).1
  let measurementVectorsResolved := resolveMeasurementVectors gates vectors measurementVectors
  let entries := vectors.length
  let exits := measurementVectorsResolved.length
  let qubitsPresent :=
    match numQubits with
    | some n => if n ≠ 0 then n else (inferQubitsFromGates gates numQubits).length
    | none => (inferQubitsFromGates gates numQubits).length
  let qEntries := if qubitsPresent ≠ 0 then 1 else 0
  let qExits := if qubitsPresent ≠ 0 then 1 else 0
  let totalCfp := entries + exits + 0 + 0 + qEntries + qExits
  { approach := "q-cosmic"
    entries := entries
    exits := exits
    reads := 0
    writes := 0
    qEntries := some qEntries
    qExits := some qExits
    totalCfp := totalCfp
    functionalProcesses :=
      [⟨"quantum-system", "q-cosmic", entries, exits, 0, 0, some qEntries, some qExits,
        totalCfp⟩] }

/-- `calculate_cosmic_metrics(gates, approach, num_qubits, input_vectors,
measurement_vectors)`. -/
def calculateCosmicMetrics {K : Type} (gates : List (Gate K)) (approach : String)
    (numQubits : Option ℕ) (inputVectors : Option (List (List ℤ)))
    (measurementVectors : Option (List (List ℤ))) : Except RunErr CosmicMetrics :=
  let approachNorm := pyStripLower (if approach = "" then "occurrences" else approach)
  if approachNorm = "types" then
    .ok (cosmicTypes gates numQubits inputVectors measurementVectors)
  else if approachNorm = "q-cosmic" then
    .ok (cosmicQCosmic gates numQubits inputVectors measurementVectors)
  else if approachNorm = "occurrences" then
    .ok (cosmicOccurrences gates)
  else
    .error (.valueError ("Unsupported COSMIC approach: " ++ approach))

/-- The optional `measurement_config` request field (a non-empty dict; an
absent or empty config is `none` at the call site, matching Python
truthiness). -/
structure MeasurementConfig where
  basis : Option String
  qubits : Option (List ℤ)
  resetAfter : Option Bool
  classicalBits : Option (List ℤ)
deriving Repr, DecidableEq

/-- The `measurement_config` block of `run_circuit`: drop explicit measure
gates and append one configured measurement per selected qubit, positioned
after every remaining gate. -/
def applyMeasurementConfig {K : Type} (numQubits : ℕ)
    (gatesSorted : List (Gate K)) (mc : MeasurementConfig) : List (Gate K) :=
  let basis := normalizeBasis mc.basis
  let qubits :=
    match mc.qubits with
    | none => (List.range numQubits).map (fun i => (i : ℤ))
    | some [] => (List.range numQubits).map (fun i => (i : ℤ))
    | some qs => qs
  let resetAfter := mc.resetAfter.getD false
  let classicalBits :=
    match mc.classicalBits with
    | none => qubits
    | some cbs => if cbs.length = qubits.length then cbs else qubits
  let gatesFiltered := gatesSorted.filter (fun g => g.type ≠ "measure")
  let maxPosition := gatesFiltered.foldl
    (fun m g => match g.position with | some p => max m p | none => m) (-1)
  let measurementGates := (qubits.zip classicalBits).enum.map
    (fun (icb : ℕ × ℤ × ℤ) =>
      ({ type := "measure"
         qubit := some icb.2.1
         targets := []
         controls := []
         position := some (maxPosition + 1 + (icb.1 : ℤ))
         params := { GateParams.empty with
            basis := some basis, cbit := some icb.2.2, resetAfter := some resetAfter } } : Gate K))
  gatesFiltered ++ measurementGates

/-- The circuit built for shot-based simulation: a classical register of
size `num_qubits` (`QuantumCircuit(num_qubits, num_qubits)`), all gates in
order, and an implicit measure-everything layer exactly when the gate list
contains no explicit measure gate. -/
def buildSampledCircuit {K : Type} [LinearOrderedField K] [FloorRing K]
    (numQubits : ℕ) (gatesSorted : List (Gate K)) : Except RunErr (CircuitRep K) := do
  let qc0 : CircuitRep K := ⟨numQubits, [numQubits], []⟩
  let hasExplicitMeasure := gatesSorted.any (fun g => g.type = "measure")
  let qc ← applyGates qc0 gatesSorted
  if ¬ hasExplicitMeasure then
    .ok { qc with
      instrs := qc.instrs ++ (List.range numQubits).map
        (fun i => ⟨.measureOp (i : ℤ) (i : ℤ), none⟩) }
  else .ok qc

/-- The structured result of `run_circuit`.  The per-qubit marginals and
Wilson confidence intervals of the response are derived display fields not
referenced by any claim and are omitted from the embedding; the sampled
path's response carries no statevector/warnings keys, modelled as `none`. -/
structure RunResult (K : Type) where
  backend : String
  method : String
  shots : ℤ
  counts : List (String × ℤ)
  probabilities : List (String × K)
  statevector : Option (List (String × K × K))
  warnings : Option (List String)
  measurementBasis : List (ℤ × String)
  cosmicMetrics : Option CosmicMetrics
  hardwareMetrics : Option (HardwareMetrics K)
  memoryOut : Option (List String)
deriving Repr, DecidableEq

/-- Format a statevector as the response's bitstring-keyed `[re, im]` dict. -/
def formatStatevector {K : Type} [LinearOrderedField K] (numQubits : ℕ)
    (sv : List (Cplx K)) : List (String × K × K) :=
  sv.enum.map (fun ia => (bitString numQubits ia.1, (ia.2.re, ia.2.im)))

/-- `cosmic_approach or "occurrences"`. -/
def resolveCosmicApproach (cosmicApproach : Option String) : String :=
  match cosmicApproach with
  | none => "occurrences"
  | some s => if s = "" then "occurrences" else s

/-- `run_circuit(num_qubits, gates, method, shots, memory, override_backend,
include_metrics, cosmic_approach, measurement_config)`.

`env` is the abstract Qiskit interface and `seed` the random state consumed
only by the shot-based sampler; `envMaxQubits` models the
`STATEVECTOR_MAX_QUBITS` environment variable (`getenv` default "10") and
`overrideBackend` the `QISKIT_BACKEND` override (default `aer_simulator`). -/
def runCircuit {K : Type} [LinearOrderedField K] [FloorRing K] {σ : Type}
    (env : QiskitEnv K σ) (seed : σ) (envMaxQubits : Option ℕ)
    (overrideBackend : Option String) (numQubits : ℕ) (gates : List (Gate K))
    (method : String) (shots : ℤ) (memory : Bool) (includeMetrics : Bool)
    (cosmicApproach : Option String)
    (measurementConfig : Option MeasurementConfig) : Except RunErr (RunResult K) :=
  let backendName := overrideBackend.getD "aer_simulator"
  let methodNorm := pyStripLower (if method = "" then "qasm" else method)
  if ¬ (methodNorm = "qasm" ∨ methodNorm = "statevector" ∨ methodNorm = "noisy") then
    .error (.valueError ("Unsupported simulation method: " ++ method))
  else
    let gatesSorted0 := stableSort
      (fun a b => decide ((a.position.getD 0) ≤ (b.position.getD 0))) gates
    let gatesSorted :=
      match measurementConfig with
      | some mc => applyMeasurementConfig numQubits gatesSorted0 mc
      | none => gatesSorted0
    if methodNorm = "statevector" then
      let maxQubits := envMaxQubits.getD 10
      if maxQubits < numQubits then .error (.capacityExceeded maxQubits numQubits)
      else
        let measureGates := gatesSorted.filter (fun g => g.type = "measure")
        let nonMeasureGates := gatesSorted.filter (fun g => g.type ≠ "measure")
        let hasConditions := gatesSorted.any gateHasCondition
        let lastNonMeasurePos := nonMeasureGates.foldl
          (fun m g => match g.position with | some p => max m p | none => m) (-1)
        let midCircuitMeasurement : Bool :=
          ¬ measureGates.isEmpty ∧ 0 ≤ lastNonMeasurePos ∧
            measureGates.any
              (fun g => match g.position with | none => true | some p => p < lastNonMeasurePos)
        if ¬ midCircuitMeasurement ∧ ¬ hasConditions then do
          let qcSv ← applyGates ⟨numQubits, [], []⟩ nonMeasureGates
          let qcSv2 ← measureGates.foldlM
            (fun qc g =>
              match (match g.qubit with | some q => some q | none => g.targets.head?) with
              | none => .ok qc
              | some target => do
                let rot ← basisRotationInstrs (normalizeBasis g.params.basis) target
                .ok { qc with instrs := qc.instrs ++ rot.map (fun op => ⟨op, none⟩) })
            qcSv
          let sv ← env.simulate qcSv2
          let statevector := formatStatevector numQubits sv
          let probabilities := statevector.map
            (fun kv => (kv.1, kv.2.1 * kv.2.1 + kv.2.2 * kv.2.2))
          let counts := probabilitiesToCounts probabilities shots
          let cosmicMetrics ←
            if includeMetrics then
              (calculateCosmicMetrics gatesSorted (resolveCosmicApproach cosmicApproach)
                (some numQubits) none none).map some
            else .ok none
          let hardwareMetrics :=
            if includeMetrics then some (calculateHardwareMetrics numQubits gatesSorted)
            else none
          .ok
            { backend := "statevector"
              method := "statevector"
              shots := shots
              counts := counts
              probabilities := probabilities
              statevector := some statevector
              warnings := none
              measurementBasis := extractMeasurementBasis gatesSorted numQubits
              cosmicMetrics := cosmicMetrics
              hardwareMetrics := hardwareMetrics
              memoryOut := none }
        else do
          let branches ← processGates env numQubits gatesSorted
          let hasMeasurements := gatesSorted.any (fun g => g.type = "measure")
          let probabilities :=
            renormalizeProbabilities (aggregateProbabilities numQubits branches)
          let counts := probabilitiesToCounts probabilities shots
          let statevector :=
            if hasMeasurements then none
            else
              match branches with
              | b :: _ => some (formatStatevector numQubits b.state)
              | [] => none
          let warnings :=
            if hasMeasurements then
              some ["Statevector output is unavailable when mid-circuit measurements or classical conditions are present."]
            else none
          let cosmicMetrics ←
            if includeMetrics then
              (calculateCosmicMetrics gatesSorted (resolveCosmicApproach cosmicApproach)
                (some numQubits) none none).map some
            else .ok none
          let hardwareMetrics :=
            if includeMetrics then some (calculateHardwareMetrics numQubits gatesSorted)
            else none
          .ok
            { backend := "statevector"
              method := "statevector"
              shots := shots
              counts := counts
              probabilities := probabilities
              statevector := statevector
              warnings := warnings
              measurementBasis := extractMeasurementBasis gatesSorted numQubits
              cosmicMetrics := cosmicMetrics
              hardwareMetrics := hardwareMetrics
              memoryOut := none }
    else do
      let qcFull ← buildSampledCircuit numQubits gatesSorted
      let noisy := methodNorm = "noisy"
      let backendUsed := if noisy then "aer_simulator_noisy" else backendName
      let out ← env.backendRun qcFull shots memory noisy seed
      let counts := out.counts
      let total : K :=
        if shots ≠ 0 then (shots : K) else (((counts.map (fun kv => kv.2)).sum : ℤ) : K)
      let probabilities := counts.map (fun kv => (kv.1, (kv.2 : K) / total))
      let cosmicMetrics ←
        if includeMetrics then
          (calculateCosmicMetrics gatesSorted (resolveCosmicApproach cosmicApproach)
            (some numQubits) none none).map some
        else .ok none
      let hardwareMetrics :=
        if includeMetrics then some (calculateHardwareMetrics numQubits gatesSorted)
        else none
      .ok
        { backend := backendUsed
          method := methodNorm
          shots := shots
          counts := counts
          probabilities := probabilities
          statevector := none
          warnings := none
          measurementBasis := extractMeasurementBasis gatesSorted numQubits
          cosmicMetrics := cosmicMetrics
          hardwareMetrics := hardwareMetrics
          memoryOut := if memory then out.memoryOut else none }

/-! ### Contracts of the abstract Qiskit interface and statement helpers -/

/-- The documented contract of `math.sqrt` on positive inputs. -/
def SqrtContract {K : Type} [LinearOrderedField K] (sqrt : K → K) : Prop :=
  ∀ x, 0 < x → 0 < sqrt x ∧ sqrt x * sqrt x = x

/-- The documented contract of `Statevector.evolve` for the unitary helper
circuits the engine builds: evolution preserves the squared 2-norm. -/
def EvolvePreservesNorm {K : Type} [LinearOrderedField K] {σ : Type}
    (env : QiskitEnv K σ) : Prop :=
  ∀ qc s s2, env.evolve qc s = .ok s2 → svNormSq s2 = svNormSq s

/-- The documented contract of `Statevector.from_instruction`: a unit-norm
vector of length `2^num_qubits`. -/
def SimulateContract {K : Type} [LinearOrderedField K] {σ : Type}
    (env : QiskitEnv K σ) : Prop :=
  ∀ qc sv, env.simulate qc = .ok sv →
    svNormSq sv = 1 ∧ sv.length = 2 ^ qc.numQubits

/-- The documented contract of the Aer sampler: the returned integer counts
sum to the requested shot count. -/
def BackendCountsContract {K : Type} [LinearOrderedField K] {σ : Type}
    (env : QiskitEnv K σ) : Prop :=
  ∀ qc sh mem nz sd out, env.backendRun qc sh mem nz sd = .ok out →
    ((out.counts.map (fun kv => kv.2)).sum = sh)

/-- Qiskit never raises the engine-level capacity error (its failures are
wrapped as generic `ValueError`/`RuntimeError` messages). -/
def EnvNoCapacityError {K : Type} [LinearOrderedField K] {σ : Type}
    (env : QiskitEnv K σ) : Prop :=
  (∀ qc s e, env.evolve qc s = .error e → ∀ m r, e ≠ .capacityExceeded m r) ∧
  (∀ qc e, env.simulate qc = .error e → ∀ m r, e ≠ .capacityExceeded m r) ∧
  (∀ qc sh mem nz sd e, env.backendRun qc sh mem nz sd = .error e →
    ∀ m r, e ≠ .capacityExceeded m r)

/-- The branching-strategy invariant: every live branch has positive mass
and a unit-norm amplitude vector, and the masses sum to 1. -/
def GoodBranchSet {K : Type} [LinearOrderedField K] (branches : List (Branch K)) : Prop :=
  (∀ b ∈ branches, 0 < b.mass ∧ svNormSq b.state = 1) ∧
    (branches.map (fun b => b.mass)).sum = 1

/-- The spec's phrasing of LSB-first packing: the subset's `idx`-th
referenced bit contributes `2^idx` when set. -/
def specPackLSB (bits : List ℕ) : ℕ :=
  (bits.enum.map (fun ib => if ib.2 ≠ 0 then 2 ^ ib.1 else 0)).sum

/-- The Python error message attached to each engine failure. -/
def RunErr.message : RunErr → String
  | .capacityExceeded maxQ req =>
    "Statevector simulation is limited to " ++ toString maxQ ++
      " qubits (requested " ++ toString req ++
      "). Use method=\x27qasm\x27 or \x27noisy\x27 for larger circuits."
  | .valueError m => m

/-- Exact square root on `ℚ` for perfect squares (used to instantiate the
abstract `math.sqrt` in witnesses). -/
def ratSqrt (q : ℚ) : ℚ := (Nat.sqrt q.num.toNat : ℚ) / (Nat.sqrt q.den : ℚ)

/-- A concrete instantiation of the Qiskit interface whose evolutions are
the identity (used by witnesses; it satisfies every contract above). -/
def identityEnv : QiskitEnv ℚ Unit :=
  { sqrt := ratSqrt
    evolve := fun _ s => .ok s
    simulate := fun qc => .ok (basisStateZero ℚ qc.numQubits)
    backendRun := fun _ shots _ _ _ => .ok ⟨[(bitString 1 0, shots)], none⟩ }

/-- A concrete Qiskit interface whose evolution replaces the state with a
marker vector, making "the unitary was applied" observable. -/
def markerEnv : QiskitEnv ℚ Unit :=
  { sqrt := ratSqrt
    evolve := fun _ _ => .ok [⟨7, 0⟩]
    simulate := fun _ => .ok []
    backendRun := fun _ _ _ _ _ => .ok ⟨[], none⟩ }

/-- An X gate conditioned (single-bit condition) on classical bit `i` = 1. -/
def condXGate (i : ℤ) : Gate ℚ :=
  { type := "x", qubit := some i, targets := [], controls := [], position := some 0,
    params := { GateParams.empty with condition := some (.ofDict (some (.one i)) (some 1)) } }

/-- The published Grover-accounting reference scenario: 6 Hadamards,
3 conditioned plus 3 unconditioned Pauli-X, 3 Pauli-Z and 3 measurements
on 3 qubits. -/
def groverExampleGates : List (Gate ℚ) :=
  ((List.range 6).map (fun i => Gate.simple "h" ((i % 3 : ℕ) : ℤ) 0)) ++
    ((List.range 3).map (fun i => condXGate (i : ℕ))) ++
    ((List.range 3).map (fun i => Gate.simple "x" ((i : ℕ) : ℤ) 1)) ++
    ((List.range 3).map (fun i => Gate.simple "z" ((i : ℕ) : ℤ) 2)) ++
    ((List.range 3).map (fun i => Gate.simple "measure" ((i : ℕ) : ℤ) 3))

/-- The hardware-metrics example circuit: H on q0 at position 0, CNOT
q0→q1 at position 1, T on q1 at position 2, measure q0 at position 3. -/
def hwExampleGates : List (Gate ℚ) :=
  [Gate.simple "h" 0 0,
   { type := "cnot", qubit := some 0, targets := [1], controls := [], position := some 1,
     params := GateParams.empty },
   Gate.simple "t" 1 2,
   Gate.simple "measure" 0 3]

/-! ## Theorems -/

/-- C5: For every numeric rotation parameter, the Angle Normalizer returns
the value converted from degrees to radians (multiplied by π/180) when the
value is within 1e-9 of an integer and its magnitude is at most 360;
otherwise it returns the value unchanged when its magnitude is at most 2π;
otherwise it converts it from degrees to radians.  ("Within 1e-9 of an
integer" is stated as the existence of an integer at distance < 1e-9 and
shown equivalent to the rounding test of the source.) -/
theorem getAngle_heuristic (a : ℚ) :
    ((∃ n : ℤ, |a - (n : ℚ)| < 1 / 1000000000) ↔ |a - round a| < 1 / 1000000000) ∧
    getAngle a =
      (if |a - round a| < 1 / 1000000000 ∧ |a| ≤ 360 then a * mathPi / 180
       else if |a| ≤ 2 * mathPi then a
       else a * mathPi / 180) := by
  refine ⟨⟨?_, fun h => ⟨round a, h⟩⟩, rfl⟩
  rintro ⟨n, hn⟩
  exact lt_of_le_of_lt (round_le a n) hn

theorem occStep_spec {K : Type} (acc : ℕ × ℕ × ℕ × ℕ × ℕ × List FunctionalProcess)
    (g : Gate K) :
    (occStep acc g).2.1 = acc.2.1 + 1 ∧
    (occStep acc g).2.2.1 = acc.2.2.1 + 1 ∧
    (occStep acc g).2.2.2.1 = acc.2.2.2.1 + classicalReadCount g ∧
    (occStep acc g).2.2.2.2.1 = acc.2.2.2.2.1 + (if g.type = "measure" then 1 else 0) := by
  obtain ⟨i, e, x, r, w, f⟩ := acc
  refine ⟨rfl, rfl, rfl, ?_⟩
  simp only [occStep]
  by_cases h : g.type = ""
  · simp [h]
  · simp only [h, if_false]

theorem occFold_spec {K : Type} (gates : List (Gate K)) :
    ∀ acc : ℕ × ℕ × ℕ × ℕ × ℕ × List FunctionalProcess,
      (gates.foldl occStep acc).2.1 = acc.2.1 + gates.length ∧
      (gates.foldl occStep acc).2.2.1 = acc.2.2.1 + gates.length ∧
      (gates.foldl occStep acc).2.2.2.1 = acc.2.2.2.1 + (gates.map classicalReadCount).sum ∧
      (gates.foldl occStep acc).2.2.2.2.1 =
        acc.2.2.2.2.1 + gates.countP (fun g => g.type == "measure") := by
  induction gates with
  | nil => simp
  | cons g gs ih =>
    intro acc
    simp only [List.foldl_cons, List.length_cons, List.map_cons, List.sum_cons,
      List.countP_cons]
    obtain ⟨h1, h2, h3, h4⟩ := ih (occStep acc g)
    obtain ⟨s1, s2, s3, s4⟩ := occStep_spec acc g
    rw [h1, h2, h3, h4, s1, s2, s3, s4]
    refine ⟨by omega, by omega, by omega, ?_⟩
    by_cases h : g.type = "measure"
    · simp [h]; try omega
    · simp [h]; try omega

/-- C9: Under the occurrence-based functional-size convention, every gate
instance contributes exactly one entry and one exit, every measurement gate
contributes exactly one write, and every gate carrying a classical
condition contributes one read per referenced classical bit (or exactly 1
read if the condition references the whole register), with the total size
being the sum entries+exits+reads+writes; in particular 6 Hadamards, 6
conditioned/unconditioned Pauli-X, 3 Pauli-Z, and 3 measurements on 3
qubits yield entries=18, exits=18, writes=3, reads=3, total=42. -/
theorem cosmic_occurrence_sizing :
    (∀ (K : Type) (gates : List (Gate K)),
      (cosmicOccurrences gates).entries = gates.length ∧
      (cosmicOccurrences gates).exits = gates.length ∧
      (cosmicOccurrences gates).writes = gates.countP (fun g => g.type == "measure") ∧
      (cosmicOccurrences gates).reads = (gates.map classicalReadCount).sum ∧
      (cosmicOccurrences gates).totalCfp =
        (cosmicOccurrences gates).entries + (cosmicOccurrences gates).exits +
          (cosmicOccurrences gates).reads + (cosmicOccurrences gates).writes ∧
      calculateCosmicMetrics gates "occurrences" (some 3) none none =
        .ok (cosmicOccurrences gates)) ∧
    (∀ (K : Type) (g : Gate K),
      (∀ l v, g.params.condition = some (.ofDict (some (.many l)) v) →
        classicalReadCount g = l.length) ∧
      (∀ i v, g.params.condition = some (.ofDict (some (.one i)) v) →
        classicalReadCount g = 1) ∧
      (∀ v, g.params.condition = some (.ofDict none v) → classicalReadCount g = 1) ∧
      (g.params.condition = none → classicalReadCount g = 0)) ∧
    ((cosmicOccurrences groverExampleGates).entries = 18 ∧
      (cosmicOccurrences groverExampleGates).exits = 18 ∧
      (cosmicOccurrences groverExampleGates).writes = 3 ∧
      (cosmicOccurrences groverExampleGates).reads = 3 ∧
      (cosmicOccurrences groverExampleGates).totalCfp = 42) := by
  refine ⟨?_, ?_, by decide⟩
  · intro K gates
    obtain ⟨h1, h2, h3, h4⟩ := occFold_spec gates (0, 0, 0, 0, 0, [])
    refine ⟨?_, ?_, ?_, ?_, rfl, rfl⟩
    · show (gates.foldl occStep (0, 0, 0, 0, 0, [])).2.1 = gates.length
      rw [h1]; simp
    · show (gates.foldl occStep (0, 0, 0, 0, 0, [])).2.2.1 = gates.length
      rw [h2]; simp
    · show (gates.foldl occStep (0, 0, 0, 0, 0, [])).2.2.2.2.1 =
        gates.countP (fun g => g.type == "measure")
      rw [h4]; simp
    · show (gates.foldl occStep (0, 0, 0, 0, 0, [])).2.2.2.1 =
        (gates.map classicalReadCount).sum
      rw [h3]; simp
  · intro K g
    refine ⟨fun l v h => ?_, fun i v h => ?_, fun v h => ?_, fun h => ?_⟩ <;>
      simp [classicalReadCount, h]

/-- Witness for `cosmic_occurrence_sizing`: the conditional-read
characterization evaluated at a concrete conditioned gate. -/
theorem cosmic_occurrence_sizing_witness :
    classicalReadCount (condXGate 2) = 1 := by
  have h := (cosmic_occurrence_sizing.2.1 ℚ (condXGate 2)).2.1 2 (some 1) rfl
  exact h

theorem bumpCount_lookup (l : List (String × ℕ)) (k k2 : String) :
    lookupCount (bumpCount l k) k2 = lookupCount l k2 + (if k = k2 then 1 else 0) := by
  induction l with
  | nil =>
    simp only [bumpCount, lookupCount]
    by_cases h : k = k2
    · subst h; simp
    · simp [h, Ne.symm h]
  | cons kv rest ih =>
    obtain ⟨k3, v⟩ := kv
    by_cases h3 : k3 = k
    · subst h3
      by_cases h2 : k3 = k2
      · subst h2
        simp [bumpCount, lookupCount]
      · simp [bumpCount, lookupCount, h2]
    · by_cases h2 : k3 = k2
      · subst h2
        have hk : ¬ k = k3 := fun h => h3 h.symm
        simp [bumpCount, lookupCount, h3, hk]
      · simp [bumpCount, lookupCount, h2, h3, ih]

theorem foldl_setInsert_spec (ps : List ℤ) :
    ∀ acc : List ℤ, acc.Nodup →
      (ps.foldl setInsert acc).Nodup ∧
        (ps.foldl setInsert acc).toFinset = acc.toFinset ∪ ps.toFinset := by
  induction ps with
  | nil => intro acc h; simp [h]
  | cons p ps ih =>
    intro acc h
    simp only [List.foldl_cons]
    by_cases hp : p ∈ acc
    · have he : setInsert acc p = acc := by simp [setInsert, hp]
      rw [he]
      obtain ⟨h1, h2⟩ := ih acc h
      refine ⟨h1, ?_⟩
      rw [h2]
      ext x
      simp only [Finset.mem_union, List.mem_toFinset, List.toFinset_cons, Finset.mem_insert]
      constructor
      · rintro (hx | hx)
        · exact Or.inl hx
        · exact Or.inr (Or.inr hx)
      · rintro (hx | hx | hx)
        · exact Or.inl hx
        · exact Or.inl (hx ▸ hp)
        · exact Or.inr hx
    · have he : setInsert acc p = acc ++ [p] := by simp [setInsert, hp]
      rw [he]
      have hnodup : (acc ++ [p]).Nodup := by
        simp [List.nodup_append, h, hp]
      obtain ⟨h1, h2⟩ := ih (acc ++ [p]) hnodup
      refine ⟨h1, ?_⟩
      rw [h2]
      ext x
      simp only [Finset.mem_union, List.mem_toFinset, List.mem_append, List.mem_singleton,
        List.toFinset_cons, Finset.mem_insert]
      tauto

theorem foldl_max_bounds (l : List ℤ) :
    ∀ a : ℤ, a ≤ l.foldl (fun m p => max m p) a ∧
      (∀ x ∈ l, x ≤ l.foldl (fun m p => max m p) a) ∧
      (l.foldl (fun m p => max m p) a = a ∨ l.foldl (fun m p => max m p) a ∈ l) := by
  induction l with
  | nil => intro a; simp
  | cons p ps ih =>
    intro a
    simp only [List.foldl_cons]
    obtain ⟨h1, h2, h3⟩ := ih (max a p)
    refine ⟨le_trans (le_max_left a p) h1, ?_, ?_⟩
    · intro x hx
      rcases List.mem_cons.mp hx with hx | hx
      · subst hx; exact le_trans (le_max_right a x) h1
      · exact h2 x hx
    · rcases h3 with h3 | h3
      · rcases max_choice a p with hm | hm
        · exact Or.inl (h3.trans hm)
        · refine Or.inr ?_
          rw [h3, hm]
          exact List.mem_cons_self p ps
      · exact Or.inr (List.mem_cons_of_mem p h3)

theorem hwStep_spec {K : Type} (acc : HwAcc) (g : Gate K) :
    (hwStep acc g).1 = bumpCount acc.1 (gtypeNorm g) ∧
    (hwStep acc g).2.1 =
      (if gtypeNorm g = "t" then
        (match g.position with | some p => setInsert acc.2.1 p | none => acc.2.1)
      else acc.2.1) ∧
    (hwStep acc g).2.2.1 =
      acc.2.2.1 + (if gtypeNorm g = "cnot" ∨ gtypeNorm g = "cx" then 1 else 0) ∧
    (hwStep acc g).2.2.2.1 =
      acc.2.2.2.1 + (if gtypeNorm g = "measure" then 1 else 0) ∧
    (hwStep acc g).2.2.2.2.1 =
      acc.2.2.2.2.1 +
        (if gtypeNorm g ≠ "measure" ∧ hwGateQubitCount g ≤ 1 then 1 else 0) ∧
    (hwStep acc g).2.2.2.2.2.1 =
      acc.2.2.2.2.2.1 +
        (if gtypeNorm g ≠ "measure" ∧ ¬ hwGateQubitCount g ≤ 1 ∧ hwGateQubitCount g = 2
         then 1 else 0) ∧
    (hwStep acc g).2.2.2.2.2.2.1 =
      acc.2.2.2.2.2.2.1 +
        (if gtypeNorm g ≠ "measure" ∧ ¬ hwGateQubitCount g ≤ 1 ∧ ¬ hwGateQubitCount g = 2
         then 1 else 0) ∧
    (hwStep acc g).2.2.2.2.2.2.2.1 =
      (if gtypeNorm g ≠ "measure" ∧ ¬ hwGateQubitCount g ≤ 1 then
        (match g.position with
         | some p => setInsert acc.2.2.2.2.2.2.2.1 p
         | none => acc.2.2.2.2.2.2.2.1)
      else acc.2.2.2.2.2.2.2.1) ∧
    (hwStep acc g).2.2.2.2.2.2.2.2.1 =
      acc.2.2.2.2.2.2.2.2.1 +
        (if gtypeNorm g ≠ "measure" ∧ ¬ hwGateQubitCount g ≤ 1 then 1 else 0) ∧
    (hwStep acc g).2.2.2.2.2.2.2.2.2 =
      (match g.position with
       | some p => max acc.2.2.2.2.2.2.2.2.2 p
       | none => acc.2.2.2.2.2.2.2.2.2) := by
  obtain ⟨gc, tp, cn, mc, c1, c2, c3, ep, ec, mp⟩ := acc
  by_cases hm : gtypeNorm g = "measure"
  · simp [hwStep, gtypeNorm] at hm ⊢
    simp [hm]
    all_goals (split_ifs <;> simp_all <;> try omega)
  · by_cases h1 : hwGateQubitCount g ≤ 1
    · simp [hwStep, gtypeNorm] at hm ⊢
      simp [hm, h1]
      all_goals (split_ifs <;> simp_all <;> try omega)
    · by_cases h2 : hwGateQubitCount g = 2
      · simp [hwStep, gtypeNorm] at hm ⊢
        simp [hm, h1, h2]
        all_goals (split_ifs <;> simp_all <;> try omega)
      · simp [hwStep, gtypeNorm] at hm ⊢
        simp [hm, h1, h2]
        all_goals (split_ifs <;> simp_all <;> try omega)

theorem hwFold_spec {K : Type} (gates : List (Gate K)) :
    ∀ acc : HwAcc,
      lookupCount (gates.foldl hwStep acc).1 "t" =
        lookupCount acc.1 "t" + gates.countP (fun g => decide (gtypeNorm g = "t")) ∧
      (gates.foldl hwStep acc).2.1 =
        (gates.filterMap (fun g => if gtypeNorm g = "t" then g.position else none)).foldl
          setInsert acc.2.1 ∧
      (gates.foldl hwStep acc).2.2.1 =
        acc.2.2.1 +
          gates.countP (fun g => decide (gtypeNorm g = "cnot" ∨ gtypeNorm g = "cx")) ∧
      (gates.foldl hwStep acc).2.2.2.1 =
        acc.2.2.2.1 + gates.countP (fun g => decide (gtypeNorm g = "measure")) ∧
      (gates.foldl hwStep acc).2.2.2.2.1 =
        acc.2.2.2.2.1 + gates.countP
          (fun g => decide (gtypeNorm g ≠ "measure" ∧ hwGateQubitCount g ≤ 1)) ∧
      (gates.foldl hwStep acc).2.2.2.2.2.1 =
        acc.2.2.2.2.2.1 + gates.countP
          (fun g => decide (gtypeNorm g ≠ "measure" ∧ ¬ hwGateQubitCount g ≤ 1 ∧
            hwGateQubitCount g = 2)) ∧
      (gates.foldl hwStep acc).2.2.2.2.2.2.1 =
        acc.2.2.2.2.2.2.1 + gates.countP
          (fun g => decide (gtypeNorm g ≠ "measure" ∧ ¬ hwGateQubitCount g ≤ 1 ∧
            ¬ hwGateQubitCount g = 2)) ∧
      (gates.foldl hwStep acc).2.2.2.2.2.2.2.1 =
        (gates.filterMap
          (fun g => if gtypeNorm g ≠ "measure" ∧ ¬ hwGateQubitCount g ≤ 1 then g.position
            else none)).foldl setInsert acc.2.2.2.2.2.2.2.1 ∧
      (gates.foldl hwStep acc).2.2.2.2.2.2.2.2.1 =
        acc.2.2.2.2.2.2.2.2.1 + gates.countP
          (fun g => decide (gtypeNorm g ≠ "measure" ∧ ¬ hwGateQubitCount g ≤ 1)) ∧
      (gates.foldl hwStep acc).2.2.2.2.2.2.2.2.2 =
        (gates.filterMap (fun g => g.position)).foldl (fun m p => max m p)
          acc.2.2.2.2.2.2.2.2.2 := by
  induction gates with
  | nil => intro acc; simp
  | cons g gs ih =>
    intro acc
    obtain ⟨f1, f2, f3, f4, f5, f6, f7, f8, f9, f10⟩ := ih (hwStep acc g)
    obtain ⟨s1, s2, s3, s4, s5, s6, s7, s8, s9, s10⟩ := hwStep_spec acc g
    simp only [List.foldl_cons, List.countP_cons, List.filterMap_cons]
    refine ⟨?_, ?_, ?_, ?_, ?_, ?_, ?_, ?_, ?_, ?_⟩
    · rw [f1, s1, bumpCount_lookup]
      by_cases h : gtypeNorm g = "t" <;> simp [h] <;> omega
    · rw [f2, s2]
      by_cases h : gtypeNorm g = "t"
      · cases hp : g.position <;> simp [h, hp]
      · simp [h]
    · rw [f3, s3]
      by_cases h : gtypeNorm g = "cnot" ∨ gtypeNorm g = "cx" <;> simp [h] <;> omega
    · rw [f4, s4]
      by_cases h : gtypeNorm g = "measure" <;> simp [h] <;> omega
    · rw [f5, s5]
      by_cases h : gtypeNorm g ≠ "measure" ∧ hwGateQubitCount g ≤ 1 <;>
        simp [h] <;> omega
    · rw [f6, s6]
      by_cases h : gtypeNorm g ≠ "measure" ∧ ¬ hwGateQubitCount g ≤ 1 ∧
          hwGateQubitCount g = 2 <;>
        simp [h] <;> omega
    · rw [f7, s7]
      by_cases h : gtypeNorm g ≠ "measure" ∧ ¬ hwGateQubitCount g ≤ 1 ∧
          ¬ hwGateQubitCount g = 2 <;>
        simp [h] <;> omega
    · rw [f8, s8]
      by_cases h : gtypeNorm g ≠ "measure" ∧ ¬ hwGateQubitCount g ≤ 1
      · rw [if_pos h, if_pos h]
        cases hp : g.position <;> try simp [hp]
      · rw [if_neg h, if_neg h]
        try simp
    · rw [f9, s9]
      by_cases h : gtypeNorm g ≠ "measure" ∧ ¬ hwGateQubitCount g ≤ 1 <;>
        simp [h] <;> omega
    · rw [f10, s10]
      cases hp : g.position <;> simp [hp]

theorem gtypeNorm_eq_iff {K : Type} (g : Gate K) (s : String) (h1 : s ≠ "")
    (h2 : s ≠ "unknown") : gtypeNorm g = s ↔ g.type = s := by
  unfold gtypeNorm
  by_cases h : g.type = ""
  · rw [if_pos h, h]
    constructor
    · intro he; exact absurd he.symm h2
    · intro he; exact absurd he.symm h1
  · rw [if_neg h]

theorem countP_partition_nonmeasure {K : Type} (gates : List (Gate K)) :
    gates.countP (fun g => decide (gtypeNorm g ≠ "measure" ∧ hwGateQubitCount g ≤ 1)) +
      gates.countP (fun g => decide (gtypeNorm g ≠ "measure" ∧
        ¬ hwGateQubitCount g ≤ 1 ∧ hwGateQubitCount g = 2)) +
      gates.countP (fun g => decide (gtypeNorm g ≠ "measure" ∧
        ¬ hwGateQubitCount g ≤ 1 ∧ ¬ hwGateQubitCount g = 2)) =
      gates.countP (fun g => decide (g.type ≠ "measure")) := by
  induction gates with
  | nil => simp
  | cons g gs ih =>
    have hiff : gtypeNorm g ≠ "measure" ↔ g.type ≠ "measure" :=
      not_congr (gtypeNorm_eq_iff g "measure" (by decide) (by decide))
    rw [List.countP_cons, List.countP_cons, List.countP_cons, List.countP_cons]
    simp only [decide_eq_true_eq]
    by_cases hm : g.type = "measure"
    · have hgn : ¬ gtypeNorm g ≠ "measure" := fun hc => (hiff.mp hc) hm
      rw [if_neg (fun hc => hgn hc.1), if_neg (fun hc => hgn hc.1),
        if_neg (fun hc => hgn hc.1), if_neg (fun hc => hc hm)]
      omega
    · have hgn : gtypeNorm g ≠ "measure" := hiff.mpr hm
      by_cases h1 : hwGateQubitCount g ≤ 1
      · rw [if_pos ⟨hgn, h1⟩, if_neg (fun hc => hc.2.1 h1),
          if_neg (fun hc => hc.2.1 h1), if_pos hm]
        omega
      · by_cases h2 : hwGateQubitCount g = 2
        · rw [if_neg (fun hc => h1 hc.2), if_pos ⟨hgn, h1, h2⟩,
            if_neg (fun hc => hc.2.2 h2), if_pos hm]
          omega
        · rw [if_neg (fun hc => h1 hc.2), if_neg (fun hc => h2 hc.2.2),
            if_pos ⟨hgn, h1, h2⟩, if_pos hm]
          omega

theorem hwFold_spec0 {K : Type} (gates : List (Gate K)) :
    lookupCount (gates.foldl hwStep (([], [], 0, 0, 0, 0, 0, [], 0, -1) : HwAcc)).1 "t" =
      gates.countP (fun g => decide (gtypeNorm g = "t")) ∧
    (gates.foldl hwStep (([], [], 0, 0, 0, 0, 0, [], 0, -1) : HwAcc)).2.1 =
      (gates.filterMap (fun g => if gtypeNorm g = "t" then g.position else none)).foldl
        setInsert [] ∧
    (gates.foldl hwStep (([], [], 0, 0, 0, 0, 0, [], 0, -1) : HwAcc)).2.2.2.2.1 =
      gates.countP (fun g => decide (gtypeNorm g ≠ "measure" ∧ hwGateQubitCount g ≤ 1)) ∧
    (gates.foldl hwStep (([], [], 0, 0, 0, 0, 0, [], 0, -1) : HwAcc)).2.2.2.2.2.1 =
      gates.countP (fun g => decide (gtypeNorm g ≠ "measure" ∧
        ¬ hwGateQubitCount g ≤ 1 ∧ hwGateQubitCount g = 2)) ∧
    (gates.foldl hwStep (([], [], 0, 0, 0, 0, 0, [], 0, -1) : HwAcc)).2.2.2.2.2.2.1 =
      gates.countP (fun g => decide (gtypeNorm g ≠ "measure" ∧
        ¬ hwGateQubitCount g ≤ 1 ∧ ¬ hwGateQubitCount g = 2)) ∧
    (gates.foldl hwStep (([], [], 0, 0, 0, 0, 0, [], 0, -1) : HwAcc)).2.2.2.2.2.2.2.1 =
      (gates.filterMap (fun g =>
        if gtypeNorm g ≠ "measure" ∧ ¬ hwGateQubitCount g ≤ 1 then g.position
        else none)).foldl setInsert [] ∧
    (gates.foldl hwStep (([], [], 0, 0, 0, 0, 0, [], 0, -1) : HwAcc)).2.2.2.2.2.2.2.2.1 =
      gates.countP
        (fun g => decide (gtypeNorm g ≠ "measure" ∧ ¬ hwGateQubitCount g ≤ 1)) ∧
    (gates.foldl hwStep (([], [], 0, 0, 0, 0, 0, [], 0, -1) : HwAcc)).2.2.2.2.2.2.2.2.2 =
      (gates.filterMap (fun g => g.position)).foldl (fun m p => max m p) (-1) := by
  obtain ⟨f1, f2, f3, f4, f5, f6, f7, f8, f9, f10⟩ :=
    hwFold_spec gates (([], [], 0, 0, 0, 0, 0, [], 0, -1) : HwAcc)
  exact ⟨f1.trans (Nat.zero_add _), f2, f5.trans (Nat.zero_add _),
    f6.trans (Nat.zero_add _), f7.trans (Nat.zero_add _), f8,
    f9.trans (Nat.zero_add _), f10⟩

theorem qv_formula (n : ℕ) (d : ℤ) (hd : 0 ≤ d) :
    (if 0 < (if n ≠ 0 ∧ d ≠ 0 then min (n : ℤ) d else 0) then
      2 ^ (if n ≠ 0 ∧ d ≠ 0 then min (n : ℤ) d else 0).toNat else 0) =
    (if 0 < n ∧ 0 < d then 2 ^ (min n d.toNat) else 0) := by
  by_cases hn : n = 0
  · simp [hn]
  · by_cases hdz : d = 0
    · simp [hdz]
    · have h1 : 0 < min (n : ℤ) d := lt_min (by omega) (by omega)
      rw [if_pos (⟨hn, hdz⟩ : n ≠ 0 ∧ d ≠ 0), if_pos h1,
        if_pos ⟨Nat.pos_of_ne_zero hn, by omega⟩]
      congr 1
      omega

/-- General characterization of `calculate_hardware_metrics` used by the
claim theorem: depth bounds, T-count/ T-depth, entangling ratio and depth,
and the quantum-volume formula actually computed. -/
theorem hwMetrics_general {K : Type} [LinearOrderedField K]
    (numQubits : ℕ) (gates : List (Gate K)) :
    (∀ g ∈ gates, ∀ p : ℤ, g.position = some p →
      p < (calculateHardwareMetrics numQubits gates).circuitDepth) ∧
    ((∃ g ∈ gates, ∃ p : ℤ, g.position = some p ∧ 0 ≤ p) →
      ∃ g ∈ gates, g.position =
        some ((calculateHardwareMetrics numQubits gates).circuitDepth - 1)) ∧
    (calculateHardwareMetrics numQubits gates).tCount =
      gates.countP (fun g => decide (g.type = "t")) ∧
    (calculateHardwareMetrics numQubits gates).tDepth =
      ((gates.filterMap (fun g => if g.type = "t" then g.position else none)).toFinset).card ∧
    (calculateHardwareMetrics numQubits gates).entanglementRatio =
      ((gates.countP (fun g => decide (g.type ≠ "measure" ∧ 2 ≤ hwGateQubitCount g)) : ℕ) : K) /
        (((max (gates.countP (fun g => decide (g.type ≠ "measure"))) 1 : ℕ) : K)) ∧
    (calculateHardwareMetrics numQubits gates).entanglementDepth =
      ((gates.filterMap (fun g =>
        if g.type ≠ "measure" ∧ 2 ≤ hwGateQubitCount g then g.position
        else none)).toFinset).card ∧
    (calculateHardwareMetrics numQubits gates).quantumVolume =
      (if 0 < numQubits ∧ 0 < (calculateHardwareMetrics numQubits gates).circuitDepth then
        2 ^ (min numQubits (calculateHardwareMetrics numQubits gates).circuitDepth.toNat)
      else 0) := by
  obtain ⟨F1, F2, F5, F6, F7, F8, F9, F10⟩ := hwFold_spec0 gates
  have hMdepth : (calculateHardwareMetrics numQubits gates).circuitDepth =
      (if 0 ≤ (gates.filterMap (fun g => g.position)).foldl (fun m p => max m p) (-1)
       then (gates.filterMap (fun g => g.position)).foldl (fun m p => max m p) (-1) + 1
       else 0) := by
    show (if 0 ≤ (gates.foldl hwStep (([], [], 0, 0, 0, 0, 0, [], 0, -1) : HwAcc)).2.2.2.2.2.2.2.2.2
       then (gates.foldl hwStep (([], [], 0, 0, 0, 0, 0, [], 0, -1) : HwAcc)).2.2.2.2.2.2.2.2.2 + 1
       else 0) = _
    rw [F10]
  obtain ⟨hb1, hb2, hb3⟩ :=
    foldl_max_bounds (gates.filterMap (fun g => g.position)) (-1)
  refine ⟨?_, ?_, ?_, ?_, ?_, ?_, ?_⟩
  · intro g hg p hp
    have hmem : p ∈ gates.filterMap (fun g => g.position) :=
      List.mem_filterMap.mpr ⟨g, hg, hp⟩
    have hle := hb2 p hmem
    rw [hMdepth]
    split <;> omega
  · rintro ⟨g, hg, p, hp, hp0⟩
    have hmem : p ∈ gates.filterMap (fun g => g.position) :=
      List.mem_filterMap.mpr ⟨g, hg, hp⟩
    have hle := hb2 p hmem
    have hpos : 0 ≤ (gates.filterMap (fun g => g.position)).foldl (fun m p => max m p) (-1) := by
      omega
    rcases hb3 with h | h
    · omega
    · obtain ⟨g2, hg2, hp2⟩ := List.mem_filterMap.mp h
      refine ⟨g2, hg2, ?_⟩
      rw [hMdepth, if_pos hpos]
      simpa using hp2
  · show lookupCount (gates.foldl hwStep (([], [], 0, 0, 0, 0, 0, [], 0, -1) : HwAcc)).1 "t" = _
    rw [F1]
    congr 1
    funext g
    exact decide_eq_decide.mpr (gtypeNorm_eq_iff g "t" (by decide) (by decide))
  · show (gates.foldl hwStep (([], [], 0, 0, 0, 0, 0, [], 0, -1) : HwAcc)).2.1.length = _
    rw [F2]
    have hfun : (fun (g : Gate K) => if gtypeNorm g = "t" then g.position else none) =
        (fun g => if g.type = "t" then g.position else none) := by
      funext g
      rw [if_congr (gtypeNorm_eq_iff g "t" (by decide) (by decide)) rfl rfl]
    rw [hfun]
    obtain ⟨hn, hf⟩ := foldl_setInsert_spec
      (gates.filterMap (fun g => if g.type = "t" then g.position else none)) [] (by simp)
    rw [← List.toFinset_card_of_nodup hn, hf]
    simp
  · show ((gates.foldl hwStep (([], [], 0, 0, 0, 0, 0, [], 0, -1) : HwAcc)).2.2.2.2.2.2.2.2.1 : K) /
        ((max ((gates.foldl hwStep (([], [], 0, 0, 0, 0, 0, [], 0, -1) : HwAcc)).2.2.2.2.1 +
          (gates.foldl hwStep (([], [], 0, 0, 0, 0, 0, [], 0, -1) : HwAcc)).2.2.2.2.2.1 +
          (gates.foldl hwStep (([], [], 0, 0, 0, 0, 0, [], 0, -1) : HwAcc)).2.2.2.2.2.2.1) 1 : ℕ) : K) = _
    rw [F5, F6, F7, F9]
    have hent : (fun (g : Gate K) => decide (gtypeNorm g ≠ "measure" ∧
        ¬ hwGateQubitCount g ≤ 1)) =
        (fun g => decide (g.type ≠ "measure" ∧ 2 ≤ hwGateQubitCount g)) := by
      funext g
      refine decide_eq_decide.mpr (and_congr ?_ (by omega))
      exact not_congr (gtypeNorm_eq_iff g "measure" (by decide) (by decide))
    rw [hent, countP_partition_nonmeasure gates]
  · show (gates.foldl hwStep (([], [], 0, 0, 0, 0, 0, [], 0, -1) : HwAcc)).2.2.2.2.2.2.2.1.length = _
    rw [F8]
    have hfun : (fun (g : Gate K) =>
        if gtypeNorm g ≠ "measure" ∧ ¬ hwGateQubitCount g ≤ 1 then g.position else none) =
        (fun g => if g.type ≠ "measure" ∧ 2 ≤ hwGateQubitCount g then g.position else none) := by
      funext g
      refine if_congr (and_congr ?_ (by omega)) rfl rfl
      exact not_congr (gtypeNorm_eq_iff g "measure" (by decide) (by decide))
    rw [hfun]
    obtain ⟨hn, hf⟩ := foldl_setInsert_spec
      (gates.filterMap (fun g =>
        if g.type ≠ "measure" ∧ 2 ≤ hwGateQubitCount g then g.position else none)) [] (by simp)
    rw [← List.toFinset_card_of_nodup hn, hf]
    simp
  · show (if 0 < (if numQubits ≠ 0 ∧
        (calculateHardwareMetrics numQubits gates).circuitDepth ≠ 0 then
          min (numQubits : ℤ) (calculateHardwareMetrics numQubits gates).circuitDepth
        else 0) then
        2 ^ (if numQubits ≠ 0 ∧
          (calculateHardwareMetrics numQubits gates).circuitDepth ≠ 0 then
            min (numQubits : ℤ) (calculateHardwareMetrics numQubits gates).circuitDepth
          else 0).toNat
      else 0) = _
    have hd : 0 ≤ (calculateHardwareMetrics numQubits gates).circuitDepth := by
      rw [hMdepth]; split <;> omega
    exact qv_formula numQubits _ hd

/-- C8 (amended): For every circuit, the hardware-characteristics estimator
returns circuit depth equal to the maximum gate position plus 1 (every
position is strictly below the depth, and the depth is attained by a gate
position whenever a nonnegative position exists), T-depth equal to the
count of distinct positions holding a T gate, entangling-gate ratio equal
to the entangling (2-or-more-qubit, non-measurement) gate count divided by
the total non-measurement gate count with a floor of 1 in the denominator,
entangling depth equal to the count of distinct positions holding an
entangling gate, and quantum volume equal to 2^min(num_qubits, depth)
*when both num_qubits and the depth are positive, and 0 otherwise* — the
original claim's unconditional 2^min(num_qubits, depth) fails on the empty
circuit (see the counterexample).  The 2-qubit example circuit {H on q0 at
position 0, CNOT q0→q1 at position 1, T on q1 at position 2, measure q0 at
position 3} yields depth=4, width=2, t_count=1, t_depth=1, cnot_count=1,
single_qubit_gates=2, two_qubit_gates=1, entanglement_ratio=1/3,
entanglement_depth=1, quantum_volume=4. -/
theorem hardware_characteristics_estimator {K : Type} [LinearOrderedField K]
    (numQubits : ℕ) (gates : List (Gate K)) :
    ((∀ g ∈ gates, ∀ p : ℤ, g.position = some p →
      p < (calculateHardwareMetrics numQubits gates).circuitDepth) ∧
    ((∃ g ∈ gates, ∃ p : ℤ, g.position = some p ∧ 0 ≤ p) →
      ∃ g ∈ gates, g.position =
        some ((calculateHardwareMetrics numQubits gates).circuitDepth - 1)) ∧
    (calculateHardwareMetrics numQubits gates).tCount =
      gates.countP (fun g => decide (g.type = "t")) ∧
    (calculateHardwareMetrics numQubits gates).tDepth =
      ((gates.filterMap (fun g => if g.type = "t" then g.position else none)).toFinset).card ∧
    (calculateHardwareMetrics numQubits gates).entanglementRatio =
      ((gates.countP (fun g => decide (g.type ≠ "measure" ∧ 2 ≤ hwGateQubitCount g)) : ℕ) : K) /
        (((max (gates.countP (fun g => decide (g.type ≠ "measure"))) 1 : ℕ) : K)) ∧
    (calculateHardwareMetrics numQubits gates).entanglementDepth =
      ((gates.filterMap (fun g =>
        if g.type ≠ "measure" ∧ 2 ≤ hwGateQubitCount g then g.position
        else none)).toFinset).card ∧
    (calculateHardwareMetrics numQubits gates).quantumVolume =
      (if 0 < numQubits ∧ 0 < (calculateHardwareMetrics numQubits gates).circuitDepth then
        2 ^ (min numQubits (calculateHardwareMetrics numQubits gates).circuitDepth.toNat)
      else 0)) ∧
    ((calculateHardwareMetrics (K := ℚ) 2 hwExampleGates).circuitDepth = 4 ∧
      (calculateHardwareMetrics (K := ℚ) 2 hwExampleGates).circuitWidth = 2 ∧
      (calculateHardwareMetrics (K := ℚ) 2 hwExampleGates).tCount = 1 ∧
      (calculateHardwareMetrics (K := ℚ) 2 hwExampleGates).tDepth = 1 ∧
      (calculateHardwareMetrics (K := ℚ) 2 hwExampleGates).cnotCount = 1 ∧
      (calculateHardwareMetrics (K := ℚ) 2 hwExampleGates).singleQubitGates = 2 ∧
      (calculateHardwareMetrics (K := ℚ) 2 hwExampleGates).twoQubitGates = 1 ∧
      (calculateHardwareMetrics (K := ℚ) 2 hwExampleGates).entanglementRatio = 1 / 3 ∧
      (calculateHardwareMetrics (K := ℚ) 2 hwExampleGates).entanglementDepth = 1 ∧
      (calculateHardwareMetrics (K := ℚ) 2 hwExampleGates).quantumVolume = 4) := by
  refine ⟨hwMetrics_general numQubits gates, ?_⟩
  obtain ⟨e1, e2, e3, e4, e5, e6, e7⟩ := hwMetrics_general (K := ℚ) 2 hwExampleGates
  refine ⟨by decide, by decide, by decide, by decide, by decide, by decide, by decide,
    ?_, by decide, by decide⟩
  rw [e5]
  have c1 : hwExampleGates.countP
      (fun g => decide (g.type ≠ "measure" ∧ 2 ≤ hwGateQubitCount g)) = 1 := by decide
  have c2 : hwExampleGates.countP (fun g => decide (g.type ≠ "measure")) = 3 := by decide
  rw [c1, c2]
  norm_num

/-- C8 counterexample: the claim's unconditional quantum-volume formula
2^min(num_qubits, depth) fails at the concrete input num_qubits = 1,
gates = [] — the formula gives 2^min(1,0) = 1 but the engine returns 0. -/
theorem hardware_quantum_volume_counterexample :
    (calculateHardwareMetrics (K := ℚ) 1 []).quantumVolume = 0 ∧
    (calculateHardwareMetrics (K := ℚ) 1 []).circuitDepth = 0 ∧
    2 ^ (min 1 (calculateHardwareMetrics (K := ℚ) 1 []).circuitDepth.toNat) = 1 ∧
    (0 : ℕ) ≠ 1 := by decide

/-- Witness for `hardware_characteristics_estimator`: the depth-attainment
implication discharged at the example circuit. -/
theorem hardware_characteristics_estimator_witness :
    ∃ g ∈ hwExampleGates, g.position = some 3 := by
  have h := (hardware_characteristics_estimator (K := ℚ) 2 hwExampleGates).1.2.1
  have h2 := h ⟨Gate.simple "h" 0 0, by decide, 0, rfl, le_refl 0⟩
  have hd : (calculateHardwareMetrics (K := ℚ) 2 hwExampleGates).circuitDepth = 4 := by decide
  rw [hd] at h2
  norm_num at h2
  exact h2

theorem sqAbs_nonneg {K : Type} [LinearOrderedField K] (a : Cplx K) : 0 ≤ a.sqAbs :=
  add_nonneg (mul_self_nonneg _) (mul_self_nonneg _)

theorem svNormSq_nonneg {K : Type} [LinearOrderedField K] (s : List (Cplx K)) :
    0 ≤ svNormSq s := by
  refine List.sum_nonneg ?_
  intro x hx
  obtain ⟨a, _, rfl⟩ := List.mem_map.mp hx
  exact sqAbs_nonneg a

theorem measProbsFrom_add {K : Type} [LinearOrderedField K] (t : ℕ)
    (s : List (Cplx K)) : ∀ idx : ℕ,
    (measProbsFrom t idx s).1 + (measProbsFrom t idx s).2 = svNormSq s := by
  induction s with
  | nil => intro idx; simp [measProbsFrom, svNormSq]
  | cons a rest ih =>
    intro idx
    have h2 := ih (idx + 1)
    rcases hmp : measProbsFrom t (idx + 1) rest with ⟨p0, p1⟩
    rw [hmp] at h2
    simp only [svNormSq, List.map_cons, List.sum_cons] at h2 ⊢
    by_cases h : Nat.testBit idx t = true
    · simp only [measProbsFrom, hmp, if_pos h]
      try dsimp only
      rw [← h2]; ring
    · simp only [measProbsFrom, hmp, if_neg h]
      try dsimp only
      rw [← h2]; ring

theorem measProbsFrom_nonneg {K : Type} [LinearOrderedField K] (t : ℕ)
    (s : List (Cplx K)) : ∀ idx : ℕ,
    0 ≤ (measProbsFrom t idx s).1 ∧ 0 ≤ (measProbsFrom t idx s).2 := by
  induction s with
  | nil => intro idx; simp [measProbsFrom]
  | cons a rest ih =>
    intro idx
    obtain ⟨ih1, ih2⟩ := ih (idx + 1)
    have ha := sqAbs_nonneg a
    rcases hmp : measProbsFrom t (idx + 1) rest with ⟨p0, p1⟩
    rw [hmp] at ih1 ih2
    by_cases h : Nat.testBit idx t = true
    · simp only [measProbsFrom, hmp, if_pos h]
      try dsimp only at ih1 ih2 ⊢
      exact ⟨ih1, by positivity⟩
    · simp only [measProbsFrom, hmp, if_neg h]
      try dsimp only at ih1 ih2 ⊢
      exact ⟨by positivity, ih2⟩

theorem zeroFrom_normSq {K : Type} [LinearOrderedField K] (t : ℕ) (o : ℕ)
    (ho : o = 0 ∨ o = 1) (s : List (Cplx K)) : ∀ idx : ℕ,
    svNormSq (zeroFrom t o idx s) =
      (if o = 1 then (measProbsFrom t idx s).2 else (measProbsFrom t idx s).1) := by
  induction s with
  | nil => intro idx; rcases ho with rfl | rfl <;> simp [zeroFrom, measProbsFrom, svNormSq]
  | cons a rest ih =>
    intro idx
    have h2 := ih (idx + 1)
    rcases hmp : measProbsFrom t (idx + 1) rest with ⟨p0, p1⟩
    rw [hmp] at h2
    rcases ho with rfl | rfl
    · by_cases h : Nat.testBit idx t = true
      · have hcond : ((if Nat.testBit idx t then (1 : ℕ) else 0) ≠ 0) := by simp [h]
        simp only [zeroFrom, measProbsFrom, hmp, if_pos h, if_pos hcond, svNormSq,
          List.map_cons, List.sum_cons, if_neg (by decide : ¬ (0 : ℕ) = 1)] at h2 ⊢
        simp_all [Cplx.sqAbs, Cplx.zero]
        try ring
      · have hcond : ¬ ((if Nat.testBit idx t then (1 : ℕ) else 0) ≠ 0) := by simp [h]
        simp only [zeroFrom, measProbsFrom, hmp, if_neg h, if_neg hcond, svNormSq,
          List.map_cons, List.sum_cons, if_neg (by decide : ¬ (0 : ℕ) = 1)] at h2 ⊢
        simp_all [Cplx.sqAbs, Cplx.zero]
        try ring
    · by_cases h : Nat.testBit idx t = true
      · have hcond : ¬ ((if Nat.testBit idx t then (1 : ℕ) else 0) ≠ 1) := by simp [h]
        simp only [zeroFrom, measProbsFrom, hmp, if_pos h, if_neg hcond, svNormSq,
          List.map_cons, List.sum_cons, if_pos (rfl : (1 : ℕ) = 1)] at h2 ⊢
        simp_all [Cplx.sqAbs, Cplx.zero]
        try ring
      · have hcond : ((if Nat.testBit idx t then (1 : ℕ) else 0) ≠ 1) := by simp [h]
        simp only [zeroFrom, measProbsFrom, hmp, if_neg h, if_pos hcond, svNormSq,
          List.map_cons, List.sum_cons, if_pos (rfl : (1 : ℕ) = 1)] at h2 ⊢
        simp_all [Cplx.sqAbs, Cplx.zero]
        try ring

theorem sqAbs_divReal {K : Type} [LinearOrderedField K] (a : Cplx K) (r : K)
    (hr : r ≠ 0) : (a.divReal r).sqAbs = a.sqAbs / (r * r) := by
  simp only [Cplx.divReal, Cplx.sqAbs]
  rw [div_mul_div_comm, div_mul_div_comm, div_add_div_same]

theorem svNormSq_map_divReal {K : Type} [LinearOrderedField K] (s : List (Cplx K))
    (r : K) (hr : r ≠ 0) :
    svNormSq (s.map (fun a => a.divReal r)) = svNormSq s / (r * r) := by
  induction s with
  | nil => simp [svNormSq]
  | cons a rest ih =>
    simp only [svNormSq, List.map_cons, List.sum_cons] at ih ⊢
    rw [sqAbs_divReal a r hr, ih, div_add_div_same]

theorem collapse_normSq {K : Type} [LinearOrderedField K] (sqrt : K → K)
    (hs : SqrtContract sqrt) (s : List (Cplx K)) (t o : ℕ)
    (hpos : 0 < svNormSq (zeroFrom t o 0 s)) :
    svNormSq (collapseStatevector sqrt s t o) = 1 := by
  unfold collapseStatevector
  obtain ⟨h1, h2⟩ := hs _ hpos
  rw [if_pos h1, svNormSq_map_divReal _ _ (ne_of_gt h1), h2]
  exact div_self (ne_of_gt hpos)

theorem zeroFrom_getD {K : Type} [LinearOrderedField K] (t o : ℕ)
    (s : List (Cplx K)) : ∀ (idx i : ℕ),
    ((if Nat.testBit (idx + i) t then 1 else 0) ≠ o) →
      (zeroFrom t o idx s).getD i Cplx.zero = Cplx.zero := by
  induction s with
  | nil => intro idx i _; simp [zeroFrom]
  | cons a rest ih =>
    intro idx i hbit
    match i with
    | 0 =>
      simp only [zeroFrom, List.getD_cons_zero]
      rw [if_pos (by simpa using hbit)]
    | i + 1 =>
      simp only [zeroFrom, List.getD_cons_succ]
      refine ih (idx + 1) i ?_
      have : idx + 1 + i = idx + (i + 1) := by omega
      rw [this]
      exact hbit

theorem getD_map_divReal {K : Type} [LinearOrderedField K] (r : K)
    (z : List (Cplx K)) : ∀ i : ℕ,
    (z.map (fun a => a.divReal r)).getD i Cplx.zero = (z.getD i Cplx.zero).divReal r := by
  induction z with
  | nil =>
    intro i
    simp [Cplx.divReal, Cplx.zero]
  | cons a rest ih =>
    intro i
    match i with
    | 0 => simp
    | i + 1 => simpa using ih i

theorem collapse_zeroed {K : Type} [LinearOrderedField K] (sqrt : K → K)
    (s : List (Cplx K)) (t o i : ℕ)
    (hbit : (if Nat.testBit i t then 1 else 0) ≠ o) :
    (collapseStatevector sqrt s t o).getD i Cplx.zero = Cplx.zero := by
  have hz : (zeroFrom t o 0 s).getD i Cplx.zero = Cplx.zero :=
    zeroFrom_getD t o s 0 i (by simpa using hbit)
  unfold collapseStatevector
  by_cases hn : 0 < sqrt (svNormSq (zeroFrom t o 0 s))
  · rw [if_pos hn, getD_map_divReal, hz]
    simp [Cplx.divReal, Cplx.zero]
  · rw [if_neg hn]
    exact hz

theorem except_bind_ok {ε α β : Type} (a : α) (g : α → Except ε β) :
    (Except.ok a >>= g) = g a := rfl

theorem except_bind_error {ε α β : Type} (e : ε) (g : α → Except ε β) :
    ((Except.error e : Except ε α) >>= g) = Except.error e := rfl

theorem applyBasisRot_norm {K : Type} [LinearOrderedField K] {σ : Type}
    (env : QiskitEnv K σ) (he : EvolvePreservesNorm env) (n : ℕ) (basis : String)
    (q : ℤ) (s s2 : List (Cplx K))
    (h : applyBasisRotationStatevector env n basis q s = .ok s2) :
    svNormSq s2 = svNormSq s := by
  unfold applyBasisRotationStatevector at h
  cases hb : basisRotationInstrs (K := K) basis q with
  | error e => rw [hb, except_bind_error] at h; cases h
  | ok rot =>
    rw [hb, except_bind_ok] at h
    exact he _ _ _ h

theorem applyGateUnitary_norm {K : Type} [LinearOrderedField K] [FloorRing K]
    {σ : Type} (env : QiskitEnv K σ) (he : EvolvePreservesNorm env) (n : ℕ)
    (g : Gate K) (s s2 : List (Cplx K))
    (h : applyGateUnitary env n g s = .ok s2) : svNormSq s2 = svNormSq s := by
  unfold applyGateUnitary at h
  cases hb : applyGate (⟨n, [], []⟩ : CircuitRep K) (stripCondition g) with
  | error e => rw [hb, except_bind_error] at h; cases h
  | ok qc =>
    rw [hb, except_bind_ok] at h
    exact he _ _ _ h

theorem measureChildren_spec {K : Type} [LinearOrderedField K] {σ : Type}
    (env : QiskitEnv K σ) (hs : SqrtContract env.sqrt)
    (he : EvolvePreservesNorm env) (n : ℕ) (basis : String) (target cbit : ℤ)
    (rA : Bool) (br : Branch K) (cs : List (Branch K)) (hw : 0 < br.mass)
    (hnorm : svNormSq br.state = 1)
    (h : measureChildren env n basis target cbit rA br = .ok cs) :
    (∀ b ∈ cs, 0 < b.mass ∧ svNormSq b.state = 1) ∧
      (cs.map Branch.mass).sum = br.mass := by
  unfold measureChildren at h
  cases hrot : applyBasisRotationStatevector env n basis target br.state with
  | error e => rw [hrot, except_bind_error] at h; cases h
  | ok rotated =>
    rw [hrot, except_bind_ok] at h
    have hrotnorm : svNormSq rotated = 1 := by
      rw [applyBasisRot_norm env he n basis target br.state rotated hrot, hnorm]
    simp only at h
    rcases hp : measurementProbabilities rotated target.toNat with ⟨p0, p1⟩
    rw [hp] at h
    simp only at h
    have hsum : p0 + p1 = 1 := by
      have := measProbsFrom_add target.toNat rotated 0
      rw [show measurementProbabilities rotated target.toNat =
        measProbsFrom target.toNat 0 rotated from rfl] at hp
      rw [hp] at this
      simpa [hrotnorm] using this
    have hnn := measProbsFrom_nonneg target.toNat rotated 0
    rw [show measurementProbabilities rotated target.toNat =
      measProbsFrom target.toNat 0 rotated from rfl] at hp
    rw [hp] at hnn
    obtain ⟨hp0n, hp1n⟩ := hnn
    have hz0 : svNormSq (zeroFrom target.toNat 0 0 rotated) = p0 := by
      have := zeroFrom_normSq target.toNat 0 (Or.inl rfl) rotated 0
      rw [hp] at this
      simpa using this
    have hz1 : svNormSq (zeroFrom target.toNat 1 0 rotated) = p1 := by
      have := zeroFrom_normSq target.toNat 1 (Or.inr rfl) rotated 0
      rw [hp] at this
      simpa using this
    have hp0n2 : (0 : K) ≤ p0 := hp0n
    have hp1n2 : (0 : K) ≤ p1 := hp1n
    have c0norm : 0 < p0 → svNormSq (collapseStatevector env.sqrt rotated target.toNat 0) = 1 :=
      fun hgt => collapse_normSq env.sqrt hs rotated target.toNat 0 (by rw [hz0]; exact hgt)
    have c1norm : 0 < p1 → svNormSq (collapseStatevector env.sqrt rotated target.toNat 1) = 1 :=
      fun hgt => collapse_normSq env.sqrt hs rotated target.toNat 1 (by rw [hz1]; exact hgt)
    simp only [and_true, except_bind_ok, show ((0 : ℕ) = 1) = False from by simp,
      and_false, if_false] at h
    by_cases h0 : p0 ≤ 0
    · rw [if_pos h0] at h; try simp only [except_bind_ok] at h
      have hp0z : p0 = 0 := le_antisymm h0 hp0n2
      by_cases h1 : p1 ≤ 0
      · rw [if_pos h1] at h; try simp only [except_bind_ok] at h
        have hp1z : p1 = 0 := le_antisymm h1 hp1n2
        rw [hp0z, hp1z] at hsum
        norm_num at hsum
      · have hp1 : (0 : K) < p1 := not_le.mp h1
        have hp1e : p1 = 1 := by linarith
        rw [if_neg h1] at h
        by_cases hrA : rA = true
        · rw [if_pos hrA] at h
          cases hres : applyResetStatevector env n target
              (collapseStatevector env.sqrt rotated target.toNat 1) with
          | error e => rw [hres] at h; try simp only [except_bind_error] at h; cases h
          | ok y =>
            rw [hres] at h; try simp only [except_bind_ok] at h
            injection h with h
            subst h
            have hy : svNormSq y = 1 := by
              rw [he _ _ _ hres, c1norm hp1]
            refine ⟨?_, ?_⟩
            · intro b hb
              simp only [List.nil_append, List.mem_singleton] at hb
              subst hb
              exact ⟨by positivity, hy⟩
            · simp [hp1e]
        · rw [if_neg hrA] at h; try simp only [except_bind_ok] at h
          injection h with h
          subst h
          refine ⟨?_, ?_⟩
          · intro b hb
            simp only [List.nil_append, List.mem_singleton] at hb
            subst hb
            exact ⟨by positivity, c1norm hp1⟩
          · simp [hp1e]
    · have hp0 : (0 : K) < p0 := not_le.mp h0
      rw [if_neg h0] at h; try simp only [except_bind_ok] at h
      by_cases h1 : p1 ≤ 0
      · have hp1z : p1 = 0 := le_antisymm h1 hp1n2
        have hp0e : p0 = 1 := by linarith
        rw [if_pos h1] at h; try simp only [except_bind_ok] at h
        injection h with h
        subst h
        refine ⟨?_, ?_⟩
        · intro b hb
          simp only [List.mem_append, List.mem_singleton, List.not_mem_nil, or_false] at hb
          subst hb
          exact ⟨by positivity, c0norm hp0⟩
        · simp [hp0e]
      · have hp1 : (0 : K) < p1 := not_le.mp h1
        rw [if_neg h1] at h
        by_cases hrA : rA = true
        · rw [if_pos hrA] at h
          cases hres : applyResetStatevector env n target
              (collapseStatevector env.sqrt rotated target.toNat 1) with
          | error e => rw [hres] at h; try simp only [except_bind_error] at h; cases h
          | ok y =>
            rw [hres] at h; try simp only [except_bind_ok] at h
            injection h with h
            subst h
            have hy : svNormSq y = 1 := by
              rw [he _ _ _ hres, c1norm hp1]
            refine ⟨?_, ?_⟩
            · intro b hb
              simp only [List.mem_append, List.mem_singleton, List.not_mem_nil,
                false_or] at hb
              rcases hb with hb | hb <;> subst hb
              · exact ⟨by positivity, c0norm hp0⟩
              · exact ⟨by positivity, hy⟩
            · simp only [List.map_append, List.map_cons, List.map_nil, List.sum_append,
                List.sum_cons, List.sum_nil]
              have : br.mass * p0 + br.mass * p1 = br.mass * (p0 + p1) := by ring
              rw [add_zero, add_zero, this, hsum, mul_one]
        · rw [if_neg hrA] at h; try simp only [except_bind_ok] at h
          injection h with h
          subst h
          refine ⟨?_, ?_⟩
          · intro b hb
            simp only [List.mem_append, List.mem_singleton, List.not_mem_nil,
              false_or] at hb
            rcases hb with hb | hb <;> subst hb
            · exact ⟨by positivity, c0norm hp0⟩
            · exact ⟨by positivity, c1norm hp1⟩
          · simp only [List.map_append, List.map_cons, List.map_nil, List.sum_append,
              List.sum_cons, List.sum_nil]
            have : br.mass * p0 + br.mass * p1 = br.mass * (p0 + p1) := by ring
            rw [add_zero, add_zero, this, hsum, mul_one]

theorem measureFold_good {K : Type} [LinearOrderedField K] {σ : Type}
    (env : QiskitEnv K σ) (hs : SqrtContract env.sqrt)
    (he : EvolvePreservesNorm env) (n : ℕ) (basis : String) (target cbit : ℤ)
    (rA : Bool) (branches : List (Branch K)) :
    ∀ (acc res : List (Branch K)),
      branches.foldlM (measureFoldStep env n basis target cbit rA) acc = .ok res →
      (∀ b ∈ branches, 0 < b.mass ∧ svNormSq b.state = 1) →
      (∀ b ∈ acc, 0 < b.mass ∧ svNormSq b.state = 1) →
      (∀ b ∈ res, 0 < b.mass ∧ svNormSq b.state = 1) ∧
        (res.map Branch.mass).sum =
          (acc.map Branch.mass).sum + (branches.map Branch.mass).sum := by
  induction branches with
  | nil =>
    intro acc res h hbr hacc
    rw [List.foldlM_nil] at h
    injection h with h
    subst h
    simpa using hacc
  | cons br rest ih =>
    intro acc res h hbr hacc
    rw [List.foldlM_cons] at h
    unfold measureFoldStep at h
    have hbrh := hbr br (List.mem_cons_self br rest)
    rw [if_neg (not_le.mpr hbrh.1)] at h
    cases hmc : measureChildren env n basis target cbit rA br with
    | error e =>
      rw [hmc] at h
      simp only [except_bind_error] at h
      cases h
    | ok cs =>
      rw [hmc] at h
      simp only [except_bind_ok] at h
      obtain ⟨hcs, hcssum⟩ :=
        measureChildren_spec env hs he n basis target cbit rA br cs hbrh.1 hbrh.2 hmc
      obtain ⟨hres, hsum⟩ := ih (acc ++ cs) res h
        (fun b hb => hbr b (List.mem_cons_of_mem br hb))
        (by
          intro b hb
          rcases List.mem_append.mp hb with hb | hb
          · exact hacc b hb
          · exact hcs b hb)
      refine ⟨hres, ?_⟩
      rw [hsum]
      simp only [List.map_append, List.sum_append, List.map_cons, List.sum_cons]
      rw [hcssum]
      ring

theorem measureStep_good {K : Type} [LinearOrderedField K] {σ : Type}
    (env : QiskitEnv K σ) (hs : SqrtContract env.sqrt)
    (he : EvolvePreservesNorm env) (n : ℕ) (g : Gate K)
    (branches res : List (Branch K)) (h : measureStep env n g branches = .ok res)
    (hgood : GoodBranchSet branches) : GoodBranchSet res := by
  unfold measureStep at h
  cases htc : measurementTargetAndCbit g n with
  | error e => rw [htc, except_bind_error] at h; cases h
  | ok tc =>
    rw [htc, except_bind_ok] at h
    obtain ⟨h1, h2⟩ := measureFold_good env hs he n (normalizeBasis g.params.basis)
      tc.1 tc.2 (resolveResetAfter g.params) branches [] res h hgood.1
      (by intro b hb; cases hb)
    refine ⟨h1, ?_⟩
    rw [h2]
    simpa using hgood.2

theorem unitaryFold_good {K : Type} [LinearOrderedField K] [FloorRing K] {σ : Type}
    (env : QiskitEnv K σ) (he : EvolvePreservesNorm env) (n : ℕ) (g : Gate K)
    (branches : List (Branch K)) :
    ∀ (acc res : List (Branch K)),
      branches.foldlM (unitaryFoldStep env n g) acc = .ok res →
      (∀ b ∈ branches, 0 < b.mass ∧ svNormSq b.state = 1) →
      (∀ b ∈ acc, 0 < b.mass ∧ svNormSq b.state = 1) →
      (∀ b ∈ res, 0 < b.mass ∧ svNormSq b.state = 1) ∧
        (res.map Branch.mass).sum =
          (acc.map Branch.mass).sum + (branches.map Branch.mass).sum := by
  induction branches with
  | nil =>
    intro acc res h hbr hacc
    rw [List.foldlM_nil] at h
    injection h with h
    subst h
    simpa using hacc
  | cons br rest ih =>
    intro acc res h hbr hacc
    rw [List.foldlM_cons] at h
    have hbrh := hbr br (List.mem_cons_self br rest)
    cases hstep : unitaryFoldStep env n g acc br with
    | error e =>
      rw [hstep] at h
      simp only [except_bind_error] at h
      cases h
    | ok mid =>
      rw [hstep] at h
      simp only [except_bind_ok] at h
      unfold unitaryFoldStep at hstep
      cases hmet : conditionIsMet (effectiveCondition g) br.classical with
      | error e =>
        rw [hmet] at hstep
        simp only [except_bind_error] at hstep
        cases hstep
      | ok met =>
        rw [hmet] at hstep
        simp only [except_bind_ok] at hstep
        by_cases hc : (effectiveCondition g).isSome ∧ ¬ met
        · rw [if_pos hc] at hstep
          injection hstep with hstep
          subst hstep
          obtain ⟨hres, hsum⟩ := ih (acc ++ [br]) res h
            (fun b hb => hbr b (List.mem_cons_of_mem br hb))
            (by
              intro b hb
              rcases List.mem_append.mp hb with hb | hb
              · exact hacc b hb
              · rcases List.mem_singleton.mp hb with rfl
                exact hbrh)
          refine ⟨hres, ?_⟩
          rw [hsum]
          simp only [List.map_append, List.sum_append, List.map_cons, List.sum_cons,
            List.map_nil, List.sum_nil]
          ring
        · rw [if_neg hc] at hstep
          cases happ : applyGateUnitary env n g br.state with
          | error e =>
            rw [happ] at hstep
            simp only [except_bind_error] at hstep
            cases hstep
          | ok st =>
            rw [happ] at hstep
            simp only [except_bind_ok] at hstep
            injection hstep with hstep
            subst hstep
            obtain ⟨hres, hsum⟩ := ih (acc ++ [⟨br.mass, st, br.classical⟩]) res h
              (fun b hb => hbr b (List.mem_cons_of_mem br hb))
              (by
                intro b hb
                rcases List.mem_append.mp hb with hb | hb
                · exact hacc b hb
                · rcases List.mem_singleton.mp hb with rfl
                  refine ⟨hbrh.1, ?_⟩
                  rw [applyGateUnitary_norm env he n g br.state st happ]
                  exact hbrh.2)
            refine ⟨hres, ?_⟩
            rw [hsum]
            simp only [List.map_append, List.sum_append, List.map_cons, List.sum_cons,
              List.map_nil, List.sum_nil]
            ring

theorem stepGate_good {K : Type} [LinearOrderedField K] [FloorRing K] {σ : Type}
    (env : QiskitEnv K σ) (hs : SqrtContract env.sqrt)
    (he : EvolvePreservesNorm env) (n : ℕ) (g : Gate K)
    (branches res : List (Branch K)) (h : stepGate env n branches g = .ok res)
    (hgood : GoodBranchSet branches) : GoodBranchSet res := by
  unfold stepGate at h
  by_cases hg : g.type = "measure"
  · rw [if_pos hg] at h
    exact measureStep_good env hs he n g branches res h hgood
  · rw [if_neg hg] at h
    obtain ⟨h1, h2⟩ := unitaryFold_good env he n g branches [] res h hgood.1
      (by intro b hb; cases hb)
    refine ⟨h1, ?_⟩
    rw [h2]
    simpa using hgood.2

theorem svNormSq_basisStateZero {K : Type} [LinearOrderedField K] (n : ℕ) :
    svNormSq (basisStateZero K n) = 1 := by
  obtain ⟨m, hm⟩ : ∃ m, 2 ^ n = m + 1 :=
    ⟨2 ^ n - 1, by have := Nat.one_le_two_pow (n := n); omega⟩
  unfold basisStateZero svNormSq
  rw [hm, List.range_succ_eq_map, List.map_cons, List.map_map, List.map_cons,
    List.sum_cons, List.map_map]
  have h2 : ∀ x ∈ (List.range m).map
      (Cplx.sqAbs ∘ (fun i => if i = 0 then (⟨1, 0⟩ : Cplx K) else ⟨0, 0⟩) ∘ Nat.succ),
      x = 0 := by
    intro x hx
    obtain ⟨i, _, rfl⟩ := List.mem_map.mp hx
    norm_num [Cplx.sqAbs]
  rw [List.sum_eq_zero h2]
  norm_num [Cplx.sqAbs]

theorem initialBranches_good {K : Type} [LinearOrderedField K] (n : ℕ) :
    GoodBranchSet (initialBranches K n) := by
  constructor
  · intro b hb
    rcases List.mem_singleton.mp hb with rfl
    exact ⟨one_pos, svNormSq_basisStateZero n⟩
  · simp [initialBranches]

theorem processGates_fold_good {K : Type} [LinearOrderedField K] [FloorRing K]
    {σ : Type} (env : QiskitEnv K σ) (hs : SqrtContract env.sqrt)
    (he : EvolvePreservesNorm env) (n : ℕ) (gates : List (Gate K)) :
    ∀ (branches res : List (Branch K)),
      gates.foldlM (stepGate env n) branches = .ok res →
      GoodBranchSet branches → GoodBranchSet res := by
  induction gates with
  | nil =>
    intro branches res h hgood
    rw [List.foldlM_nil] at h
    injection h with h
    subst h
    exact hgood
  | cons g gs ih =>
    intro branches res h hgood
    rw [List.foldlM_cons] at h
    cases hstep : stepGate env n branches g with
    | error e =>
      rw [hstep] at h
      simp only [except_bind_error] at h
      cases h
    | ok mid =>
      rw [hstep] at h
      simp only [except_bind_ok] at h
      exact ih mid res h (stepGate_good env hs he n g branches mid hstep hgood)

/-- C3: In branching exact execution, for every gate list processed from
the initial single branch of mass 1, the sum of `probability_mass` over all
live branches equals 1 after every processed gate (every prefix of a gate
list is itself a gate list, so this covers every point after a measurement
split); the arithmetic is exact here, so no floating-point tolerance is
needed.  Hypotheses: `math.sqrt` returns exact positive square roots on
positive inputs and Qiskit statevector evolution preserves the 2-norm. -/
theorem branching_mass_conservation {K : Type} [LinearOrderedField K]
    [FloorRing K] {σ : Type} (env : QiskitEnv K σ) (hs : SqrtContract env.sqrt)
    (he : EvolvePreservesNorm env) (numQubits : ℕ) (gates : List (Gate K))
    (branches : List (Branch K))
    (h : processGates env numQubits gates = .ok branches) :
    (branches.map Branch.mass).sum = 1 := by
  refine (processGates_fold_good env hs he numQubits gates
    (initialBranches K numQubits) branches h (initialBranches_good numQubits)).2

/-- Witness for C3: over `ℝ` (where `Real.sqrt` satisfies the `math.sqrt`
contract) with identity evolution, processing an X gate on one qubit
succeeds and the branch masses sum to 1. -/
theorem branching_mass_conservation_witness :
    ∃ bs, processGates
        (⟨Real.sqrt, fun _ s => .ok s,
          fun qc => .ok (basisStateZero ℝ qc.numQubits),
          fun _ _ _ _ _ => .ok ⟨[], none⟩⟩ : QiskitEnv ℝ Unit) 1
        [Gate.simple "x" 0 0] = .ok bs ∧
      (bs.map Branch.mass).sum = 1 := by
  have hs : SqrtContract (K := ℝ) Real.sqrt := fun x hx =>
    ⟨Real.sqrt_pos.mpr hx, Real.mul_self_sqrt hx.le⟩
  have he : EvolvePreservesNorm
      (⟨Real.sqrt, fun _ s => .ok s,
        fun qc => .ok (basisStateZero ℝ qc.numQubits),
        fun _ _ _ _ _ => .ok ⟨[], none⟩⟩ : QiskitEnv ℝ Unit) := by
    intro qc s s2 h
    injection h with h
    rw [h]
  have hrun : processGates
      (⟨Real.sqrt, fun _ s => .ok s,
        fun qc => .ok (basisStateZero ℝ qc.numQubits),
        fun _ _ _ _ _ => .ok ⟨[], none⟩⟩ : QiskitEnv ℝ Unit) 1
      [Gate.simple "x" 0 0] =
      .ok [⟨1, basisStateZero ℝ 1, List.replicate 1 0⟩] := rfl
  exact ⟨_, hrun, branching_mass_conservation _ hs he 1 _ _ hrun⟩

/-- C2: In branching exact execution, a measurement gate (default z basis,
no reset) replaces each live branch with up to two child branches, one per
strictly-positive-probability outcome: each child carries mass
`parent_mass * outcome_probability`, the collapsed-and-renormalized
amplitude vector, and the branch's classical bits with the measured
classical bit set to the outcome; an outcome of probability 0 (or less)
produces no child.  The second conjunct spells out the collapse: every
amplitude whose index is inconsistent with the outcome is zero, and the
collapsed vector has unit norm.  Hypotheses: `math.sqrt` satisfies its
contract, the z-basis rotation (an empty circuit) evolves the state to
itself, and the outcome probabilities of the branch state are `(p0, p1)`. -/
theorem measurement_branch_children {K : Type} [LinearOrderedField K] {σ : Type}
    (env : QiskitEnv K σ) (hs : SqrtContract env.sqrt) (n : ℕ) (target cbit : ℤ)
    (br : Branch K) (p0 p1 : K)
    (hid : env.evolve ⟨n, [], []⟩ br.state = .ok br.state)
    (hp : measurementProbabilities br.state target.toNat = (p0, p1)) :
    measureChildren env n "z" target cbit false br =
      .ok ((if 0 < p0 then
          [⟨br.mass * p0, collapseStatevector env.sqrt br.state target.toNat 0,
            br.classical.set cbit.toNat 0⟩] else []) ++
        (if 0 < p1 then
          [⟨br.mass * p1, collapseStatevector env.sqrt br.state target.toNat 1,
            br.classical.set cbit.toNat 1⟩] else [])) ∧
    (∀ o : ℕ, (o = 0 ∧ 0 < p0) ∨ (o = 1 ∧ 0 < p1) →
      svNormSq (collapseStatevector env.sqrt br.state target.toNat o) = 1 ∧
      ∀ i : ℕ, (if Nat.testBit i target.toNat then 1 else 0) ≠ o →
        (collapseStatevector env.sqrt br.state target.toNat o).getD i Cplx.zero =
          Cplx.zero) := by
  have hrot : applyBasisRotationStatevector env n "z" target br.state =
      .ok br.state := by
    unfold applyBasisRotationStatevector
    rw [show basisRotationInstrs (K := K) "z" target = .ok [] from rfl]
    simp only [except_bind_ok, List.map_nil]
    exact hid
  constructor
  · unfold measureChildren
    rw [hrot]
    simp only [except_bind_ok, hp]
    by_cases h0 : 0 < p0 <;> by_cases h1 : 0 < p1
    · rw [if_neg (not_le.mpr h0), if_neg (not_le.mpr h1), if_pos h0, if_pos h1]
      simp only [Bool.false_eq_true, false_and, if_false, except_bind_ok]
    · rw [if_neg (not_le.mpr h0), if_pos (not_lt.mp h1), if_pos h0, if_neg h1]
      simp only [Bool.false_eq_true, false_and, if_false, except_bind_ok]
    · rw [if_pos (not_lt.mp h0), if_neg (not_le.mpr h1), if_neg h0, if_pos h1]
      simp only [Bool.false_eq_true, false_and, if_false, except_bind_ok]
    · rw [if_pos (not_lt.mp h0), if_pos (not_lt.mp h1), if_neg h0, if_neg h1]
      simp only [except_bind_ok]
  · rintro o (⟨rfl, hpos⟩ | ⟨rfl, hpos⟩)
    · refine ⟨collapse_normSq env.sqrt hs br.state target.toNat 0 ?_,
        fun i hbit => collapse_zeroed env.sqrt br.state target.toNat 0 i hbit⟩
      rw [zeroFrom_normSq target.toNat 0 (Or.inl rfl) br.state 0]
      rw [show measProbsFrom target.toNat 0 br.state = (p0, p1) from hp]
      simpa using hpos
    · refine ⟨collapse_normSq env.sqrt hs br.state target.toNat 1 ?_,
        fun i hbit => collapse_zeroed env.sqrt br.state target.toNat 1 i hbit⟩
      rw [zeroFrom_normSq target.toNat 1 (Or.inr rfl) br.state 0]
      rw [show measProbsFrom target.toNat 0 br.state = (p0, p1) from hp]
      simpa using hpos

/-- Witness for C2: measuring qubit 0 of the one-qubit state `|0>` over `ℝ`
yields exactly one child (outcome 0, mass 1, unchanged unit vector, bit 0
set to 0); the probability-0 outcome 1 produces no child. -/
theorem measurement_branch_children_witness :
    measureChildren
        (⟨Real.sqrt, fun _ s => .ok s,
          fun qc => .ok (basisStateZero ℝ qc.numQubits),
          fun _ _ _ _ _ => .ok ⟨[], none⟩⟩ : QiskitEnv ℝ Unit) 1 "z" 0 0 false
        ⟨1, [⟨1, 0⟩, ⟨0, 0⟩], [0]⟩ =
      .ok [⟨1, [⟨1, 0⟩, ⟨0, 0⟩], [0]⟩] := by
  have hs : SqrtContract (K := ℝ) Real.sqrt := fun x hx =>
    ⟨Real.sqrt_pos.mpr hx, Real.mul_self_sqrt hx.le⟩
  have hp : measurementProbabilities ([(⟨1, 0⟩ : Cplx ℝ), ⟨0, 0⟩]) 0 = (1, 0) := by
    rw [show measurementProbabilities ([(⟨1, 0⟩ : Cplx ℝ), ⟨0, 0⟩]) 0 =
      ((0 + (1 * 1 + 0 * 0) : ℝ), (0 + (0 * 0 + 0 * 0) : ℝ)) from rfl]
    norm_num
  obtain ⟨h1, _⟩ := measurement_branch_children
    (⟨Real.sqrt, fun _ s => .ok s,
      fun qc => .ok (basisStateZero ℝ qc.numQubits),
      fun _ _ _ _ _ => .ok ⟨[], none⟩⟩ : QiskitEnv ℝ Unit) hs 1 0 0
    ⟨1, [⟨1, 0⟩, ⟨0, 0⟩], [0]⟩ 1 0 rfl hp
  rw [h1, if_pos one_pos, if_neg (lt_irrefl (0 : ℝ))]
  have hns : svNormSq (zeroFrom (K := ℝ) 0 0 0 [⟨1, 0⟩, ⟨0, 0⟩]) = 1 := by
    rw [show svNormSq (zeroFrom (K := ℝ) 0 0 0 [⟨1, 0⟩, ⟨0, 0⟩]) =
      1 * 1 + 0 * 0 + (0 * 0 + 0 * 0 + 0) from rfl]
    norm_num
  have hcol : collapseStatevector Real.sqrt ([(⟨1, 0⟩ : Cplx ℝ), ⟨0, 0⟩]) 0 0 =
      [⟨1, 0⟩, ⟨0, 0⟩] := by
    simp only [collapseStatevector]
    rw [hns, Real.sqrt_one, if_pos one_pos]
    rw [show zeroFrom (K := ℝ) 0 0 0 [⟨1, 0⟩, ⟨0, 0⟩] = [⟨1, 0⟩, ⟨0, 0⟩] from rfl]
    simp [Cplx.divReal]
  simp only [Int.toNat_zero]
  try dsimp only
  rw [hcol]
  simp

theorem enumFrom_pack (l : List ℕ) : ∀ k : ℕ,
    ((List.enumFrom k l).map (fun ib => if ib.2 ≠ 0 then 2 ^ ib.1 else 0)).sum =
      2 ^ k * packBitsLSB l := by
  induction l with
  | nil => intro k; simp [packBitsLSB, List.enumFrom]
  | cons b rest ih =>
    intro k
    simp only [List.enumFrom, List.map_cons, List.sum_cons, ih (k + 1), packBitsLSB]
    by_cases hb : b ≠ 0
    · rw [if_pos hb, if_pos hb, pow_succ]
      ring
    · rw [if_neg hb, if_neg hb, pow_succ]
      ring

theorem packBitsLSB_eq_spec (l : List ℕ) : specPackLSB l = packBitsLSB l := by
  unfold specPackLSB
  rw [show l.enum = List.enumFrom 0 l from rfl, enumFrom_pack l 0]
  simp

/-- C4 (amended): for a non-measurement gate carrying a truthy classical
condition, each live branch is left exactly in place when the condition is
unmet and has the unitary applied when it is met (no split either way); a
*nonempty* bit-subset condition compares its value against the referenced
bits packed LSB-first in subset order, and a no-subset condition compares
against the whole classical register packed LSB-first.  (The original
claim's packing semantics fails for an *empty* bit subset, which the code
rejects outright: see the counterexample.) -/
theorem conditional_gate_application {K : Type} [LinearOrderedField K]
    [FloorRing K] {σ : Type} (env : QiskitEnv K σ) (n : ℕ) (g : Gate K)
    (hg : (effectiveCondition g).isSome) :
    (∀ (acc : List (Branch K)) (br : Branch K) (met : Bool),
      conditionIsMet (effectiveCondition g) br.classical = .ok met →
      unitaryFoldStep env n g acc br =
        (if met then (applyGateUnitary env n g br.state).map
            (fun st => acc ++ [⟨br.mass, st, br.classical⟩])
          else .ok (acc ++ [br]))) ∧
    (∀ (l : List ℤ) (v : ℤ) (cbits : List ℕ), l ≠ [] →
      (∀ i ∈ l, 0 ≤ i ∧ i < (cbits.length : ℤ)) →
      conditionIsMet (some (.ofDict (some (.many l)) (some v))) cbits =
        .ok ((specPackLSB (l.map (fun i => cbits.getD i.toNat 0)) : ℤ) == v)) ∧
    (∀ (v : ℤ) (cbits : List ℕ),
      conditionIsMet (some (.ofDict none (some v))) cbits =
        .ok ((specPackLSB cbits : ℤ) == v)) := by
  refine ⟨?_, ?_, ?_⟩
  · intro acc br met h
    unfold unitaryFoldStep
    rw [h]
    simp only [except_bind_ok]
    cases met with
    | true =>
      rw [if_neg (fun hc => by simp at hc), if_pos rfl]
      cases happ : applyGateUnitary env n g br.state with
      | error e => simp [happ, Except.map, except_bind_error]
      | ok st => simp [happ, Except.map, except_bind_ok]
    | false =>
      rw [if_pos ⟨hg, by simp⟩, if_neg (by simp)]
  · intro l v cbits hne hrange
    unfold conditionIsMet
    simp only [PyCond.truthy, not_true, if_false]
    rw [if_neg (fun h => hne (List.length_eq_zero.mp h))]
    have hany : (l.any fun i => decide (i < 0 ∨ (cbits.length : ℤ) ≤ i)) = false := by
      rw [List.any_eq_false]
      intro i hi
      obtain ⟨h1, h2⟩ := hrange i hi
      simp only [decide_eq_true_eq, not_or]
      omega
    rw [if_neg (show ¬ _ from by rw [hany]; simp), packBitsLSB_eq_spec]
  · intro v cbits
    unfold conditionIsMet
    simp only [PyCond.truthy, not_true, if_false]
    rw [packBitsLSB_eq_spec]

/-- Counterexample to C4 as stated: a condition with an *empty* bit subset
and value 0 is never satisfied (the code returns False before packing),
although the claimed semantics packs the empty subset to 0 = value; an X
gate so conditioned leaves the branch unchanged where the claimed
semantics would apply it. -/
theorem conditional_gate_empty_subset_counterexample :
    specPackLSB [] = 0 ∧
    conditionIsMet (some (.ofDict (some (.many [])) (some 0))) [0] = .ok false ∧
    unitaryStep markerEnv 1
      { type := "x", qubit := some 0, targets := [], controls := [],
        position := some 0,
        params := { GateParams.empty with
          condition := some (.ofDict (some (.many [])) (some 0)) } }
      [⟨1, [⟨1, 0⟩, ⟨0, 0⟩], [0]⟩] =
      .ok [⟨1, [⟨1, 0⟩, ⟨0, 0⟩], [0]⟩] :=
  ⟨rfl, rfl, rfl⟩

/-- Witness for C4: the conditioned-X gate on classical bit 0: with bit 0
set the unitary is applied (marker evolution observable), with bit 0 clear
the branch is returned unchanged; a two-bit subset packs LSB-first
(bits `[0, 1]` of register `[0, 1]` pack to 2). -/
theorem conditional_gate_application_witness :
    (unitaryFoldStep markerEnv 1 (condXGate 0) [] ⟨1, [⟨1, 0⟩, ⟨0, 0⟩], [1]⟩ =
      .ok [⟨1, [⟨7, 0⟩], [1]⟩]) ∧
    (unitaryFoldStep markerEnv 1 (condXGate 0) [] ⟨1, [⟨1, 0⟩, ⟨0, 0⟩], [0]⟩ =
      .ok [⟨1, [⟨1, 0⟩, ⟨0, 0⟩], [0]⟩]) ∧
    conditionIsMet (some (.ofDict (some (.many [0, 1])) (some 2))) [0, 1] =
      .ok true := by
  obtain ⟨ha, hb, _⟩ := conditional_gate_application markerEnv 1 (condXGate 0) rfl
  refine ⟨?_, ?_, ?_⟩
  · rw [ha [] ⟨1, [⟨1, 0⟩, ⟨0, 0⟩], [1]⟩ true rfl]
    rfl
  · rw [ha [] ⟨1, [⟨1, 0⟩, ⟨0, 0⟩], [0]⟩ false rfl]
    rfl
  · rw [hb [0, 1] 2 [0, 1] (by simp) (by decide)]
    rfl

/-- C10: for the statevector (exact) method, `run_circuit` is
deterministic: the sampling seed (which models all randomness available to
the Aer backend) never influences the result, so two runs with identical
`num_qubits`, gate list, shots and measurement configuration return
identical counts, probabilities, statevector and warnings — neither the
fast path nor the branching strategy samples. -/
theorem statevector_run_deterministic {K : Type} [LinearOrderedField K]
    [FloorRing K] {σ : Type} (env : QiskitEnv K σ) (seed1 seed2 : σ)
    (envMaxQubits : Option ℕ) (overrideBackend : Option String) (numQubits : ℕ)
    (gates : List (Gate K)) (method : String) (shots : ℤ)
    (memory includeMetrics : Bool) (cosmicApproach : Option String)
    (measurementConfig : Option MeasurementConfig)
    (hm : pyStripLower (if method = "" then "qasm" else method) = "statevector") :
    runCircuit env seed1 envMaxQubits overrideBackend numQubits gates method
        shots memory includeMetrics cosmicApproach measurementConfig =
      runCircuit env seed2 envMaxQubits overrideBackend numQubits gates method
        shots memory includeMetrics cosmicApproach measurementConfig := by
  unfold runCircuit
  simp only [hm, true_or, or_true, not_true, ite_true, ite_false,
    eq_self_iff_true, not_false_iff]

/-- Witness for C10: a one-qubit Hadamard circuit run with the exact method
over `ℚ` under two different seeds returns identical results. -/
theorem statevector_run_deterministic_witness :
    runCircuit
        (⟨ratSqrt, fun _ s => .ok s,
          fun qc => .ok (basisStateZero ℚ qc.numQubits),
          fun _ _ _ _ _ => .ok ⟨[], none⟩⟩ : QiskitEnv ℚ Bool) false none none 1
        [Gate.simple "h" 0 0] "statevector" 100 false false none none =
      runCircuit
        (⟨ratSqrt, fun _ s => .ok s,
          fun qc => .ok (basisStateZero ℚ qc.numQubits),
          fun _ _ _ _ _ => .ok ⟨[], none⟩⟩ : QiskitEnv ℚ Bool) true none none 1
        [Gate.simple "h" 0 0] "statevector" 100 false false none none :=
  statevector_run_deterministic _ false true none none 1 [Gate.simple "h" 0 0]
    "statevector" 100 false false none none rfl

/-- C6: an exact-fast-path (statevector-method) request whose qubit count
exceeds the configured cap (`STATEVECTOR_MAX_QUBITS`, default 10 when the
environment variable is absent) fails with `CapacityExceeded` — for every
gate list, environment and seed, i.e. before any gate is applied; the
error's message ends by instructing the caller to use the sampled methods;
and for requests at or below the cap the configured cap value is
irrelevant to the run (so such requests are never rejected on this
ground). -/
theorem capacity_exceeded_rejection {K : Type} [LinearOrderedField K]
    [FloorRing K] {σ : Type} (env : QiskitEnv K σ) (seed : σ)
    (envMaxQubits : Option ℕ) (overrideBackend : Option String) (numQubits : ℕ)
    (gates : List (Gate K)) (method : String) (shots : ℤ)
    (memory includeMetrics : Bool) (cosmicApproach : Option String)
    (measurementConfig : Option MeasurementConfig)
    (hm : pyStripLower (if method = "" then "qasm" else method) = "statevector")
    (hcap : envMaxQubits.getD 10 < numQubits) :
    runCircuit env seed envMaxQubits overrideBackend numQubits gates method
        shots memory includeMetrics cosmicApproach measurementConfig =
      .error (.capacityExceeded (envMaxQubits.getD 10) numQubits) ∧
    (∃ pre, RunErr.message
        (.capacityExceeded (envMaxQubits.getD 10) numQubits) =
      pre ++ "Use method=\x27qasm\x27 or \x27noisy\x27 for larger circuits.") ∧
    (∀ m1 m2 : Option ℕ, numQubits ≤ m1.getD 10 → numQubits ≤ m2.getD 10 →
      runCircuit env seed m1 overrideBackend numQubits gates method shots
          memory includeMetrics cosmicApproach measurementConfig =
        runCircuit env seed m2 overrideBackend numQubits gates method shots
          memory includeMetrics cosmicApproach measurementConfig) := by
  refine ⟨?_, ?_, ?_⟩
  · unfold runCircuit
    simp only [hm, true_or, or_true, not_true, ite_true, ite_false,
      eq_self_iff_true, not_false_iff]
    rw [if_pos hcap]
  · refine ⟨"Statevector simulation is limited to " ++
      toString (envMaxQubits.getD 10) ++ " qubits (requested " ++
      toString numQubits ++ "). ", ?_⟩
    show "Statevector simulation is limited to " ++
      toString (envMaxQubits.getD 10) ++ " qubits (requested " ++
      toString numQubits ++
      "). Use method=\x27qasm\x27 or \x27noisy\x27 for larger circuits." = _
    rw [show ("). Use method=\x27qasm\x27 or \x27noisy\x27 for larger circuits." :
        String) =
      "). " ++ "Use method=\x27qasm\x27 or \x27noisy\x27 for larger circuits."
      from by decide]
    simp [String.append_assoc]
  · intro m1 m2 h1 h2
    unfold runCircuit
    simp only [if_neg (not_lt.mpr h1), if_neg (not_lt.mpr h2)]

/-- Witness for C6: an 11-qubit exact request under the default cap of 10
is rejected with the capacity error before consulting the environment. -/
theorem capacity_exceeded_rejection_witness :
    runCircuit identityEnv () none none 11 [] "statevector" 100 false false
        none none =
      .error (.capacityExceeded 10 11) :=
  (capacity_exceeded_rejection identityEnv () none none 11 [] "statevector"
    100 false false none none rfl (by decide)).1

theorem appendWithCond_cregs {K : Type} (qc : CircuitRep K) (g : Gate K)
    (op : InstrOp K) (qc2 : CircuitRep K) (h : appendWithCond qc g op = .ok qc2) :
    qc2.cregs = qc.cregs := by
  unfold appendWithCond at h
  cases hc : applyCondition qc g with
  | error e => rw [hc] at h; simp only [except_bind_error] at h; cases h
  | ok c =>
    rw [hc] at h
    simp only [except_bind_ok] at h
    injection h with h
    rw [← h]

theorem except_bind_eq_ok {α β : Type} {eb : Except RunErr α}
    {f : α → Except RunErr β} {b : β} (h : (eb >>= f) = .ok b) :
    ∃ a, eb = .ok a ∧ f a = .ok b := by
  cases eb with
  | error e => simp only [except_bind_error] at h; cases h
  | ok a => exact ⟨a, rfl, by simpa [except_bind_ok] using h⟩

set_option maxHeartbeats 1600000 in
theorem applyGate_cregs {K : Type} [LinearOrderedField K] [FloorRing K]
    (qc : CircuitRep K) (g : Gate K) (qc2 : CircuitRep K)
    (h : applyGate qc g = .ok qc2) : qc2.cregs = qc.cregs := by
  unfold applyGate at h
  simp only [] at h
  by_cases h1 : g.type = "h"
  · rw [if_pos h1] at h; exact appendWithCond_cregs _ _ _ _ h
  rw [if_neg h1] at h
  by_cases h2 : g.type = "x"
  · rw [if_pos h2] at h; exact appendWithCond_cregs _ _ _ _ h
  rw [if_neg h2] at h
  by_cases h3 : g.type = "y"
  · rw [if_pos h3] at h; exact appendWithCond_cregs _ _ _ _ h
  rw [if_neg h3] at h
  by_cases h4 : g.type = "z"
  · rw [if_pos h4] at h; exact appendWithCond_cregs _ _ _ _ h
  rw [if_neg h4] at h
  by_cases h5 : g.type = "s"
  · rw [if_pos h5] at h; exact appendWithCond_cregs _ _ _ _ h
  rw [if_neg h5] at h
  by_cases h6 : g.type = "t"
  · rw [if_pos h6] at h; exact appendWithCond_cregs _ _ _ _ h
  rw [if_neg h6] at h
  by_cases h7 : g.type = "rx"
  · rw [if_pos h7] at h; exact appendWithCond_cregs _ _ _ _ h
  rw [if_neg h7] at h
  by_cases h8 : g.type = "ry"
  · rw [if_pos h8] at h; exact appendWithCond_cregs _ _ _ _ h
  rw [if_neg h8] at h
  by_cases h9 : g.type = "rz"
  · rw [if_pos h9] at h; exact appendWithCond_cregs _ _ _ _ h
  rw [if_neg h9] at h
  by_cases h10 : g.type = "p"
  · rw [if_pos h10] at h
    try simp only [] at h
    repeat' split at h
    all_goals try exact appendWithCond_cregs _ _ _ _ h
    all_goals cases h
  rw [if_neg h10] at h
  by_cases h11 : g.type = "cp"
  · rw [if_pos h11] at h
    try simp only [] at h
    repeat' split at h
    all_goals try exact appendWithCond_cregs _ _ _ _ h
    all_goals cases h
  rw [if_neg h11] at h
  by_cases h12 : g.type = "cnot" ∨ g.type = "cx"
  · rw [if_pos h12] at h
    repeat' split at h
    all_goals try exact appendWithCond_cregs _ _ _ _ h
    all_goals cases h
  rw [if_neg h12] at h
  by_cases h13 : g.type = "cz"
  · rw [if_pos h13] at h
    repeat' split at h
    all_goals try exact appendWithCond_cregs _ _ _ _ h
    all_goals cases h
  rw [if_neg h13] at h
  by_cases h14 : g.type = "swap"
  · rw [if_pos h14] at h
    try simp only [] at h
    repeat' split at h
    all_goals try exact appendWithCond_cregs _ _ _ _ h
    all_goals cases h
  rw [if_neg h14] at h
  by_cases h15 : g.type = "toffoli" ∨ g.type = "ccx"
  · rw [if_pos h15] at h
    repeat' split at h
    all_goals try exact appendWithCond_cregs _ _ _ _ h
    all_goals cases h
  rw [if_neg h15] at h
  by_cases h16 : g.type = "measure"
  · rw [if_pos h16] at h
    try simp only [] at h
    repeat' split at h
    all_goals try cases h
    all_goals
      obtain ⟨rot, hb, h⟩ := except_bind_eq_ok h
    all_goals
      injection h with h
    all_goals rw [← h]
  rw [if_neg h16] at h
  cases h

theorem applyGates_cregs {K : Type} [LinearOrderedField K] [FloorRing K] :
    ∀ (gates : List (Gate K)) (qc qc2 : CircuitRep K),
      applyGates qc gates = .ok qc2 → qc2.cregs = qc.cregs := by
  intro gates
  induction gates with
  | nil =>
    intro qc qc2 h
    unfold applyGates at h
    rw [List.foldlM_nil] at h
    injection h with h
    rw [← h]
  | cons g gs ih =>
    intro qc qc2 h
    unfold applyGates at h
    rw [List.foldlM_cons] at h
    cases hg : applyGate qc g with
    | error e => rw [hg] at h; simp only [except_bind_error] at h; cases h
    | ok mid =>
      rw [hg] at h
      simp only [except_bind_ok] at h
      exact (ih mid qc2 h).trans (applyGate_cregs qc g mid hg)

/-- C7 (amended): the sampled-execution path builds one circuit whose
explicit classical register is always sized to `num_qubits` — also when
explicit measurements are present (the code never sizes it to the largest
referenced classical-bit index; see the counterexample); when no gate of
the list has type "measure", an implicit measurement of every qubit `i`
into classical bit `i` is appended at the end, and when an explicit
measure gate exists nothing is appended. -/
theorem sampled_circuit_construction {K : Type} [LinearOrderedField K]
    [FloorRing K] (n : ℕ) (gates : List (Gate K)) (qcA : CircuitRep K)
    (h : applyGates ⟨n, [n], []⟩ gates = .ok qcA) :
    qcA.cregs = [n] ∧
    (¬ gates.any (fun g => g.type = "measure") →
      buildSampledCircuit n gates =
        .ok { qcA with
          instrs := qcA.instrs ++
            (List.range n).map (fun i => ⟨.measureOp (i : ℤ) (i : ℤ), none⟩) }) ∧
    (gates.any (fun g => g.type = "measure") →
      buildSampledCircuit n gates = .ok qcA) := by
  refine ⟨applyGates_cregs gates ⟨n, [n], []⟩ qcA h, ?_, ?_⟩
  · intro hno
    unfold buildSampledCircuit
    simp only [h, except_bind_ok]
    rw [if_pos hno]
  · intro hyes
    unfold buildSampledCircuit
    simp only [h, except_bind_ok]
    rw [if_neg (fun hc => hc hyes)]

/-- Counterexample to C7 as stated: a 3-qubit circuit whose only gate is an
explicit measurement of qubit 0 into classical bit 0 references no
classical bit beyond index 0, yet the built circuit's classical register
has size 3 (= `num_qubits`), not 1. -/
theorem sampled_register_sizing_counterexample :
    ∃ qc, buildSampledCircuit (K := ℚ) 3 [Gate.simple "measure" 0 0] = .ok qc ∧
      qc.cregs = [3] ∧ qc.numClbits = 3 ∧ qc.numClbits ≠ 1 ∧
      measurementTargetAndCbit (Gate.simple "measure" 0 0 : Gate ℚ) 3 =
        .ok (0, 0) :=
  ⟨_, rfl, rfl, rfl, by decide, rfl⟩

/-- Witness for C7: a 2-qubit circuit of one Hadamard and no explicit
measurement gets the measure-everything suffix appended, with the
classical register sized to `num_qubits = 2`. -/
theorem sampled_circuit_construction_witness :
    ∃ qcA, applyGates (⟨2, [2], []⟩ : CircuitRep ℚ) [Gate.simple "h" 0 0] =
        .ok qcA ∧
      qcA.cregs = [2] ∧
      buildSampledCircuit (K := ℚ) 2 [Gate.simple "h" 0 0] =
        .ok { qcA with
          instrs := qcA.instrs ++
            (List.range 2).map (fun i => ⟨.measureOp (i : ℤ) (i : ℤ), none⟩) } := by
  obtain ⟨h1, h2, _⟩ := sampled_circuit_construction (K := ℚ) 2
    [Gate.simple "h" 0 0] ⟨2, [2], [⟨.hOp (some 0), none⟩]⟩ rfl
  exact ⟨_, rfl, h1, h2 (by decide)⟩

theorem pyTrunc_of_nonneg {K : Type} [LinearOrderedField K] [FloorRing K]
    (x : K) (hx : 0 ≤ x) : pyTrunc x = ⌊x⌋ := by
  unfold pyTrunc
  rw [if_neg (not_lt.mpr hx)]

theorem sum_floor_le {K : Type} [LinearOrderedField K] [FloorRing K]
    (vals : List K) : (((vals.map fun v => ⌊v⌋).sum : ℤ) : K) ≤ vals.sum := by
  induction vals with
  | nil => simp
  | cons v rest ih =>
    simp only [List.map_cons, List.sum_cons]
    push_cast at ih ⊢
    exact add_le_add (Int.floor_le v) ih

theorem sum_sub_floor_lt_len {K : Type} [LinearOrderedField K] [FloorRing K]
    (vals : List K) (hne : vals ≠ []) :
    vals.sum - (((vals.map fun v => ⌊v⌋).sum : ℤ) : K) < vals.length := by
  induction vals with
  | nil => cases hne rfl
  | cons v rest ih =>
    cases rest with
    | nil =>
      simp only [List.map_cons, List.map_nil, List.sum_cons, List.sum_nil,
        List.length_cons, List.length_nil]
      push_cast
      have := Int.fract_lt_one v
      rw [Int.fract] at this
      linarith
    | cons w ws =>
      have hlt := ih (by simp)
      simp only [List.map_cons, List.sum_cons, List.length_cons] at hlt ⊢
      have hfr := Int.fract_lt_one v
      rw [Int.fract] at hfr
      push_cast
      push_cast at hlt
      linarith

theorem sum_filter_pos (l : List (String × ℤ)) (hnn : ∀ kv ∈ l, 0 ≤ kv.2) :
    ((l.filter (fun kv => 0 < kv.2)).map (fun kv => kv.2)).sum =
      (l.map (fun kv => kv.2)).sum := by
  induction l with
  | nil => simp
  | cons kv rest ih =>
    have hr := ih (fun x hx => hnn x (List.mem_cons_of_mem kv hx))
    by_cases hp : 0 < kv.2
    · rw [List.filter_cons_of_pos (by simpa using hp)]
      simp only [List.map_cons, List.sum_cons, hr]
    · rw [List.filter_cons_of_neg (by simpa using hp)]
      have h0 : kv.2 = 0 := le_antisymm (not_lt.mp hp) (hnn kv (List.mem_cons_self kv rest))
      simp only [List.map_cons, List.sum_cons, hr, h0, zero_add]

theorem filter_mem_length {α : Type} [DecidableEq α] (keys chosen : List α)
    (hk : keys.Nodup) (hc : chosen.Nodup) (hsub : ∀ a ∈ chosen, a ∈ keys) :
    (keys.filter (fun a => decide (a ∈ chosen))).length = chosen.length := by
  have hperm : List.Perm (keys.filter (fun a => decide (a ∈ chosen))) chosen := by
    refine (List.perm_ext_iff_of_nodup (hk.filter _) hc).mpr ?_
    intro a
    simp only [List.mem_filter, decide_eq_true_eq]
    exact ⟨fun h => h.2, fun h => ⟨hsub a h, h⟩⟩
  exact hperm.length_eq

theorem countP_key_mem (fl : List (String × ℤ)) (chosen : List String) :
    fl.countP (fun kv => decide (kv.1 ∈ chosen)) =
      ((fl.map (fun kv => kv.1)).filter (fun k => decide (k ∈ chosen))).length := by
  induction fl with
  | nil => simp
  | cons kv rest ih =>
    simp only [List.countP_cons, List.map_cons, List.filter_cons]
    by_cases hm : kv.1 ∈ chosen
    · simp [hm, ih]
    · simp [hm, ih]

theorem sum_incr_chosen (fl : List (String × ℤ)) (chosen : List String) :
    ((fl.map (fun kv => if kv.1 ∈ chosen then (kv.1, kv.2 + 1) else kv)).map
        (fun kv => kv.2)).sum =
      (fl.map (fun kv => kv.2)).sum +
        (fl.countP (fun kv => decide (kv.1 ∈ chosen)) : ℤ) := by
  induction fl with
  | nil => simp
  | cons kv rest ih =>
    simp only [List.map_cons, List.sum_cons, List.countP_cons]
    by_cases hm : kv.1 ∈ chosen
    · rw [if_pos hm]
      simp only [List.sum_cons, ih]
      rw [if_pos (by simpa using hm)]
      push_cast
      ring
    · rw [if_neg hm]
      simp only [List.sum_cons, ih]
      rw [if_neg (by simpa using hm)]
      push_cast
      ring

theorem sum_map_div {K : Type} [LinearOrderedField K] (l : List K) (t : K) :
    (l.map (fun x => x / t)).sum = l.sum / t := by
  induction l with
  | nil => simp
  | cons x xs ih => simp [ih, add_div]

theorem sum_map_mul {K : Type} [LinearOrderedField K] (l : List K) (c : K) :
    (l.map (fun x => x * c)).sum = l.sum * c := by
  induction l with
  | nil => simp
  | cons x xs ih => simp [ih, add_mul]

theorem stableInsert_perm {α : Type} (le : α → α → Bool) (x : α) :
    ∀ l : List α, List.Perm (stableInsert le x l) (x :: l) := by
  intro l
  induction l with
  | nil => exact List.Perm.refl _
  | cons y rest ih =>
    unfold stableInsert
    by_cases h : le y x = true
    · rw [if_pos h]
      exact (List.Perm.cons y ih).trans (List.Perm.swap x y rest)
    · rw [if_neg h]

theorem stableSort_fold_perm {α : Type} (le : α → α → Bool) :
    ∀ (l acc : List α),
      List.Perm (l.foldl (fun acc x => stableInsert le x acc) acc) (acc ++ l) := by
  intro l
  induction l with
  | nil => intro acc; simp
  | cons x rest ih =>
    intro acc
    rw [List.foldl_cons]
    refine (ih (stableInsert le x acc)).trans ?_
    refine (List.Perm.append_right rest (stableInsert_perm le x acc)).trans ?_
    exact List.perm_middle.symm

theorem stableSort_perm {α : Type} (le : α → α → Bool) (l : List α) :
    List.Perm (stableSort le l) l := by
  unfold stableSort
  simpa using stableSort_fold_perm le l []

theorem probabilitiesToCounts_sum {K : Type} [LinearOrderedField K]
    [FloorRing K] (ps : List (String × K)) (shots : ℤ) (hsh : 0 < shots)
    (hnodup : (ps.map (fun kv => kv.1)).Nodup)
    (hnn : ∀ kv ∈ ps, 0 ≤ kv.2)
    (hpos : 0 < (ps.map (fun kv => kv.2)).sum) :
    ((probabilitiesToCounts ps shots).map (fun kv => kv.2)).sum = shots := by
  unfold probabilitiesToCounts
  rw [if_neg (not_le.mpr hsh)]
  simp only []
  rw [if_neg (not_le.mpr hpos)]
  set totalP := (ps.map (fun kv => kv.2)).sum with hT
  set probs := ps.map (fun kv => (kv.1, max 0 (kv.2 / totalP))) with hP
  set raw := probs.map (fun kv => (kv.1, kv.2 * (shots : K))) with hR
  set floored := raw.map (fun kv => (kv.1, pyTrunc kv.2)) with hF
  set remainder := shots - (floored.map (fun kv => kv.2)).sum with hRem
  -- value-level facts
  have hPvals : probs.map (fun kv => kv.2) =
      (ps.map (fun kv => kv.2)).map (fun x => x / totalP) := by
    rw [hP]
    simp only [List.map_map]
    refine List.map_congr_left ?_
    intro kv hkv
    simp only [Function.comp]
    exact max_eq_right (div_nonneg (hnn kv hkv) hpos.le)
  have hPsum : (probs.map (fun kv => kv.2)).sum = 1 := by
    rw [hPvals, sum_map_div, ← hT, div_self (ne_of_gt hpos)]
  have hRvals : raw.map (fun kv => kv.2) =
      (probs.map (fun kv => kv.2)).map (fun x => x * (shots : K)) := by
    rw [hR]; simp [List.map_map, Function.comp]
  have hRsum : (raw.map (fun kv => kv.2)).sum = (shots : K) := by
    rw [hRvals, sum_map_mul, hPsum, one_mul]
  have hRnn : ∀ kv ∈ raw, 0 ≤ kv.2 := by
    intro kv hkv
    rw [hR] at hkv
    obtain ⟨kv1, hkv1, rfl⟩ := List.mem_map.mp hkv
    rw [hP] at hkv1
    obtain ⟨kv0, _, rfl⟩ := List.mem_map.mp hkv1
    exact mul_nonneg (le_max_left 0 _) (Int.cast_nonneg.mpr hsh.le)
  have hRkeys : raw.map (fun kv => kv.1) = ps.map (fun kv => kv.1) := by
    rw [hR, hP]; simp [List.map_map, Function.comp]
  have hFvals : floored.map (fun kv => kv.2) =
      (raw.map (fun kv => kv.2)).map (fun v => ⌊v⌋) := by
    rw [hF]
    simp only [List.map_map]
    refine List.map_congr_left ?_
    intro kv hkv
    simp only [Function.comp]
    exact pyTrunc_of_nonneg kv.2 (hRnn kv hkv)
  have hFkeys : floored.map (fun kv => kv.1) = ps.map (fun kv => kv.1) := by
    rw [hF]
    simp only [List.map_map]
    rw [show ((fun kv => kv.1) ∘ fun kv : String × K => (kv.1, pyTrunc kv.2)) =
      (fun kv : String × K => kv.1) from rfl]
    exact hRkeys
  have hFnn : ∀ kv ∈ floored, 0 ≤ kv.2 := by
    intro kv hkv
    rw [hF] at hkv
    obtain ⟨kv1, hkv1, rfl⟩ := List.mem_map.mp hkv
    rw [pyTrunc_of_nonneg kv1.2 (hRnn kv1 hkv1)]
    exact Int.floor_nonneg.mpr (hRnn kv1 hkv1)
  have hRemNN : 0 ≤ remainder := by
    have hle : (((floored.map (fun kv => kv.2)).sum : ℤ) : K) ≤ (shots : K) := by
      rw [hFvals, ← hRsum]
      exact sum_floor_le (raw.map (fun kv => kv.2))
    have hle2 : (floored.map (fun kv => kv.2)).sum ≤ shots := Int.cast_le.mp hle
    rw [hRem]
    omega
  have hpsne : ps ≠ [] := by
    intro h
    have h0 : totalP = 0 := by rw [hT, h]; simp
    rw [h0] at hpos
    exact lt_irrefl 0 hpos
  have hrawlen : raw.length = ps.length := by
    rw [hR, hP]; simp
  have hRemLt : remainder < (raw.length : ℤ) := by
    have hvne : raw.map (fun kv => kv.2) ≠ [] := by
      intro h
      have := congrArg List.length h
      simp only [List.length_map, List.length_nil] at this
      rw [hrawlen] at this
      exact hpsne (List.length_eq_zero.mp this)
    have hlt := sum_sub_floor_lt_len (raw.map (fun kv => kv.2)) hvne
    rw [hRsum, ← hFvals] at hlt
    have hcast : ((remainder : ℤ) : K) < ((raw.length : ℤ) : K) := by
      rw [hRem]
      push_cast
      push_cast at hlt
      simp only [List.length_map] at hlt
      linarith
    exact Int.cast_lt.mp hcast
  by_cases hrem : 0 < remainder
  · rw [if_pos hrem]
    set frac := stableSort descFracKey
      (raw.map (fun kv => (kv.2 - (pyTrunc kv.2 : K), kv.1))) with hFr
    set chosen := (frac.take remainder.toNat).map (fun fk => fk.2) with hCh
    have hfracperm : List.Perm frac
        (raw.map (fun kv => (kv.2 - (pyTrunc kv.2 : K), kv.1))) :=
      stableSort_perm descFracKey _
    have hfrackeys : List.Perm (frac.map (fun fk => fk.2))
        (ps.map (fun kv => kv.1)) := by
      have hpm := hfracperm.map (fun fk => fk.2)
      rw [List.map_map] at hpm
      rw [show ((fun fk : K × String => fk.2) ∘
          (fun kv : String × K => (kv.2 - (pyTrunc kv.2 : K), kv.1))) =
        (fun kv : String × K => kv.1) from rfl] at hpm
      rw [hRkeys] at hpm
      exact hpm
    have hchsub : ∀ k ∈ chosen, k ∈ ps.map (fun kv => kv.1) := by
      intro k hk
      rw [hCh] at hk
      obtain ⟨fk, hfk, rfl⟩ := List.mem_map.mp hk
      have hmem : fk ∈ frac := List.take_subset _ _ hfk
      exact hfrackeys.mem_iff.mp (List.mem_map_of_mem _ hmem)
    have hchnodup : chosen.Nodup := by
      rw [hCh, List.map_take]
      exact (List.take_sublist _ _).nodup (hfrackeys.nodup_iff.mpr hnodup)
    have hchlen : (chosen.length : ℤ) = remainder := by
      rw [hCh, List.length_map, List.length_take]
      have hfl : frac.length = raw.length := by
        rw [hfracperm.length_eq, List.length_map]
      have hta : remainder.toNat ≤ frac.length := by
        rw [hfl]; omega
      rw [min_eq_left hta, Int.toNat_of_nonneg hRemNN]
    have hinc_nn : ∀ kv ∈ floored.map
        (fun kv => if kv.1 ∈ chosen then (kv.1, kv.2 + 1) else kv), 0 ≤ kv.2 := by
      intro kv hkv
      obtain ⟨kv0, hkv0, rfl⟩ := List.mem_map.mp hkv
      by_cases hm : kv0.1 ∈ chosen
      · rw [if_pos hm]
        have := hFnn kv0 hkv0
        show (0 : ℤ) ≤ kv0.2 + 1
        omega
      · rw [if_neg hm]
        exact hFnn kv0 hkv0
    rw [sum_filter_pos _ hinc_nn, sum_incr_chosen, countP_key_mem]
    have hflen : ((floored.map (fun kv => kv.1)).filter
        (fun k => decide (k ∈ chosen))).length = chosen.length := by
      refine filter_mem_length _ _ ?_ hchnodup ?_
      · rw [hFkeys]; exact hnodup
      · intro a ha
        rw [hFkeys]
        exact hchsub a ha
    rw [hflen, hchlen]
    omega
  · rw [if_neg hrem]
    rw [sum_filter_pos floored hFnn]
    omega

theorem appendWithCond_numQubits {K : Type} (qc : CircuitRep K) (g : Gate K)
    (op : InstrOp K) (qc2 : CircuitRep K)
    (h : appendWithCond qc g op = .ok qc2) : qc2.numQubits = qc.numQubits := by
  unfold appendWithCond at h
  cases hc : applyCondition qc g with
  | error e => rw [hc] at h; simp only [except_bind_error] at h; cases h
  | ok c =>
    rw [hc] at h
    simp only [except_bind_ok] at h
    injection h with h
    rw [← h]

theorem applyGate_numQubits {K : Type} [LinearOrderedField K] [FloorRing K]
    (qc : CircuitRep K) (g : Gate K) (qc2 : CircuitRep K)
    (h : applyGate qc g = .ok qc2) : qc2.numQubits = qc.numQubits := by
  unfold applyGate at h
  simp only [] at h
  by_cases h1 : g.type = "h"
  · rw [if_pos h1] at h; exact appendWithCond_numQubits _ _ _ _ h
  rw [if_neg h1] at h
  by_cases h2 : g.type = "x"
  · rw [if_pos h2] at h; exact appendWithCond_numQubits _ _ _ _ h
  rw [if_neg h2] at h
  by_cases h3 : g.type = "y"
  · rw [if_pos h3] at h; exact appendWithCond_numQubits _ _ _ _ h
  rw [if_neg h3] at h
  by_cases h4 : g.type = "z"
  · rw [if_pos h4] at h; exact appendWithCond_numQubits _ _ _ _ h
  rw [if_neg h4] at h
  by_cases h5 : g.type = "s"
  · rw [if_pos h5] at h; exact appendWithCond_numQubits _ _ _ _ h
  rw [if_neg h5] at h
  by_cases h6 : g.type = "t"
  · rw [if_pos h6] at h; exact appendWithCond_numQubits _ _ _ _ h
  rw [if_neg h6] at h
  by_cases h7 : g.type = "rx"
  · rw [if_pos h7] at h; exact appendWithCond_numQubits _ _ _ _ h
  rw [if_neg h7] at h
  by_cases h8 : g.type = "ry"
  · rw [if_pos h8] at h; exact appendWithCond_numQubits _ _ _ _ h
  rw [if_neg h8] at h
  by_cases h9 : g.type = "rz"
  · rw [if_pos h9] at h; exact appendWithCond_numQubits _ _ _ _ h
  rw [if_neg h9] at h
  by_cases h10 : g.type = "p"
  · rw [if_pos h10] at h
    try simp only [] at h
    repeat' split at h
    all_goals try exact appendWithCond_numQubits _ _ _ _ h
    all_goals cases h
  rw [if_neg h10] at h
  by_cases h11 : g.type = "cp"
  · rw [if_pos h11] at h
    try simp only [] at h
    repeat' split at h
    all_goals try exact appendWithCond_numQubits _ _ _ _ h
    all_goals cases h
  rw [if_neg h11] at h
  by_cases h12 : g.type = "cnot" ∨ g.type = "cx"
  · rw [if_pos h12] at h
    repeat' split at h
    all_goals try exact appendWithCond_numQubits _ _ _ _ h
    all_goals cases h
  rw [if_neg h12] at h
  by_cases h13 : g.type = "cz"
  · rw [if_pos h13] at h
    repeat' split at h
    all_goals try exact appendWithCond_numQubits _ _ _ _ h
    all_goals cases h
  rw [if_neg h13] at h
  by_cases h14 : g.type = "swap"
  · rw [if_pos h14] at h
    try simp only [] at h
    repeat' split at h
    all_goals try exact appendWithCond_numQubits _ _ _ _ h
    all_goals cases h
  rw [if_neg h14] at h
  by_cases h15 : g.type = "toffoli" ∨ g.type = "ccx"
  · rw [if_pos h15] at h
    repeat' split at h
    all_goals try exact appendWithCond_numQubits _ _ _ _ h
    all_goals cases h
  rw [if_neg h15] at h
  by_cases h16 : g.type = "measure"
  · rw [if_pos h16] at h
    try simp only [] at h
    repeat' split at h
    all_goals try cases h
    all_goals
      obtain ⟨rot, hb, h⟩ := except_bind_eq_ok h
    all_goals
      injection h with h
    all_goals rw [← h]
  rw [if_neg h16] at h
  cases h

theorem applyGates_numQubits {K : Type} [LinearOrderedField K] [FloorRing K] :
    ∀ (gates : List (Gate K)) (qc qc2 : CircuitRep K),
      applyGates qc gates = .ok qc2 → qc2.numQubits = qc.numQubits := by
  intro gates
  induction gates with
  | nil =>
    intro qc qc2 h
    unfold applyGates at h
    rw [List.foldlM_nil] at h
    injection h with h
    rw [← h]
  | cons g gs ih =>
    intro qc qc2 h
    unfold applyGates at h
    rw [List.foldlM_cons] at h
    cases hg : applyGate qc g with
    | error e => rw [hg] at h; simp only [except_bind_error] at h; cases h
    | ok mid =>
      rw [hg] at h
      simp only [except_bind_ok] at h
      exact (ih mid qc2 h).trans (applyGate_numQubits qc g mid hg)

theorem svRotFold_numQubits {K : Type} [LinearOrderedField K] [FloorRing K] :
    ∀ (gs : List (Gate K)) (qc qc2 : CircuitRep K),
      gs.foldlM (fun qc g =>
        match (match g.qubit with | some q => some q | none => g.targets.head?) with
        | none => Except.ok qc
        | some target => do
          let rot ← basisRotationInstrs (normalizeBasis g.params.basis) target
          Except.ok { qc with
            instrs := qc.instrs ++ rot.map (fun op => (⟨op, none⟩ : Instr K)) })
        qc = .ok qc2 →
      qc2.numQubits = qc.numQubits := by
  intro gs
  induction gs with
  | nil =>
    intro qc qc2 h
    rw [List.foldlM_nil] at h
    injection h with h
    rw [← h]
  | cons g rest ih =>
    intro qc qc2 h
    rw [List.foldlM_cons] at h
    obtain ⟨mid, hmid, h⟩ := except_bind_eq_ok h
    refine (ih mid qc2 h).trans ?_
    revert hmid
    split
    · intro hmid; injection hmid with hmid; rw [← hmid]
    · intro hmid
      obtain ⟨rot, _, hmid⟩ := except_bind_eq_ok hmid
      injection hmid with hmid
      rw [← hmid]

theorem natBinChars_length : ∀ (w i : ℕ), (natBinChars w i).length = w := by
  intro w
  induction w with
  | zero => intro i; rfl
  | succ w ih =>
    intro i
    unfold natBinChars
    rw [List.length_append, ih (i / 2)]
    simp

theorem natBinChars_inj : ∀ (w i j : ℕ), i < 2 ^ w → j < 2 ^ w →
    natBinChars w i = natBinChars w j → i = j := by
  intro w
  induction w with
  | zero => intro i j hi hj _; simp only [pow_zero] at hi hj; omega
  | succ w ih =>
    intro i j hi hj h
    unfold natBinChars at h
    obtain ⟨h1, h2⟩ := List.append_inj h
      ((natBinChars_length w (i / 2)).trans (natBinChars_length w (j / 2)).symm)
    have h2p : 2 ^ (w + 1) = 2 ^ w * 2 := pow_succ 2 w
    have hdiv : i / 2 = j / 2 := ih (i / 2) (j / 2) (by omega) (by omega) h1
    have hmod : i % 2 = j % 2 := by
      injection h2 with hc _
      by_cases hi2 : i % 2 = 1
      · by_cases hj2 : j % 2 = 1
        · omega
        · rw [if_pos hi2, if_neg hj2] at hc
          exact absurd hc (by decide)
      · by_cases hj2 : j % 2 = 1
        · rw [if_neg hi2, if_pos hj2] at hc
          exact absurd hc (by decide)
        · omega
    omega

theorem formatStatevector_keys_nodup {K : Type} [LinearOrderedField K] (n : ℕ)
    (sv : List (Cplx K)) (hlen : sv.length = 2 ^ n) :
    ((formatStatevector n sv).map (fun kv => kv.1)).Nodup := by
  unfold formatStatevector
  rw [List.map_map]
  rw [show ((fun kv : String × K × K => kv.1) ∘
      (fun ia : ℕ × Cplx K => (bitString n ia.1, (ia.2.re, ia.2.im)))) =
    ((fun i => bitString n i) ∘ Prod.fst) from rfl]
  rw [← List.map_map, List.enum_map_fst, hlen]
  refine List.Nodup.map_on ?_ (List.nodup_range _)
  intro i hi j hj hbs
  refine natBinChars_inj n i j (List.mem_range.mp hi) (List.mem_range.mp hj) ?_
  have := congrArg String.data hbs
  exact this

theorem formatStatevector_prob_vals {K : Type} [LinearOrderedField K] (n : ℕ)
    (sv : List (Cplx K)) :
    (((formatStatevector n sv).map
        (fun kv => (kv.1, kv.2.1 * kv.2.1 + kv.2.2 * kv.2.2))).map
      (fun kv => kv.2)) = sv.map Cplx.sqAbs := by
  unfold formatStatevector
  rw [List.map_map, List.map_map]
  rw [show (((fun kv : String × K => kv.2) ∘
      (fun kv : String × K × K => (kv.1, kv.2.1 * kv.2.1 + kv.2.2 * kv.2.2))) ∘
        (fun ia : ℕ × Cplx K => (bitString n ia.1, (ia.2.re, ia.2.im)))) =
    (Cplx.sqAbs ∘ Prod.snd) from rfl]
  rw [← List.map_map, List.enum_map_snd]

theorem formatStatevector_prob_keys {K : Type} [LinearOrderedField K] (n : ℕ)
    (sv : List (Cplx K)) :
    (((formatStatevector n sv).map
        (fun kv => (kv.1, kv.2.1 * kv.2.1 + kv.2.2 * kv.2.2))).map
      (fun kv => kv.1)) = (formatStatevector n sv).map (fun kv => kv.1) := by
  rw [List.map_map]
  rfl

theorem addAssoc_sum {K : Type} [LinearOrderedField K] (l : List (String × K))
    (k : String) (v : K) :
    ((addAssoc l k v).map (fun kv => kv.2)).sum =
      (l.map (fun kv => kv.2)).sum + v := by
  induction l with
  | nil => simp [addAssoc]
  | cons kv rest ih =>
    obtain ⟨k2, v2⟩ := kv
    unfold addAssoc
    by_cases hk : k2 = k
    · rw [if_pos hk]
      simp only [List.map_cons, List.sum_cons]
      ring
    · rw [if_neg hk]
      simp only [List.map_cons, List.sum_cons, ih]
      ring

theorem addAssoc_keys {K : Type} [LinearOrderedField K] (l : List (String × K))
    (k : String) (v : K) :
    (addAssoc l k v).map (fun kv => kv.1) =
      if k ∈ l.map (fun kv => kv.1) then l.map (fun kv => kv.1)
      else l.map (fun kv => kv.1) ++ [k] := by
  induction l with
  | nil => simp [addAssoc]
  | cons kv rest ih =>
    obtain ⟨k2, v2⟩ := kv
    unfold addAssoc
    by_cases hk : k2 = k
    · rw [if_pos hk]
      rw [if_pos (by simp [hk])]
      simp
    · rw [if_neg hk]
      simp only [List.map_cons, ih]
      by_cases hm : k ∈ rest.map (fun kv => kv.1)
      · rw [if_pos hm, if_pos (by simp [hm])]
      · rw [if_neg hm,
          if_neg (fun hc => (List.mem_cons.mp hc).elim
            (fun h12 => hk h12.symm) hm)]
        simp

theorem addAssoc_keys_nodup {K : Type} [LinearOrderedField K]
    (l : List (String × K)) (k : String) (v : K)
    (h : (l.map (fun kv => kv.1)).Nodup) :
    ((addAssoc l k v).map (fun kv => kv.1)).Nodup := by
  rw [addAssoc_keys]
  by_cases hm : k ∈ l.map (fun kv => kv.1)
  · rw [if_pos hm]; exact h
  · rw [if_neg hm]
    rw [List.nodup_append]
    exact ⟨h, List.nodup_singleton k, by
      intro a ha hb
      rw [List.mem_singleton] at hb
      exact hm (hb ▸ ha)⟩

theorem addAssoc_nonneg {K : Type} [LinearOrderedField K]
    (l : List (String × K)) (k : String) (v : K)
    (hl : ∀ kv ∈ l, 0 ≤ kv.2) (hv : 0 ≤ v) :
    ∀ kv ∈ addAssoc l k v, 0 ≤ kv.2 := by
  induction l with
  | nil =>
    intro kv hkv
    rw [show addAssoc ([] : List (String × K)) k v = [(k, v)] from rfl] at hkv
    rcases List.mem_singleton.mp hkv with rfl
    exact hv
  | cons kv0 rest ih =>
    obtain ⟨k2, v2⟩ := kv0
    intro kv hkv
    unfold addAssoc at hkv
    by_cases hk : k2 = k
    · rw [if_pos hk] at hkv
      rcases List.mem_cons.mp hkv with rfl | hkv
      · exact add_nonneg (hl (k2, v2) (List.mem_cons_self _ _)) hv
      · exact hl kv (List.mem_cons_of_mem _ hkv)
    · rw [if_neg hk] at hkv
      rcases List.mem_cons.mp hkv with rfl | hkv
      · exact hl (k2, v2) (List.mem_cons_self _ _)
      · exact ih (fun x hx => hl x (List.mem_cons_of_mem _ hx)) kv hkv

theorem accumState_sum {K : Type} [LinearOrderedField K] (w : K) (n : ℕ) :
    ∀ (s : List (Cplx K)) (idx : ℕ) (acc : List (String × K)),
      ((accumState w n idx s acc).map (fun kv => kv.2)).sum =
        (acc.map (fun kv => kv.2)).sum + w * (s.map Cplx.sqAbs).sum := by
  intro s
  induction s with
  | nil => intro idx acc; simp [accumState]
  | cons a rest ih =>
    intro idx acc
    unfold accumState
    by_cases hpos : 0 < a.sqAbs
    · rw [if_pos hpos, ih, addAssoc_sum]
      simp only [List.map_cons, List.sum_cons]
      ring
    · rw [if_neg hpos, ih]
      have h0 : a.sqAbs = 0 := le_antisymm (not_lt.mp hpos) (sqAbs_nonneg a)
      simp only [List.map_cons, List.sum_cons, h0]
      ring

theorem accumState_keys_nodup {K : Type} [LinearOrderedField K] (w : K) (n : ℕ) :
    ∀ (s : List (Cplx K)) (idx : ℕ) (acc : List (String × K)),
      (acc.map (fun kv => kv.1)).Nodup →
      ((accumState w n idx s acc).map (fun kv => kv.1)).Nodup := by
  intro s
  induction s with
  | nil => intro idx acc h; simpa [accumState] using h
  | cons a rest ih =>
    intro idx acc h
    unfold accumState
    by_cases hpos : 0 < a.sqAbs
    · rw [if_pos hpos]
      exact ih (idx + 1) _ (addAssoc_keys_nodup _ _ _ h)
    · rw [if_neg hpos]
      exact ih (idx + 1) acc h

theorem accumState_nonneg {K : Type} [LinearOrderedField K] (w : K) (n : ℕ)
    (hw : 0 ≤ w) :
    ∀ (s : List (Cplx K)) (idx : ℕ) (acc : List (String × K)),
      (∀ kv ∈ acc, 0 ≤ kv.2) →
      ∀ kv ∈ accumState w n idx s acc, 0 ≤ kv.2 := by
  intro s
  induction s with
  | nil => intro idx acc h; simpa [accumState] using h
  | cons a rest ih =>
    intro idx acc h
    unfold accumState
    by_cases hpos : 0 < a.sqAbs
    · rw [if_pos hpos]
      exact ih (idx + 1) _
        (addAssoc_nonneg _ _ _ h (mul_nonneg hw (sqAbs_nonneg a)))
    · rw [if_neg hpos]
      exact ih (idx + 1) acc h

theorem aggregate_fold_facts {K : Type} [LinearOrderedField K] (n : ℕ) :
    ∀ (branches : List (Branch K)),
      (∀ b ∈ branches, 0 < b.mass ∧ svNormSq b.state = 1) →
      ∀ (acc : List (String × K)), (acc.map (fun kv => kv.1)).Nodup →
        (∀ kv ∈ acc, 0 ≤ kv.2) →
        (((branches.foldl (fun acc br =>
            if br.mass ≤ 0 then acc
            else accumState br.mass n 0 br.state acc) acc).map
          (fun kv => kv.1)).Nodup ∧
        (∀ kv ∈ branches.foldl (fun acc br =>
            if br.mass ≤ 0 then acc
            else accumState br.mass n 0 br.state acc) acc, 0 ≤ kv.2) ∧
        ((branches.foldl (fun acc br =>
            if br.mass ≤ 0 then acc
            else accumState br.mass n 0 br.state acc) acc).map
          (fun kv => kv.2)).sum =
          (acc.map (fun kv => kv.2)).sum + (branches.map Branch.mass).sum) := by
  intro branches
  induction branches with
  | nil =>
    intro _ acc h1 h2
    refine ⟨h1, h2, by simp⟩
  | cons br rest ih =>
    intro hgood acc h1 h2
    rw [List.foldl_cons]
    have hbr := hgood br (List.mem_cons_self br rest)
    rw [if_neg (not_le.mpr hbr.1)]
    obtain ⟨ih1, ih2, ih3⟩ := ih
      (fun b hb => hgood b (List.mem_cons_of_mem br hb))
      (accumState br.mass n 0 br.state acc)
      (accumState_keys_nodup br.mass n br.state 0 acc h1)
      (accumState_nonneg br.mass n hbr.1.le br.state 0 acc h2)
    refine ⟨ih1, ih2, ?_⟩
    rw [ih3, accumState_sum br.mass n br.state 0 acc,
      show (br.state.map Cplx.sqAbs).sum = svNormSq br.state from rfl, hbr.2]
    simp only [List.map_cons, List.sum_cons]
    ring

theorem renormalize_of_sum_one {K : Type} [LinearOrderedField K]
    (probs : List (String × K))
    (h : (probs.map (fun kv => kv.2)).sum = 1) :
    renormalizeProbabilities probs = probs := by
  unfold renormalizeProbabilities
  simp only [h]
  rw [if_neg]
  intro hc
  have := hc.2
  norm_num at this

/-- C1: for every completed request, under any execution method, the sum
of the integer values of the returned counts equals the requested shot
count exactly: on the exact fast path and in branching execution this is
ensured by the largest-remainder rounding pass over the normalized
distribution (`_probabilities_to_counts`), and on the sampled path by the
backend-counts contract.  Hypotheses: the spec's `1 ≤ shots` bound and the
documented contracts of `math.sqrt`, statevector evolution, exact
simulation and the Aer sampler. -/
theorem counts_sum_equals_shots {K : Type} [LinearOrderedField K]
    [FloorRing K] {σ : Type} (env : QiskitEnv K σ) (hs : SqrtContract env.sqrt)
    (he : EvolvePreservesNorm env) (hsim : SimulateContract env)
    (hbc : BackendCountsContract env) (seed : σ) (envMaxQubits : Option ℕ)
    (overrideBackend : Option String) (numQubits : ℕ) (gates : List (Gate K))
    (method : String) (shots : ℤ) (memory includeMetrics : Bool)
    (cosmicApproach : Option String)
    (measurementConfig : Option MeasurementConfig)
    (hsh : 0 < shots) (out : RunResult K)
    (h : runCircuit env seed envMaxQubits overrideBackend numQubits gates
      method shots memory includeMetrics cosmicApproach measurementConfig =
      .ok out) :
    (out.counts.map (fun kv => kv.2)).sum = shots := by
  unfold runCircuit at h
  simp only [] at h
  set mn := pyStripLower (if method = "" then "qasm" else method) with hmn
  by_cases hv : ¬(mn = "qasm" ∨ mn = "statevector" ∨ mn = "noisy")
  · rw [if_pos hv] at h; cases h
  rw [if_neg hv] at h
  by_cases hsv : mn = "statevector"
  · rw [if_pos hsv] at h
    by_cases hcap : envMaxQubits.getD 10 < numQubits
    · rw [if_pos hcap] at h; cases h
    rw [if_neg hcap] at h
    split at h
    · -- exact fast path
      obtain ⟨qcSv, hqc, h⟩ := except_bind_eq_ok h
      obtain ⟨qcSv2, hqc2, h⟩ := except_bind_eq_ok h
      obtain ⟨sv, hsvec, h⟩ := except_bind_eq_ok h
      have hcounts : out.counts = probabilitiesToCounts
          ((formatStatevector numQubits sv).map
            (fun kv => (kv.1, kv.2.1 * kv.2.1 + kv.2.2 * kv.2.2))) shots := by
        by_cases him : includeMetrics = true
        · rw [if_pos him] at h
          obtain ⟨cm, hcm, h⟩ := except_bind_eq_ok h
          injection h with h
          rw [← h]
        · rw [if_neg him] at h
          simp only [except_bind_ok] at h
          injection h with h
          rw [← h]
      rw [hcounts]
      have hlen : sv.length = 2 ^ numQubits := by
        have hc := (hsim _ sv hsvec).2
        rw [svRotFold_numQubits _ _ _ hqc2, applyGates_numQubits _ _ _ hqc] at hc
        exact hc
      have hnorm : svNormSq sv = 1 := (hsim _ sv hsvec).1
      refine probabilitiesToCounts_sum _ shots hsh ?_ ?_ ?_
      · rw [formatStatevector_prob_keys]
        exact formatStatevector_keys_nodup numQubits sv hlen
      · intro kv hkv
        obtain ⟨kv0, _, rfl⟩ := List.mem_map.mp hkv
        have h1 : (0 : K) ≤ kv0.2.1 * kv0.2.1 := mul_self_nonneg _
        have h2 : (0 : K) ≤ kv0.2.2 * kv0.2.2 := mul_self_nonneg _
        show (0 : K) ≤ kv0.2.1 * kv0.2.1 + kv0.2.2 * kv0.2.2
        linarith
      · rw [formatStatevector_prob_vals,
          show (sv.map Cplx.sqAbs).sum = svNormSq sv from rfl, hnorm]
        exact one_pos
    · -- branching path
      obtain ⟨branches, hbr, h⟩ := except_bind_eq_ok h
      have hcounts : out.counts = probabilitiesToCounts
          (renormalizeProbabilities
            (aggregateProbabilities numQubits branches)) shots := by
        by_cases him : includeMetrics = true
        · rw [if_pos him] at h
          obtain ⟨cm, hcm, h⟩ := except_bind_eq_ok h
          injection h with h
          rw [← h]
        · rw [if_neg him] at h
          simp only [except_bind_ok] at h
          injection h with h
          rw [← h]
      rw [hcounts]
      have hgood : GoodBranchSet branches :=
        processGates_fold_good env hs he numQubits _ (initialBranches K numQubits)
          branches hbr (initialBranches_good numQubits)
      obtain ⟨hknd, hnn, hsum⟩ := aggregate_fold_facts numQubits branches hgood.1
        [] (by simp) (by simp)
      have hsum1 : ((aggregateProbabilities numQubits branches).map
          (fun kv => kv.2)).sum = 1 := by
        rw [show aggregateProbabilities numQubits branches =
          branches.foldl (fun acc br =>
            if br.mass ≤ 0 then acc
            else accumState br.mass numQubits 0 br.state acc) [] from rfl]
        rw [hsum]
        simpa using hgood.2
      rw [renormalize_of_sum_one _ hsum1]
      refine probabilitiesToCounts_sum _ shots hsh ?_ ?_ ?_
      · exact hknd
      · exact hnn
      · rw [hsum1]; exact one_pos
  · -- sampled path (qasm / noisy)
    rw [if_neg hsv] at h
    obtain ⟨qcFull, hqf, h⟩ := except_bind_eq_ok h
    obtain ⟨out0, hrun, h⟩ := except_bind_eq_ok h
    have hcounts : out.counts = out0.counts := by
      by_cases him : includeMetrics = true
      · rw [if_pos him] at h
        obtain ⟨cm, hcm, h⟩ := except_bind_eq_ok h
        injection h with h
        rw [← h]
      · rw [if_neg him] at h
        simp only [except_bind_ok] at h
        injection h with h
        rw [← h]
    rw [hcounts]
    exact hbc qcFull shots memory _ seed out0 hrun

/-- Witness for C1: a one-qubit Hadamard circuit sampled with 100 shots
over `ℝ` (where every contract hypothesis holds) completes, and its counts
sum to 100. -/
theorem counts_sum_equals_shots_witness :
    ∃ out, runCircuit
        (⟨Real.sqrt, fun _ s => .ok s,
          fun qc => .ok (basisStateZero ℝ qc.numQubits),
          fun _ sh _ _ _ => .ok ⟨[("0", sh)], none⟩⟩ : QiskitEnv ℝ Unit) ()
        none none 1 [Gate.simple "h" 0 0] "qasm" 100 false false none none =
      .ok out ∧ (out.counts.map (fun kv => kv.2)).sum = 100 := by
  have hs : SqrtContract (K := ℝ) Real.sqrt := fun x hx =>
    ⟨Real.sqrt_pos.mpr hx, Real.mul_self_sqrt hx.le⟩
  have he : EvolvePreservesNorm
      (⟨Real.sqrt, fun _ s => .ok s,
        fun qc => .ok (basisStateZero ℝ qc.numQubits),
        fun _ sh _ _ _ => .ok ⟨[("0", sh)], none⟩⟩ : QiskitEnv ℝ Unit) := by
    intro qc s s2 h
    injection h with h
    rw [h]
  have hsim : SimulateContract
      (⟨Real.sqrt, fun _ s => .ok s,
        fun qc => .ok (basisStateZero ℝ qc.numQubits),
        fun _ sh _ _ _ => .ok ⟨[("0", sh)], none⟩⟩ : QiskitEnv ℝ Unit) := by
    intro qc sv h
    injection h with h
    rw [← h]
    exact ⟨svNormSq_basisStateZero _, by simp [basisStateZero]⟩
  have hbc : BackendCountsContract
      (⟨Real.sqrt, fun _ s => .ok s,
        fun qc => .ok (basisStateZero ℝ qc.numQubits),
        fun _ sh _ _ _ => .ok ⟨[("0", sh)], none⟩⟩ : QiskitEnv ℝ Unit) := by
    intro qc sh mem nz sd o h
    injection h with h
    rw [← h]
    simp
  have hok : (runCircuit
      (⟨Real.sqrt, fun _ s => .ok s,
        fun qc => .ok (basisStateZero ℝ qc.numQubits),
        fun _ sh _ _ _ => .ok ⟨[("0", sh)], none⟩⟩ : QiskitEnv ℝ Unit) ()
      none none 1 [Gate.simple "h" 0 0] "qasm" 100 false false none
      none).isOk = true := by rfl
  obtain ⟨out, hout⟩ : ∃ out, runCircuit
      (⟨Real.sqrt, fun _ s => .ok s,
        fun qc => .ok (basisStateZero ℝ qc.numQubits),
        fun _ sh _ _ _ => .ok ⟨[("0", sh)], none⟩⟩ : QiskitEnv ℝ Unit) ()
      none none 1 [Gate.simple "h" 0 0] "qasm" 100 false false none none =
      .ok out := by
    cases hx : runCircuit
        (⟨Real.sqrt, fun _ s => .ok s,
          fun qc => .ok (basisStateZero ℝ qc.numQubits),
          fun _ sh _ _ _ => .ok ⟨[("0", sh)], none⟩⟩ : QiskitEnv ℝ Unit) ()
        none none 1 [Gate.simple "h" 0 0] "qasm" 100 false false none none with
    | ok o => exact ⟨o, rfl⟩
    | error e =>
      rw [hx] at hok
      exact Bool.noConfusion hok
  exact ⟨out, hout, counts_sum_equals_shots _ hs he hsim hbc () none none 1
    [Gate.simple "h" 0 0] "qasm" 100 false false none none (by norm_num) out
    hout⟩

end QuantumFlow
